import Mathlib

/-!
A verification development for the translation-reconciliation engine of the
`j5-ts-generator-i18n-plugin` package (`src/helpers.ts`, `src/plugin.ts`).

The embedding models JavaScript values as follows: JS `Map`s become
association lists with distinct keys (insertion order preserved, `set`
replaces in place), `string | undefined` becomes `Option String`, parsed
JSON resource content becomes an inductive tree of string leaves, and the
runtime object graph produced by `lodash.setwith` (which can contain
`String` wrapper objects created by the `Object` customizer) becomes a
separate inductive type.  JavaScript string keys are split at `'.'`
characters by an explicit character-level splitter so that all arguments
can proceed by list induction; this matches `String.prototype.split('.')`
and the bracket-free fragment of the lodash path syntax.
-/

namespace I18n

/-! ### Splitting and joining dot paths -/

/-- Splits a character list at every `'.'`, keeping empty groups, exactly like
JavaScript's `"…".split('.')` (and lodash's path parser on bracket-free keys,
including its treatment of a leading dot). -/
def splitCharsOnDot : List Char → List (List Char)
  | [] => [[]]
  | c :: rest =>
    match splitCharsOnDot rest with
    | [] => [[]]
    | g :: gs => if c = '.' then [] :: g :: gs else (c :: g) :: gs

/-- Joins character groups with `'.'` separators; inverse of `splitCharsOnDot`. -/
def joinCharsDot : List (List Char) → List Char
  | [] => []
  | [g] => g
  | g :: g2 :: gs => g ++ '.' :: joinCharsDot (g2 :: gs)

theorem splitCharsOnDot_ne_nil (l : List Char) : splitCharsOnDot l ≠ [] := by
  cases l with
  | nil => simp [splitCharsOnDot]
  | cons c rest =>
    simp only [splitCharsOnDot]
    cases h : splitCharsOnDot rest with
    | nil => simp
    | cons g gs =>
      by_cases hc : c = '.' <;> simp [hc]

theorem joinCharsDot_splitCharsOnDot (l : List Char) :
    joinCharsDot (splitCharsOnDot l) = l := by
  induction l with
  | nil => rfl
  | cons c rest ih =>
    simp only [splitCharsOnDot]
    cases h : splitCharsOnDot rest with
    | nil => exact absurd h (splitCharsOnDot_ne_nil rest)
    | cons g gs =>
      rw [h] at ih
      by_cases hc : c = '.'
      · subst hc
        simpa [joinCharsDot] using ih
      · simp only [if_neg hc]
        cases gs with
        | nil => simpa [joinCharsDot] using ih
        | cons g2 gs2 => simpa [joinCharsDot] using ih

theorem dot_not_mem_of_mem_splitCharsOnDot (l : List Char) :
    ∀ g ∈ splitCharsOnDot l, '.' ∉ g := by
  induction l with
  | nil =>
    intro g hg
    simp only [splitCharsOnDot, List.mem_singleton] at hg
    simp [hg]
  | cons c rest ih =>
    intro g hg
    simp only [splitCharsOnDot] at hg
    cases h : splitCharsOnDot rest with
    | nil => exact absurd h (splitCharsOnDot_ne_nil rest)
    | cons g0 gs =>
      rw [h] at hg
      rw [h] at ih
      by_cases hc : c = '.'
      · simp only [if_pos hc, List.mem_cons] at hg
        rcases hg with hg | hg | hg
        · simp [hg]
        · exact ih g (by simp [hg])
        · exact ih g (List.mem_cons_of_mem g0 hg)
      · simp only [if_neg hc, List.mem_cons] at hg
        rcases hg with hg | hg
        · subst hg
          intro hmem
          rcases List.mem_cons.mp hmem with h1 | h1
          · exact hc h1.symm
          · exact ih g0 (List.mem_cons_self g0 gs) h1
        · exact ih g (List.mem_cons_of_mem g0 hg)

theorem splitCharsOnDot_append_dot (l r : List Char) :
    splitCharsOnDot (l ++ '.' :: r) = splitCharsOnDot l ++ splitCharsOnDot r := by
  induction l with
  | nil =>
    simp only [List.nil_append, splitCharsOnDot]
    cases h : splitCharsOnDot r with
    | nil => exact absurd h (splitCharsOnDot_ne_nil r)
    | cons g gs => simp [splitCharsOnDot, h]
  | cons c lrest ih =>
    cases h : splitCharsOnDot lrest with
    | nil => exact absurd h (splitCharsOnDot_ne_nil lrest)
    | cons g gs =>
      simp only [List.cons_append, splitCharsOnDot, List.append_eq]
      rw [ih, h]
      by_cases hc : c = '.' <;> simp [hc]

theorem splitCharsOnDot_of_dotFree (g : List Char) (h : '.' ∉ g) :
    splitCharsOnDot g = [g] := by
  induction g with
  | nil => rfl
  | cons c grest ih =>
    have hcd : c ≠ '.' := fun hcc => h (by simp [hcc])
    have hrest : '.' ∉ grest := fun hm => h (List.mem_cons_of_mem c hm)
    simp only [splitCharsOnDot, ih hrest]
    simp [hcd]

theorem splitCharsOnDot_joinCharsDot (gs : List (List Char)) (hne : gs ≠ [])
    (hdot : ∀ g ∈ gs, '.' ∉ g) : splitCharsOnDot (joinCharsDot gs) = gs := by
  induction gs with
  | nil => exact absurd rfl hne
  | cons g rest ih =>
    cases rest with
    | nil =>
      show splitCharsOnDot (joinCharsDot [g]) = [g]
      simp only [joinCharsDot]
      exact splitCharsOnDot_of_dotFree g (hdot g (List.mem_cons_self g []))
    | cons g2 rest2 =>
      have hjoin : joinCharsDot (g :: g2 :: rest2) = g ++ '.' :: joinCharsDot (g2 :: rest2) := rfl
      rw [hjoin, splitCharsOnDot_append_dot]
      have hrest : splitCharsOnDot (joinCharsDot (g2 :: rest2)) = g2 :: rest2 :=
        ih (by simp) (fun x hx => hdot x (List.mem_cons_of_mem g hx))
      rw [hrest, splitCharsOnDot_of_dotFree g (hdot g (List.mem_cons_self g (g2 :: rest2)))]
      rfl

theorem joinCharsDot_append_of_ne_nil (gs t : List (List Char)) (hgs : gs ≠ [])
    (ht : t ≠ []) : joinCharsDot (gs ++ t) = joinCharsDot gs ++ '.' :: joinCharsDot t := by
  induction gs with
  | nil => exact absurd rfl hgs
  | cons g rest ih =>
    cases rest with
    | nil =>
      cases t with
      | nil => exact absurd rfl ht
      | cons t1 ts => rfl
    | cons g2 rest2 =>
      have hr := ih (by simp)
      show joinCharsDot (g :: (g2 :: rest2) ++ t) =
        (g ++ '.' :: joinCharsDot (g2 :: rest2)) ++ '.' :: joinCharsDot t
      have hcons : joinCharsDot (g :: ((g2 :: rest2) ++ t)) =
          g ++ '.' :: joinCharsDot ((g2 :: rest2) ++ t) := by
        cases t with
        | nil => exact absurd rfl ht
        | cons t1 ts => rfl
      simp only [List.cons_append, hcons] at *
      rw [hr]
      simp

/-- A strict list prefix is lexicographically smaller (character lists). -/
theorem charList_lt_of_strict_pre {l l' : List Char} (h : l <+: l') (hne : l ≠ l') :
    l < l' := by
  obtain ⟨t, rfl⟩ := h
  have ht : t ≠ [] := by
    intro h0
    subst h0
    simp at hne
  show List.Lex (fun a b : Char => a < b) l (l ++ t)
  induction l with
  | nil =>
    cases t with
    | nil => exact absurd rfl ht
    | cons c ts => exact List.Lex.nil
  | cons a as ih =>
    exact List.Lex.cons (ih (by simp [ht]))

/-- String-level key splitting: the dot-path segments of a JS string key.
This is the path `lodash.setwith`'s `castPath`/`stringToPath` produces for a
key containing neither `'['` nor `']'` (a dot-free such key is taken whole by
`isKey`, a dotted one is split at every dot with a leading dot contributing
an empty first segment and empty runs kept — which is exactly this
splitter).  Keys holding a bracket group such as `a["b.c"]` are parsed
differently by lodash and lie outside this embedding's domain; every theorem
whose meaning depends on the built object graph therefore carries an
explicit bracket-free hypothesis (`bracketFree`). -/
def splitKey (s : String) : List String := (splitCharsOnDot s.data).map String.mk

/-- String-level joining of dot-path segments. -/
def joinSegs (segs : List String) : String := String.mk (joinCharsDot (segs.map String.data))

theorem splitKey_ne_nil (s : String) : splitKey s ≠ [] := by
  simp [splitKey, splitCharsOnDot_ne_nil]

theorem joinSegs_splitKey (s : String) : joinSegs (splitKey s) = s := by
  cases s with
  | mk data =>
    simp only [splitKey, joinSegs, List.map_map]
    have hid : (String.data ∘ String.mk) = id := by
      funext l
      rfl
    rw [hid, List.map_id, joinCharsDot_splitCharsOnDot]

theorem splitKey_injective : Function.Injective splitKey := by
  intro a b h
  have h2 := congrArg joinSegs h
  rwa [joinSegs_splitKey, joinSegs_splitKey] at h2

/-- Every segment produced by `splitKey` is free of `'.'` characters. -/
theorem splitKey_dotFree (s : String) : ∀ seg ∈ splitKey s, '.' ∉ seg.data := by
  intro seg hseg
  simp only [splitKey, List.mem_map] at hseg
  obtain ⟨g, hg, hseg⟩ := hseg
  subst hseg
  exact dot_not_mem_of_mem_splitCharsOnDot s.data g hg

theorem splitKey_of_dotFree (s : String) (h : '.' ∉ s.data) : splitKey s = [s] := by
  simp [splitKey, splitCharsOnDot_of_dotFree s.data h]

/-- A strict dot-path ancestor is smaller in raw string order, so the sort by
key always places it before all of its descendants. -/
theorem key_lt_of_strict_seg_pre {p k : String} (h : splitKey p <+: splitKey k)
    (hne : p ≠ k) : p.data < k.data := by
  have hchar : splitCharsOnDot p.data <+: splitCharsOnDot k.data := by
    have hmap := h.map String.data
    simpa [splitKey, List.map_map, (by funext l; rfl : (String.data ∘ String.mk) = id)]
      using hmap
  obtain ⟨t, hjoin⟩ := hchar
  have ht : t ≠ [] := by
    intro h0
    subst h0
    simp only [List.append_nil] at hjoin
    exact hne (by
      have := congrArg joinCharsDot hjoin
      rw [joinCharsDot_splitCharsOnDot, joinCharsDot_splitCharsOnDot] at this
      exact String.ext this)
  have hk : k.data = p.data ++ '.' :: joinCharsDot t := by
    have := congrArg joinCharsDot hjoin
    rw [joinCharsDot_splitCharsOnDot] at this
    rw [joinCharsDot_append_of_ne_nil (splitCharsOnDot p.data) t
      (splitCharsOnDot_ne_nil p.data) ht, joinCharsDot_splitCharsOnDot] at this
    exact this.symm
  rw [hk]
  exact charList_lt_of_strict_pre ⟨'.' :: joinCharsDot t, rfl⟩ (by simp)

end I18n


namespace I18n

/-! ### JavaScript `Map`s as association lists

`Map.prototype.set` overwrites an existing key in place and appends a fresh
key at the end; `Map.prototype.get` returns `undefined` for a missing key. -/

/-- JS `Map.get`. -/
def mapGet {α : Type} : List (String × α) → String → Option α
  | [], _ => none
  | (k', v) :: rest, k => if k' = k then some v else mapGet rest k

/-- JS `Map.set` (also used for plain-object property assignment, which has
the same replace-in-place / append-fresh semantics). -/
def mapSet {α : Type} : List (String × α) → String → α → List (String × α)
  | [], k, v => [(k, v)]
  | (k', v') :: rest, k, v =>
    if k' = k then (k, v) :: rest else (k', v') :: mapSet rest k v

/-- JS `Map.keys()` (in insertion order). -/
def mapKeys {α : Type} (m : List (String × α)) : List String := m.map Prod.fst

theorem mapGet_set_self {α : Type} (m : List (String × α)) (k : String) (v : α) :
    mapGet (mapSet m k v) k = some v := by
  induction m with
  | nil => simp [mapGet, mapSet]
  | cons e rest ih =>
    obtain ⟨k', v'⟩ := e
    by_cases h : k' = k
    · simp [mapSet, mapGet, h]
    · simp [mapSet, mapGet, h, ih]

theorem mapGet_set_ne {α : Type} (m : List (String × α)) (k k' : String) (v : α)
    (h : k' ≠ k) : mapGet (mapSet m k v) k' = mapGet m k' := by
  have hne : k ≠ k' := Ne.symm h
  induction m with
  | nil => simp [mapGet, mapSet, hne]
  | cons e rest ih =>
    obtain ⟨k0, v0⟩ := e
    by_cases h0 : k0 = k
    · subst h0
      simp [mapSet, mapGet, hne]
    · simp only [mapSet, if_neg h0, mapGet]
      by_cases h1 : k0 = k' <;> simp [h1, ih]

theorem mapGet_eq_none_iff {α : Type} (m : List (String × α)) (k : String) :
    mapGet m k = none ↔ k ∉ mapKeys m := by
  induction m with
  | nil => simp [mapGet, mapKeys]
  | cons e rest ih =>
    obtain ⟨k', v'⟩ := e
    by_cases h : k' = k
    · subst h
      simp [mapGet, mapKeys]
    · simp only [mapGet, if_neg h, mapKeys, List.map_cons, List.mem_cons]
      constructor
      · intro hh
        rw [ih] at hh
        push_neg
        exact ⟨fun he => h he.symm, by simpa [mapKeys] using hh⟩
      · intro hh
        rw [ih]
        push_neg at hh
        simpa [mapKeys] using hh.2

theorem mapGet_isSome_iff {α : Type} (m : List (String × α)) (k : String) :
    (mapGet m k).isSome = true ↔ k ∈ mapKeys m := by
  rcases hm : mapGet m k with _ | v
  · rw [mapGet_eq_none_iff] at hm
    simp [hm]
  · simp only [Option.isSome_some, true_iff]
    by_contra hk
    rw [← mapGet_eq_none_iff] at hk
    simp [hm] at hk

theorem mapKeys_set_mem {α : Type} (m : List (String × α)) (k : String) (v : α)
    (h : k ∈ mapKeys m) : mapKeys (mapSet m k v) = mapKeys m := by
  induction m with
  | nil => simp [mapKeys] at h
  | cons e rest ih =>
    obtain ⟨k', v'⟩ := e
    by_cases h0 : k' = k
    · simp [mapSet, mapKeys, h0]
    · have hm : k ∈ mapKeys rest := by
        simp only [mapKeys, List.map_cons, List.mem_cons] at h
        rcases h with h | h
        · exact absurd h.symm h0
        · exact h
      have hr := ih hm
      simp only [mapSet, if_neg h0, mapKeys, List.map_cons] at *
      rw [hr]

theorem mapSet_fresh {α : Type} (m : List (String × α)) (k : String) (v : α)
    (h : k ∉ mapKeys m) : mapSet m k v = m ++ [(k, v)] := by
  induction m with
  | nil => simp [mapSet]
  | cons e rest ih =>
    obtain ⟨k', v'⟩ := e
    have h0 : k' ≠ k := by
      intro hh
      exact h (by simp [mapKeys, hh])
    have hrest : k ∉ mapKeys rest := by
      intro hh
      refine h ?_
      simp only [mapKeys, List.map_cons, List.mem_cons]
      exact Or.inr (by simpa [mapKeys] using hh)
    simp [mapSet, h0, ih hrest]

theorem mapKeys_set_nodup {α : Type} (m : List (String × α)) (k : String) (v : α)
    (h : (mapKeys m).Nodup) : (mapKeys (mapSet m k v)).Nodup := by
  by_cases hk : k ∈ mapKeys m
  · rwa [mapKeys_set_mem m k v hk]
  · rw [mapSet_fresh m k v hk]
    simp only [mapKeys, List.map_append, List.map_cons, List.map_nil]
    rw [List.nodup_append]
    refine ⟨h, List.nodup_singleton k, ?_⟩
    simpa [mapKeys, List.disjoint_singleton] using hk

theorem mapSet_eq_self {α : Type} (m : List (String × α)) (k : String) (v : α)
    (h : mapGet m k = some v) : mapSet m k v = m := by
  induction m with
  | nil => simp [mapGet] at h
  | cons e rest ih =>
    obtain ⟨k', v'⟩ := e
    by_cases h0 : k' = k
    · subst h0
      simp [mapGet] at h
      simp [mapSet, h]
    · simp only [mapGet, if_neg h0] at h
      simp [mapSet, h0, ih h]

theorem mapGet_append {α : Type} (m m' : List (String × α)) (k : String) :
    mapGet (m ++ m') k =
      match mapGet m k with
      | some v => some v
      | none => mapGet m' k := by
  induction m with
  | nil => simp [mapGet]
  | cons e rest ih =>
    obtain ⟨k', v'⟩ := e
    by_cases h : k' = k <;> simp [mapGet, h, ih]

theorem mem_iff_mapGet {α : Type} (m : List (String × α)) (k : String) (v : α)
    (h : (mapKeys m).Nodup) : (k, v) ∈ m ↔ mapGet m k = some v := by
  induction m with
  | nil => simp [mapGet]
  | cons e rest ih =>
    obtain ⟨k', v'⟩ := e
    simp only [mapKeys, List.map_cons, List.nodup_cons] at h
    by_cases h0 : k' = k
    · subst h0
      have hget : mapGet ((k', v') :: rest) k' = some v' := by simp [mapGet]
      rw [hget]
      simp only [List.mem_cons, Prod.mk.injEq, Option.some.injEq]
      constructor
      · intro hh
        rcases hh with ⟨-, hv⟩ | hmem
        · exact hv.symm
        · exact absurd (List.mem_map_of_mem Prod.fst hmem) h.1
      · intro hv
        exact Or.inl (by simp [hv])
    · simp only [mapGet, if_neg h0, List.mem_cons, Prod.mk.injEq]
      rw [← ih h.2]
      constructor
      · intro hh
        rcases hh with ⟨hk, -⟩ | hmem
        · exact absurd hk.symm h0
        · exact hmem
      · exact fun hh => Or.inr hh

/-! ### Union of key sets in first-occurrence order

`new Set([...a, ...b])` iterates in insertion order, keeping the first
occurrence of every element. -/

/-- First-occurrence deduplication, as performed by a JS `Set`. -/
def firstOccur : List String → List String
  | [] => []
  | k :: rest => k :: firstOccur (rest.filter (fun x => x ≠ k))
termination_by l => l.length
decreasing_by
  simp only [List.length_cons]
  exact Nat.lt_succ_of_le (List.length_filter_le _ rest)

theorem mem_firstOccur_aux (n : Nat) : ∀ l : List String, l.length ≤ n →
    ∀ x, (x ∈ firstOccur l ↔ x ∈ l) := by
  induction n with
  | zero =>
    intro l hl x
    have h0 : l = [] := List.length_eq_zero.mp (Nat.le_zero.mp hl)
    subst h0
    simp [firstOccur]
  | succ n ih =>
    intro l hl x
    cases l with
    | nil => simp [firstOccur]
    | cons k rest =>
      rw [firstOccur]
      have hlen : (rest.filter (fun x => x ≠ k)).length ≤ n :=
        le_trans (List.length_filter_le _ rest) (Nat.succ_le_succ_iff.mp hl)
      by_cases hx : x = k
      · simp [hx]
      · rw [List.mem_cons, List.mem_cons, ih _ hlen x]
        simp [hx, List.mem_filter]

theorem mem_firstOccur (l : List String) (x : String) : x ∈ firstOccur l ↔ x ∈ l :=
  mem_firstOccur_aux l.length l le_rfl x

theorem nodup_firstOccur_aux (n : Nat) : ∀ l : List String, l.length ≤ n →
    (firstOccur l).Nodup := by
  induction n with
  | zero =>
    intro l hl
    have h0 : l = [] := List.length_eq_zero.mp (Nat.le_zero.mp hl)
    subst h0
    simp [firstOccur]
  | succ n ih =>
    intro l hl
    cases l with
    | nil => simp [firstOccur]
    | cons k rest =>
      rw [firstOccur]
      have hlen : (rest.filter (fun x => x ≠ k)).length ≤ n :=
        le_trans (List.length_filter_le _ rest) (Nat.succ_le_succ_iff.mp hl)
      refine List.nodup_cons.mpr ⟨?_, ih _ hlen⟩
      rw [mem_firstOccur]
      simp [List.mem_filter]

theorem nodup_firstOccur (l : List String) : (firstOccur l).Nodup :=
  nodup_firstOccur_aux l.length l le_rfl

end I18n

namespace I18n

/-! ### Schema units and translations (`src/helpers.ts`)

`GeneratedSchema` is consumed by the plugin only through `rawSchema.oneOf`,
`rawSchema.enum`, `rawSchema.polymorph` and `generatedName`; member lists are
consumed only through their `name` fields.  The embedding keeps exactly that
surface. -/

structure OneOfPropertyInfo where
  name : String
deriving DecidableEq

structure OneOfSchemaInfo where
  properties : List OneOfPropertyInfo
deriving DecidableEq

structure EnumOptionInfo where
  name : String
deriving DecidableEq

structure EnumSchemaInfo where
  options : List EnumOptionInfo
deriving DecidableEq

structure PolymorphSchemaInfo where
  members : Option (List String)
deriving DecidableEq

/-- The raw schema shape: at most one of the three kind fields is normally
present, but the type (like the TypeScript one) does not enforce that, and the
pattern matches in the source test `oneOf` before `enum`. -/
structure RawSchema where
  oneOf : Option OneOfSchemaInfo := none
  enum : Option EnumSchemaInfo := none
  polymorph : Option PolymorphSchemaInfo := none
deriving DecidableEq

structure GeneratedSchema where
  rawSchema : RawSchema
  generatedName : String
deriving DecidableEq

/-- `Translation` from `src/helpers.ts`: `{ key, value, source? }`. -/
structure Translation where
  key : String
  value : String
  source : Option GeneratedSchema := none
deriving DecidableEq

/-- `ProspectiveTranslation` from `src/helpers.ts`. -/
structure ProspectiveTranslation where
  key : String
  newValue : Option String
  existingValue : Option String
  source : Option GeneratedSchema := none
deriving DecidableEq

/-- `buildProspectiveTranslations` from `src/helpers.ts`: the union-of-keys
diff record map, with the generated side winning the `source` annotation. -/
def buildProspectiveTranslations (newValues existingValues : List (String × Translation)) :
    List (String × ProspectiveTranslation) :=
  let allKeys := firstOccur (mapKeys newValues ++ mapKeys existingValues)
  allKeys.map fun key =>
    let n := mapGet newValues key
    let e := mapGet existingValues key
    (key,
      { key := key
        newValue := n.map Translation.value
        existingValue := e.map Translation.value
        source :=
          match n.bind Translation.source with
          | some s => some s
          | none => e.bind Translation.source })

/-- The conflict-handler signature from `src/helpers.ts`. -/
def I18nPluginConflictHandler : Type :=
  ProspectiveTranslation → List (String × ProspectiveTranslation) → Option Translation

/-- `defaultConflictHandler` from `src/helpers.ts` lines 92–102, with the three
`ts-pattern` arms in source order (`n` defined / `e` nullish first). -/
def defaultConflictHandler : I18nPluginConflictHandler := fun prospect _ =>
  match prospect.newValue, prospect.existingValue with
  | some n, none => some { key := prospect.key, value := n }
  | some _, some e => some { key := prospect.key, value := e }
  | none, some e => some { key := prospect.key, value := e }
  | none, none => none

/-- `defaultTranslationPathOrGetter` from `src/helpers.ts` lines 76–80: the
`oneOf` pattern is tried first, then `enum`; everything else yields
`undefined`. -/
def defaultTranslationPathOrGetter (schema : GeneratedSchema) : Option String :=
  match schema.rawSchema.oneOf with
  | some _ => some ("oneOf." ++ schema.generatedName)
  | none =>
    match schema.rawSchema.enum with
    | some _ => some ("enum." ++ schema.generatedName)
    | none => none

/-- `defaultSchemaTranslationWriter` from `src/helpers.ts` lines 58–72: one
`Translation` per member name at `path.memberName`, whose value is the member
name itself. -/
def defaultSchemaTranslationWriter (schema : GeneratedSchema) (schemaPath : String) :
    Option (List Translation) :=
  match schema.rawSchema.oneOf with
  | some oneOf =>
    some (oneOf.properties.map fun property =>
      { key := schemaPath ++ "." ++ property.name, value := property.name })
  | none =>
    match schema.rawSchema.enum with
    | some enumSchema =>
      some (enumSchema.options.map fun option =>
        { key := schemaPath ++ "." ++ option.name, value := option.name })
    | none => none

end I18n

namespace I18n

/-! ### JSON resource trees and the runtime object graph -/

/-- Parsed JSON resource content (`ResourceLanguage`): nested objects whose
leaves are strings; field order is the JS property insertion order. -/
inductive Json where
  | str (s : String)
  | obj (fields : List (String × Json))

/-- A runtime JS value while `lodash.setwith` builds the output object: plain
strings, plain objects, and `String` wrapper objects (produced by the
`Object` customizer applied to a string) carrying extra properties that
`JSON.stringify` never prints. -/
inductive JsVal where
  | str (s : String)
  | obj (fields : List (String × JsVal))
  | strObj (s : String) (fields : List (String × JsVal))

mutual

/-- What `JSON.stringify` sees of a runtime value: a `String` wrapper object
is serialized as its primitive string, and its extra properties vanish. -/
def visVal : JsVal → Json
  | .str s => .str s
  | .strObj s _ => .str s
  | .obj fs => .obj (visFields fs)

/-- Pointwise `visVal` over an object's fields. -/
def visFields : List (String × JsVal) → List (String × Json)
  | [] => []
  | (k, v) :: rest => (k, visVal v) :: visFields rest

end

/-- The visible string leaf of a JSON tree at a (nonempty) list of path
segments, reachable through plain object nodes only. -/
def jsonLeafLookup : List (String × Json) → List String → Option String
  | _, [] => none
  | fs, [k] =>
    match mapGet fs k with
    | some (.str s) => some s
    | _ => none
  | fs, k :: k2 :: rest =>
    match mapGet fs k with
    | some (.obj g) => jsonLeafLookup g (k2 :: rest)
    | _ => none

/-- `lodash.setwith(fileContent, key, value, Object)` on the already-split
path, following `baseSet`: at an intermediate segment the `Object` customizer
turns `undefined` into `{}`, keeps an object, and turns a string into a
`String` wrapper object whose properties receive the rest of the path; the
final segment is a plain property assignment. -/
def setWithObject : List (String × JsVal) → List String → String → List (String × JsVal)
  | fs, [], _ => fs
  | fs, [k], v => mapSet fs k (.str v)
  | fs, k :: k2 :: rest, v =>
    match mapGet fs k with
    | some (.obj g) => mapSet fs k (.obj (setWithObject g (k2 :: rest) v))
    | some (.strObj s g) => mapSet fs k (.strObj s (setWithObject g (k2 :: rest) v))
    | some (.str s) => mapSet fs k (.strObj s (setWithObject [] (k2 :: rest) v))
    | none => mapSet fs k (.obj (setWithObject [] (k2 :: rest) v))

/-- The `for … of translationsSortedByKeyName` loop of
`mergeAndBuildTranslations`: fold `setWith(fileContent, key, value, Object)`
over the entries.  `splitKey` is the path `castPath` hands `baseSet` for a
key without `'['`/`']'`; an entry whose key holds a lodash bracket group is
outside the embedding's domain, and theorems about the built tree assume
bracket-free keys. -/
def buildKV (entries : List (String × String)) : List (String × JsVal) :=
  entries.foldl (fun fc e => setWithObject fc (splitKey e.1) e.2) []

/-- `path ? `${path}.${key}` : key` from `gatherTranslations`. -/
def joinPath (path key : String) : String :=
  if path = "" then key else path ++ "." ++ key

mutual

/-- `gatherTranslations`' inner `gather` on a value: a string is a leaf and is
recorded under the accumulated path (overwriting any previous entry for the
same joined path), an object is walked field by field. -/
def gatherVal (acc : List (String × Translation)) (data : Json) (path : String) :
    List (String × Translation) :=
  match data with
  | .str s => mapSet acc path { key := path, value := s }
  | .obj fs => gatherFieldsAux acc fs path

/-- `gatherTranslations`' walk over an object's fields in order. -/
def gatherFieldsAux (acc : List (String × Translation)) (fs : List (String × Json))
    (path : String) : List (String × Translation) :=
  match fs with
  | [] => acc
  | (key, value) :: rest => gatherFieldsAux (gatherVal acc value (joinPath path key)) rest path

end

/-- `gatherTranslations` from `src/helpers.ts` lines 116–136: and empty map for
absent file data, otherwise the depth-first flattening with `.`-joined paths
starting from the empty path. -/
def gatherTranslations : Option Json → List (String × Translation)
  | none => []
  | some fileData => gatherVal [] fileData ""

/-- JSON string quoting with the escapes `JSON.stringify` always emits. -/
def jsonQuoteChar (c : Char) : String :=
  if c = '"' then "\\\""
  else if c = '\\' then "\\\\"
  else if c = '\n' then "\\n"
  else if c = '\t' then "\\t"
  else if c = '\r' then "\\r"
  else String.mk [c]

/-- JSON string quoting. -/
def jsonQuote (s : String) : String :=
  "\"" ++ String.join (s.data.map jsonQuoteChar) ++ "\""

/-- Spaces for one `JSON.stringify(value, null, 2)` indentation level. -/
def jsonIndent (depth : Nat) : String := String.mk (List.replicate (depth * 2) ' ')

mutual

/-- `JSON.stringify(value, null, 2)` on a visible JSON tree. -/
def stringifyJson : Json → Nat → String
  | .str s, _ => jsonQuote s
  | .obj [], _ => "\x7b\x7d"
  | .obj (f :: fs), depth =>
    "\x7b\n" ++ stringifyFields (f :: fs) (depth + 1) ++ "\n" ++ jsonIndent depth ++ "\x7d"

/-- Comma-and-newline separated `"key": value` members at a given depth. -/
def stringifyFields : List (String × Json) → Nat → String
  | [], _ => ""
  | [(k, v)], depth => jsonIndent depth ++ jsonQuote k ++ ": " ++ stringifyJson v depth
  | (k, v) :: f :: fs, depth =>
    jsonIndent depth ++ jsonQuote k ++ ": " ++ stringifyJson v depth ++ ",\n" ++
      stringifyFields (f :: fs) depth

end

mutual

/-- Key-sorted canonical form of a JSON tree; two trees are equal up to
reordering of object fields exactly when their canonical forms are equal. -/
def canonJson : Json → Json
  | .str s => .str s
  | .obj fs =>
    .obj (List.insertionSort (fun a b : String × Json => a.1.data ≤ b.1.data) (canonFields fs))

/-- Pointwise canonicalization of fields. -/
def canonFields : List (String × Json) → List (String × Json)
  | [] => []
  | (k, v) :: rest => (k, canonJson v) :: canonFields rest

end

end I18n

namespace I18n

/-! ### The reconciliation pipeline (`src/plugin.ts`) -/

/-- `sortByKey(Array.from(finalTranslationsForFile.values()), e => e.key)`:
ascending plain string order on keys (modelled as lexicographic order on the
key's characters, which is JS string comparison for these keys). -/
def sortByKeyTranslations (ts : List Translation) : List Translation :=
  List.insertionSort (fun a b : Translation => a.key.data ≤ b.key.data) ts

/-- The prospect-resolution loop of `I18nPlugin.mergeAndBuildTranslations`
(`src/plugin.ts` lines 402–417): equal defined values short-circuit keeping
the source annotation, any other non-empty prospect goes through the conflict
handler, and a `null` handler result drops the key. -/
def mergeFinalTranslations (handler : I18nPluginConflictHandler)
    (newTranslations existingTranslationsInFile : List (String × Translation)) :
    List (String × Translation) :=
  let prospects := buildProspectiveTranslations newTranslations existingTranslationsInFile
  prospects.foldl
    (fun acc kv =>
      match kv.2.newValue, kv.2.existingValue with
      | some n, some e =>
        if n = e then
          mapSet acc kv.1 { key := kv.1, value := n, source := kv.2.source }
        else
          match handler kv.2 prospects with
          | some finalValue => mapSet acc finalValue.key finalValue
          | none => acc
      | some _, none =>
        match handler kv.2 prospects with
        | some finalValue => mapSet acc finalValue.key finalValue
        | none => acc
      | none, some _ =>
        match handler kv.2 prospects with
        | some finalValue => mapSet acc finalValue.key finalValue
        | none => acc
      | none, none => acc)
    []

/-- The `fileContent` object built by `I18nPlugin.mergeAndBuildTranslations`
(`src/plugin.ts` lines 419–428): sort the final translations by key and fold
`setWith(fileContent, key, value, Object)` over them.  (The parallel
`writtenTranslations` registry write on line 425 is state that never feeds
back into any file output and is not modelled.) -/
def mergeAndBuildTranslationsTree (handler : I18nPluginConflictHandler)
    (newTranslations existingTranslationsInFile : List (String × Translation)) : Json :=
  Json.obj (visFields (buildKV
    ((sortByKeyTranslations
        ((mergeFinalTranslations handler newTranslations existingTranslationsInFile).map
          Prod.snd)).map
      (fun t => (t.key, t.value)))))

/-- `JSON.stringify(fileContent, null, 2)`: the raw content string returned by
`mergeAndBuildTranslations`. -/
def mergeAndBuildTranslations (handler : I18nPluginConflictHandler)
    (newTranslations existingTranslationsInFile : List (String × Translation)) : String :=
  stringifyJson (mergeAndBuildTranslationsTree handler newTranslations existingTranslationsInFile) 0

/-- The `unmatchedTranslationFromExistingFileHandler` file-config option
(`src/plugin.ts` line 341): `'keep' | 'remove' | ((translation) => Translation | null)`. -/
inductive UnmatchedTranslationHandlerPolicy where
  | keep
  | remove
  | custom (f : Translation → Option Translation)

/-- `I18nPluginFileGeneratorConfig` (`src/plugin.ts` lines 336–342), restricted
to the fields the per-file run reads; `isFileForSchema` stands for the
schema-filter predicate the base plugin derives from the file config. -/
structure I18nPluginFileGeneratorConfig where
  language : String
  namespaceName : Option String := none
  translationPathOrGetter : Option (GeneratedSchema → Option String) := none
  translationWriter : Option (GeneratedSchema → String → Option (List Translation)) := none
  unmatchedTranslationFromExistingFileHandler : Option UnmatchedTranslationHandlerPolicy := none
  isFileForSchema : GeneratedSchema → Bool := fun _ => true

/-- What `file.pollForExistingFileContent()` can yield to the per-file run:
no prior file (or empty content, which is falsy), prior content that
`JSON.parse` rejects, or a parsed string-leaf tree. -/
inductive ExistingFileContent where
  | absent
  | malformed
  | parsed (data : Json)

/-- `parseExistingValue` from `src/helpers.ts` lines 104–114: falsy input gives
`undefined`, a `JSON.parse` failure is re-thrown as an error. -/
def parseExistingValue : ExistingFileContent → Except String (Option Json)
  | .absent => Except.ok none
  | .malformed => Except.error "I18nPlugin: failed to parse existing value"
  | .parsed data => Except.ok (some data)

/-- The generated-translations loop of `I18nPlugin.run` (`src/plugin.ts` lines
442–460): per matching schema, resolve the translation path (configured getter
or system default), skip falsy paths, run the configured or default writer,
tag each produced translation with the schema as `source`, and collect
last-write-wins by key.  (The current run no longer passes the existing map to
the writer.) -/
def newTranslationsForFile (file : I18nPluginFileGeneratorConfig)
    (generatedSchemas : List GeneratedSchema) : List (String × Translation) :=
  generatedSchemas.foldl
    (fun acc schema =>
      if file.isFileForSchema schema then
        let translationPath :=
          match file.translationPathOrGetter with
          | some getter => getter schema
          | none => defaultTranslationPathOrGetter schema
        match translationPath with
        | some path =>
          if path = "" then acc
          else
            let translationsForSchema :=
              match file.translationWriter with
              | some writer => writer schema path
              | none => defaultSchemaTranslationWriter schema path
            (translationsForSchema.getD []).foldl
              (fun acc2 translation =>
                mapSet acc2 translation.key { translation with source := some schema })
              acc
        | none => acc
      else acc)
    []

/-- One iteration of the per-file loop in `I18nPlugin.run` (`src/plugin.ts`
lines 431–463): best-effort parse of the existing content (a parse error is
swallowed by the `try … catch {}` and leaves `fileData` undefined), flatten
it, produce the generated translations, then merge and serialize. -/
def runFileContent (conflictHandler : I18nPluginConflictHandler)
    (file : I18nPluginFileGeneratorConfig) (generatedSchemas : List GeneratedSchema)
    (existingFileContent : ExistingFileContent) : String :=
  let fileData : Option Json :=
    match parseExistingValue existingFileContent with
    | Except.ok v => v
    | Except.error _ => none
  let existingTranslationsInFile := gatherTranslations fileData
  mergeAndBuildTranslations conflictHandler (newTranslationsForFile file generatedSchemas)
    existingTranslationsInFile

/-! ### Resource-index assembly (`src/helpers.ts` lines 138–164) -/

/-- JS truthiness of a resource value (`string | object`). -/
def jsTruthy : Json → Bool
  | .str s => s ≠ ""
  | .obj _ => true

/-- A merged resource-table cell: either the generated identifier
(`factory.createIdentifier(g)`) or the statically provided value. -/
inductive ResourceEntry where
  | identifier (name : String)
  | literal (value : Json)

/-- Truthiness of a merged cell: an identifier node is an object and always
truthy, a provided literal uses JS truthiness. -/
def resourceEntryTruthy : ResourceEntry → Bool
  | .identifier _ => true
  | .literal v => jsTruthy v

/-- `buildResourcesObjectLiteral` from `src/helpers.ts` lines 138–164: per
language in the union, per namespace in the union, the generated identifier
wins over the provided value, and only a truthy result is kept (`if (value)`).
The final `createObjectLiteral` call is represented by returning the merged
table itself. -/
def buildResourcesObjectLiteral
    (providedResources : List (String × List (String × Json)))
    (generatedResources : List (String × List (String × String))) :
    List (String × List (String × ResourceEntry)) :=
  let allLanguages := firstOccur (mapKeys providedResources ++ mapKeys generatedResources)
  allLanguages.map fun language =>
    let provided := (mapGet providedResources language).getD []
    let generated := (mapGet generatedResources language).getD []
    let allNamespaces := firstOccur (mapKeys provided ++ mapKeys generated)
    (language,
      allNamespaces.foldl
        (fun acc ns =>
          let value : Option ResourceEntry :=
            match mapGet generated ns with
            | some g => some (ResourceEntry.identifier g)
            | none =>
              match mapGet provided ns with
              | some p => some (ResourceEntry.literal p)
              | none => none
          match value with
          | some v => if resourceEntryTruthy v then mapSet acc ns v else acc
          | none => acc)
        [])

/-! ### Title casing (`test/index.test.ts`)

`titleCaseName` and its word tables live in the repository's test suite (they
are the custom writer used there), on top of `capitalCase` from the external
`change-case` package.  `capitalCase` is modelled from that library's
documented behavior: split into words at non-alphanumeric separators and at
lower-to-upper / acronym-to-word case boundaries, then capitalize each word
and join with single spaces. -/

/-- Word characters for the `change-case` splitter. -/
def isWordChar (c : Char) : Bool := c.isAlpha || c.isDigit

/-- Maximal alphanumeric runs of a character list (separators dropped). -/
def alnumRunsAux (current : List Char) : List Char → List (List Char)
  | [] => if current.isEmpty then [] else [current.reverse]
  | c :: rest =>
    if isWordChar c then alnumRunsAux (c :: current) rest
    else if current.isEmpty then alnumRunsAux [] rest
    else current.reverse :: alnumRunsAux [] rest

/-- Splits one alphanumeric run at `change-case`'s case boundaries
(`[a-z0-9][A-Z]` and `[A-Z][A-Z][a-z]`). -/
def caseSplitAux (current : List Char) (prev : Char) : List Char → List (List Char)
  | [] => [current.reverse]
  | c :: rest =>
    if ((prev.isLower || prev.isDigit) && c.isUpper) ||
        (prev.isUpper && c.isUpper && (rest.head?.elim false Char.isLower)) then
      current.reverse :: caseSplitAux [c] c rest
    else
      caseSplitAux (c :: current) c rest

/-- Case-boundary word split of one alphanumeric run. -/
def caseSplitRun : List Char → List (List Char)
  | [] => []
  | c :: rest => caseSplitAux [c] c rest

/-- The words `change-case` sees in a string. -/
def changeCaseWords (s : String) : List String :=
  ((alnumRunsAux [] s.data).flatMap caseSplitRun).map String.mk

/-- Character-list lowercasing of a string. -/
def lowerStr (s : String) : String := String.mk (s.data.map Char.toLower)

/-- Capitalizes one word: first character uppercase, the rest lowercase. -/
def capWord (s : String) : String :=
  match s.data with
  | [] => ""
  | c :: rest => String.mk (c.toUpper :: rest.map Char.toLower)

/-- Joins words with single spaces. -/
def joinWithSpace : List String → String
  | [] => ""
  | [w] => w
  | w :: w2 :: rest => w ++ " " ++ joinWithSpace (w2 :: rest)

/-- `capitalCase` from the `change-case` package, modelled from its documented
behavior. -/
def capitalCase (s : String) : String :=
  joinWithSpace ((changeCaseWords s).map capWord)

/-- Splits a character list at every space (for `capitalCased.split(' ')`). -/
def splitCharsOnSpace : List Char → List (List Char)
  | [] => [[]]
  | c :: rest =>
    match splitCharsOnSpace rest with
    | [] => [[]]
    | g :: gs => if c = ' ' then [] :: g :: gs else (c :: g) :: gs

/-- `titleCaseName` from `test/index.test.ts` lines 66–85: capital-case the
name, then per word apply a forced-casing override when one is configured
(truthy lookup), lowercase non-initial minor words, and keep the word
otherwise. -/
def titleCaseName (name : String) (forcedCaseWords : List (String × String))
    (minorWords : List String) : String :=
  let capitalCased := capitalCase name
  let split := (splitCharsOnSpace capitalCased.data).map String.mk
  joinWithSpace
    (List.mapIdx
      (fun i word =>
        let lowerCasedWord := lowerStr word
        let forced := (mapGet forcedCaseWords lowerCasedWord).getD ""
        if forced ≠ "" then forced
        else if i ≠ 0 && minorWords.contains lowerCasedWord then lowerCasedWord
        else word)
      split)

/-- `defaultMinorWords` from `test/index.test.ts` lines 38–64. -/
def defaultMinorWords : List String :=
  ["and", "as", "but", "for", "if", "nor", "or", "so", "yet", "a", "an", "the",
    "as", "at", "by", "for", "in", "of", "off", "on", "per", "to", "up", "via", "with"]

/-- `caseOverrides` from `test/index.test.ts` lines 95–100. -/
def caseOverrides : List (String × String) :=
  [("api", "API"), ("id", "ID"), ("url", "URL"), ("jwt", "JWT")]

end I18n

namespace I18n

/-! ### Visible-tree lemmas for `setWithObject` -/

theorem visFields_mapSet (fs : List (String × JsVal)) (k : String) (v : JsVal) :
    visFields (mapSet fs k v) = mapSet (visFields fs) k (visVal v) := by
  induction fs with
  | nil => simp [mapSet, visFields]
  | cons e rest ih =>
    obtain ⟨k0, v0⟩ := e
    by_cases h : k0 = k
    · simp [mapSet, visFields, h]
    · simp [mapSet, visFields, h, ih]

theorem mapGet_visFields (fs : List (String × JsVal)) (k : String) :
    mapGet (visFields fs) k = (mapGet fs k).map visVal := by
  induction fs with
  | nil => simp [mapGet, visFields]
  | cons e rest ih =>
    obtain ⟨k0, v0⟩ := e
    by_cases h : k0 = k
    · simp [mapGet, visFields, h]
    · simp [mapGet, visFields, h, ih]

theorem mapKeys_visFields (fs : List (String × JsVal)) :
    mapKeys (visFields fs) = mapKeys fs := by
  induction fs with
  | nil => simp [mapKeys, visFields]
  | cons e rest ih =>
    obtain ⟨k0, v0⟩ := e
    simp only [visFields, mapKeys, List.map_cons] at *
    rw [ih]

theorem jsonLeafLookup_nil (fs : List (String × Json)) : jsonLeafLookup fs [] = none := rfl

/-- Inserting the same path and value into two states with the same visible
tree yields the same visible tree: the hidden interiors of `String` wrappers
never influence what `JSON.stringify` prints. -/
theorem setWith_visEq (p : List String) (v : String) :
    ∀ {F G : List (String × JsVal)}, visFields F = visFields G →
      visFields (setWithObject F p v) = visFields (setWithObject G p v) := by
  induction p with
  | nil =>
    intro F G h
    simpa [setWithObject] using h
  | cons k p' ih =>
    intro F G h
    cases p' with
    | nil =>
      simp only [setWithObject, visFields_mapSet, h]
    | cons k2 rest =>
      have hget : (mapGet F k).map visVal = (mapGet G k).map visVal := by
        rw [← mapGet_visFields, ← mapGet_visFields, h]
      rcases hF : mapGet F k with _ | a <;> rcases hG : mapGet G k with _ | b
      · simp only [setWithObject, hF, hG, visFields_mapSet, h]
      · rw [hF, hG] at hget
        simp at hget
      · rw [hF, hG] at hget
        simp at hget
      · rw [hF, hG] at hget
        simp only [Option.map_some', Option.some.injEq] at hget
        cases a with
        | str s =>
          cases b with
          | str t =>
            have hst : s = t := by simpa [visVal] using hget
            subst hst
            simp only [setWithObject, hF, hG, visFields_mapSet, h, visVal]
          | obj gb => simp [visVal] at hget
          | strObj t gb =>
            have hst : s = t := by simpa [visVal] using hget
            subst hst
            simp only [setWithObject, hF, hG, visFields_mapSet, h, visVal]
        | obj ga =>
          cases b with
          | str t => simp [visVal] at hget
          | obj gb =>
            have hgg : visFields ga = visFields gb := by simpa [visVal] using hget
            simp only [setWithObject, hF, hG, visFields_mapSet, h, visVal]
            rw [ih hgg]
          | strObj t gb => simp [visVal] at hget
        | strObj s ga =>
          cases b with
          | str t =>
            have hst : s = t := by simpa [visVal] using hget
            subst hst
            simp only [setWithObject, hF, hG, visFields_mapSet, h, visVal]
          | obj gb => simp [visVal] at hget
          | strObj t gb =>
            have hst : s = t := by simpa [visVal] using hget
            subst hst
            simp only [setWithObject, hF, hG, visFields_mapSet, h, visVal]

/-- Inserting below an existing visible string leaf changes nothing visible:
the assignment disappears into a `String` wrapper object. -/
theorem setWith_blocked (psegs : List String) :
    ∀ {F : List (String × JsVal)} {ksegs : List String} {σ v : String},
      jsonLeafLookup (visFields F) psegs = some σ →
      psegs <+: ksegs → psegs ≠ ksegs →
      visFields (setWithObject F ksegs v) = visFields F := by
  induction psegs with
  | nil =>
    intro F ksegs σ v hleaf hpre hne
    simp [jsonLeafLookup_nil] at hleaf
  | cons k0 p' ih =>
    intro F ksegs σ v hleaf hpre hne
    obtain ⟨t, rfl⟩ := hpre
    have ht : t ≠ [] := by
      intro h0
      subst h0
      simp at hne
    cases p' with
    | nil =>
      have hvis : mapGet (visFields F) k0 = some (Json.str σ) := by
        simp only [jsonLeafLookup] at hleaf
        rcases hg : mapGet (visFields F) k0 with _ | j
        · rw [hg] at hleaf
          simp at hleaf
        · rw [hg] at hleaf
          cases j with
          | str s =>
            have hs : s = σ := by simpa using hleaf
            rw [hs]
          | obj g => simp at hleaf
      have hget : (mapGet F k0).map visVal = some (Json.str σ) := by
        rw [← mapGet_visFields, hvis]
      rcases hF : mapGet F k0 with _ | a
      · rw [hF] at hget
        simp at hget
      · rw [hF] at hget
        simp only [Option.map_some', Option.some.injEq] at hget
        cases t with
        | nil => exact absurd rfl ht
        | cons k2 rest =>
          cases a with
          | str s =>
            have hs : s = σ := by simpa [visVal] using hget
            subst hs
            simp only [List.singleton_append, setWithObject, hF, visFields_mapSet, visVal]
            exact mapSet_eq_self (visFields F) k0 (Json.str s) hvis
          | obj g => simp [visVal] at hget
          | strObj s g =>
            have hs : s = σ := by simpa [visVal] using hget
            subst hs
            simp only [List.singleton_append, setWithObject, hF, visFields_mapSet, visVal]
            exact mapSet_eq_self (visFields F) k0 (Json.str s) hvis
    | cons p2 prest =>
      have hstep : ∃ gv, mapGet (visFields F) k0 = some (Json.obj gv) ∧
          jsonLeafLookup gv (p2 :: prest) = some σ := by
        simp only [jsonLeafLookup] at hleaf
        rcases hg : mapGet (visFields F) k0 with _ | j
        · rw [hg] at hleaf
          simp at hleaf
        · rw [hg] at hleaf
          cases j with
          | str s => simp at hleaf
          | obj gv => exact ⟨gv, rfl, hleaf⟩
      obtain ⟨gv, hvis, hlv⟩ := hstep
      have hget : (mapGet F k0).map visVal = some (Json.obj gv) := by
        rw [← mapGet_visFields, hvis]
      rcases hF : mapGet F k0 with _ | a
      · rw [hF] at hget
        simp at hget
      · rw [hF] at hget
        simp only [Option.map_some', Option.some.injEq] at hget
        cases a with
        | str s => simp [visVal] at hget
        | strObj s g => simp [visVal] at hget
        | obj g =>
          have hgv : visFields g = gv := by simpa [visVal] using hget
          subst hgv
          have hklen : (p2 :: prest) ++ t ≠ [] := by simp
          cases hkk : (p2 :: prest) ++ t with
          | nil => exact absurd hkk hklen
          | cons k2 krest =>
            have hsw : setWithObject F ((k0 :: p2 :: prest) ++ t) v =
                mapSet F k0 (JsVal.obj (setWithObject g ((p2 :: prest) ++ t) v)) := by
              show setWithObject F (k0 :: ((p2 :: prest) ++ t)) v = _
              rw [hkk]
              simp only [setWithObject, hF]
            rw [hsw]
            have hinner : visFields (setWithObject g ((p2 :: prest) ++ t) v) = visFields g :=
              ih hlv ⟨t, rfl⟩ (by simp [ht])
            simp only [List.cons_append] at hinner
            rw [visFields_mapSet]
            have : visVal (JsVal.obj (setWithObject g ((p2 :: prest) ++ t) v)) =
                Json.obj (visFields g) := by
              simp [visVal, hinner]
            rw [this]
            exact mapSet_eq_self (visFields F) k0 (Json.obj (visFields g)) hvis

end I18n

namespace I18n

theorem jsonLeafLookup_single (fs : List (String × Json)) (k : String) :
    jsonLeafLookup fs [k] =
      match mapGet fs k with
      | some (Json.str s) => some s
      | _ => none := rfl

theorem jsonLeafLookup_cons_cons (fs : List (String × Json)) (q1 q2 : String)
    (qrest : List String) :
    jsonLeafLookup fs (q1 :: q2 :: qrest) =
      match mapGet fs q1 with
      | some (Json.obj g) => jsonLeafLookup g (q2 :: qrest)
      | _ => none := rfl

theorem jsonLeafLookup_child_obj {fs : List (String × Json)} {k : String}
    {g : List (String × Json)} (h : mapGet fs k = some (Json.obj g)) :
    ∀ p, p ≠ [] → jsonLeafLookup fs (k :: p) = jsonLeafLookup g p := by
  intro p hp
  cases p with
  | nil => exact absurd rfl hp
  | cons p1 prest => simp [jsonLeafLookup_cons_cons, h]

/-- Leaf lookup in the tree freshly built by `setWithObject` from an empty
object: exactly one visible leaf, at the inserted path. -/
theorem setWith_fresh_leafLookup :
    ∀ (segs : List String) (v : String) (q : List String), segs ≠ [] →
      jsonLeafLookup (visFields (setWithObject [] segs v)) q =
        if q = segs then some v else none := by
  intro segs
  induction segs with
  | nil => exact fun v q h => absurd rfl h
  | cons k rest ih =>
    intro v q hne
    cases rest with
    | nil =>
      have hset : setWithObject [] [k] v = [(k, JsVal.str v)] := rfl
      rw [hset]
      cases q with
      | nil => simp [jsonLeafLookup_nil]
      | cons q1 qrest =>
        cases qrest with
        | nil =>
          by_cases hq : q1 = k
          · subst hq
            simp [jsonLeafLookup_single, visFields, visVal, mapGet]
          · simp [jsonLeafLookup_single, visFields, visVal, mapGet, Ne.symm hq, hq]
        | cons q2 qrest2 =>
          by_cases hq : q1 = k
          · subst hq
            simp [jsonLeafLookup_cons_cons, visFields, visVal, mapGet]
          · simp [jsonLeafLookup_cons_cons, visFields, visVal, mapGet, Ne.symm hq, hq]
    | cons r2 rrest =>
      have hset : setWithObject [] (k :: r2 :: rrest) v =
          [(k, JsVal.obj (setWithObject [] (r2 :: rrest) v))] := by
        simp [setWithObject, mapGet, mapSet]
      rw [hset]
      cases q with
      | nil => simp [jsonLeafLookup_nil]
      | cons q1 qrest =>
        by_cases hq : q1 = k
        · subst hq
          cases qrest with
          | nil => simp [jsonLeafLookup_single, visFields, visVal, mapGet]
          | cons q2 qrest2 =>
            have hin := ih v (q2 :: qrest2) (by simp)
            have hgetnew : mapGet (visFields [(q1, JsVal.obj (setWithObject [] (r2 :: rrest) v))]) q1
                = some (Json.obj (visFields (setWithObject [] (r2 :: rrest) v))) := by
              simp [visFields, visVal, mapGet]
            rw [jsonLeafLookup_child_obj hgetnew (q2 :: qrest2) (by simp)]
            rw [hin]
            by_cases hqq : (q2 :: qrest2) = (r2 :: rrest)
            · simp [hqq]
            · rw [if_neg hqq, if_neg (by intro hcc; exact hqq (by simpa using hcc))]
        · cases qrest with
          | nil => simp [jsonLeafLookup_single, visFields, visVal, mapGet, Ne.symm hq, hq]
          | cons q2 qrest2 =>
            simp [jsonLeafLookup_cons_cons, visFields, visVal, mapGet, Ne.symm hq, hq]

/-- Inserting a fresh path whose strict ancestors hold no visible leaf, whose
own slot holds no visible leaf, and below which no visible leaf exists,
updates the visible leaf map pointwise: the new path gets the value and every
other path is untouched. -/
theorem setWith_clean_leafLookup :
    ∀ (ksegs : List String) (F : List (String × JsVal)) (v : String), ksegs ≠ [] →
      (∀ p, p <+: ksegs → p ≠ ksegs → jsonLeafLookup (visFields F) p = none) →
      (∀ q, ksegs <+: q → ksegs ≠ q → jsonLeafLookup (visFields F) q = none) →
      jsonLeafLookup (visFields F) ksegs = none →
      ∀ q, jsonLeafLookup (visFields (setWithObject F ksegs v)) q =
        if q = ksegs then some v else jsonLeafLookup (visFields F) q := by
  intro ksegs
  induction ksegs with
  | nil => exact fun F v h => absurd rfl h
  | cons k rest ih =>
    intro F v hne hpre hext hself q
    cases rest with
    | nil =>
      have hset : setWithObject F [k] v = mapSet F k (JsVal.str v) := rfl
      rw [hset, visFields_mapSet]
      cases q with
      | nil => simp [jsonLeafLookup_nil]
      | cons q1 qrest =>
        by_cases hq : q1 = k
        · subst hq
          cases qrest with
          | nil =>
            simp [jsonLeafLookup_single, mapGet_set_self, visVal]
          | cons q2 qrest2 =>
            have hold : jsonLeafLookup (visFields F) (q1 :: q2 :: qrest2) = none :=
              hext _ ⟨q2 :: qrest2, rfl⟩ (by simp)
            simp only [jsonLeafLookup_cons_cons, mapGet_set_self, visVal]
            rw [if_neg (by simp)]
            rw [← jsonLeafLookup_cons_cons, hold]
        · have hget := mapGet_set_ne (visFields F) k q1 (visVal (JsVal.str v)) hq
          cases qrest with
          | nil =>
            rw [jsonLeafLookup_single, hget, ← jsonLeafLookup_single]
            rw [if_neg (by simp [hq])]
          | cons q2 qrest2 =>
            rw [jsonLeafLookup_cons_cons, hget, ← jsonLeafLookup_cons_cons]
            rw [if_neg (by simp [hq])]
    | cons r2 rrest =>
      have hleafk : jsonLeafLookup (visFields F) [k] = none :=
        hpre [k] ⟨r2 :: rrest, rfl⟩ (by simp)
      rcases hF : mapGet F k with _ | a
      · -- fresh intermediate object
        have hset : setWithObject F (k :: r2 :: rrest) v =
            mapSet F k (JsVal.obj (setWithObject [] (r2 :: rrest) v)) := by
          simp only [setWithObject, hF]
        have hgetvisF : mapGet (visFields F) k = none := by
          rw [mapGet_visFields, hF]
          rfl
        rw [hset, visFields_mapSet]
        cases q with
        | nil => simp [jsonLeafLookup_nil]
        | cons q1 qrest =>
          by_cases hq : q1 = k
          · subst hq
            cases qrest with
            | nil =>
              rw [jsonLeafLookup_single, mapGet_set_self, if_neg (by simp)]
              rw [jsonLeafLookup_single, hgetvisF]
              simp [visVal]
            | cons q2 qrest2 =>
              have hold : jsonLeafLookup (visFields F) (q1 :: q2 :: qrest2) = none := by
                rw [jsonLeafLookup_cons_cons, hgetvisF]
              have hvisobj0 : visVal (JsVal.obj (setWithObject [] (r2 :: rrest) v)) =
                  Json.obj (visFields (setWithObject [] (r2 :: rrest) v)) := by
                simp [visVal]
              rw [hvisobj0]
              have hgetnew := mapGet_set_self (visFields F) q1
                (Json.obj (visFields (setWithObject [] (r2 :: rrest) v)))
              rw [jsonLeafLookup_child_obj hgetnew (q2 :: qrest2) (by simp)]
              rw [setWith_fresh_leafLookup (r2 :: rrest) v (q2 :: qrest2) (by simp)]
              rw [hold]
              by_cases hqq : (q2 :: qrest2) = (r2 :: rrest)
              · simp [hqq]
              · rw [if_neg hqq, if_neg (by intro hcc; exact hqq (by simpa using hcc))]
          · have hget := mapGet_set_ne (visFields F) k q1
              (visVal (JsVal.obj (setWithObject [] (r2 :: rrest) v))) hq
            cases qrest with
            | nil =>
              rw [jsonLeafLookup_single, hget, ← jsonLeafLookup_single]
              rw [if_neg (by simp [hq])]
            | cons q2 qrest2 =>
              rw [jsonLeafLookup_cons_cons, hget, ← jsonLeafLookup_cons_cons]
              rw [if_neg (by simp [hq])]
      · cases a with
        | str s =>
          exfalso
          have hsome : jsonLeafLookup (visFields F) [k] = some s := by
            rw [jsonLeafLookup_single, mapGet_visFields, hF]
            simp [visVal]
          rw [hleafk] at hsome
          exact Option.noConfusion hsome
        | strObj s g =>
          exfalso
          have hsome : jsonLeafLookup (visFields F) [k] = some s := by
            rw [jsonLeafLookup_single, mapGet_visFields, hF]
            simp [visVal]
          rw [hleafk] at hsome
          exact Option.noConfusion hsome
        | obj g =>
          have hset : setWithObject F (k :: r2 :: rrest) v =
              mapSet F k (JsVal.obj (setWithObject g (r2 :: rrest) v)) := by
            simp only [setWithObject, hF]
          have hgetvisF : mapGet (visFields F) k = some (Json.obj (visFields g)) := by
            rw [mapGet_visFields, hF]
            simp [visVal]
          have htrans : ∀ p, p ≠ [] →
              jsonLeafLookup (visFields F) (k :: p) = jsonLeafLookup (visFields g) p :=
            jsonLeafLookup_child_obj hgetvisF
          have hpre' : ∀ p, p <+: (r2 :: rrest) → p ≠ (r2 :: rrest) →
              jsonLeafLookup (visFields g) p = none := by
            intro p hp hpne
            cases p with
            | nil => rfl
            | cons p1 prest =>
              rw [← htrans (p1 :: prest) (by simp)]
              obtain ⟨t, htt⟩ := hp
              refine hpre (k :: p1 :: prest) ⟨t, ?_⟩ (by simp [hpne])
              rw [← htt]
              rfl
          have hext' : ∀ q, (r2 :: rrest) <+: q → (r2 :: rrest) ≠ q →
              jsonLeafLookup (visFields g) q = none := by
            intro q2 hq2 hq2ne
            cases q2 with
            | nil => exact absurd (List.prefix_nil.mp hq2) (by simp)
            | cons x xs =>
              rw [← htrans (x :: xs) (by simp)]
              obtain ⟨t, htt⟩ := hq2
              refine hext (k :: x :: xs) ⟨t, ?_⟩ (by simp [hq2ne])
              rw [← htt]
              rfl
          have hself' : jsonLeafLookup (visFields g) (r2 :: rrest) = none := by
            rw [← htrans _ (by simp)]
            exact hself
          have hinner := ih g v (by simp) hpre' hext' hself'
          rw [hset, visFields_mapSet]
          have hvisobj : visVal (JsVal.obj (setWithObject g (r2 :: rrest) v)) =
              Json.obj (visFields (setWithObject g (r2 :: rrest) v)) := by
            simp [visVal]
          rw [hvisobj]
          cases q with
          | nil => simp [jsonLeafLookup_nil]
          | cons q1 qrest =>
            by_cases hq : q1 = k
            · subst hq
              cases qrest with
              | nil =>
                rw [jsonLeafLookup_single, mapGet_set_self]
                rw [if_neg (by simp)]
                rw [jsonLeafLookup_single, hgetvisF]
              | cons q2 qrest2 =>
                have hgetnew : mapGet
                    (mapSet (visFields F) q1 (Json.obj (visFields (setWithObject g (r2 :: rrest) v))))
                    q1 = some (Json.obj (visFields (setWithObject g (r2 :: rrest) v))) :=
                  mapGet_set_self _ _ _
                rw [jsonLeafLookup_child_obj hgetnew (q2 :: qrest2) (by simp)]
                rw [hinner (q2 :: qrest2)]
                rw [htrans (q2 :: qrest2) (by simp)]
                by_cases hqq : (q2 :: qrest2) = (r2 :: rrest)
                · simp [hqq]
                · rw [if_neg hqq, if_neg (by intro hcc; exact hqq (by simpa using hcc))]
            · have hget := mapGet_set_ne (visFields F) k q1
                (Json.obj (visFields (setWithObject g (r2 :: rrest) v))) hq
              cases qrest with
              | nil =>
                rw [jsonLeafLookup_single, hget, ← jsonLeafLookup_single]
                rw [if_neg (by simp [hq])]
              | cons q2 qrest2 =>
                rw [jsonLeafLookup_cons_cons, hget, ← jsonLeafLookup_cons_cons]
                rw [if_neg (by simp [hq])]

end I18n

namespace I18n

/-! ### Survivors: final-map entries with no strict dot-path ancestor

When two final keys stand in strict dot-path ancestry (`a` and `a.b`), the
sorted `setWith` fold sends the descendant's value into an invisible `String`
wrapper: only entries without a strict ancestor in the map produce visible
leaves. -/

/-- Whether `p` is a strict dot-path ancestor of `k`, segment-wise. -/
def strictSegPre (p k : String) : Bool :=
  (splitKey p).isPrefixOf (splitKey k) && !((splitKey k).isPrefixOf (splitKey p))

theorem strictSegPre_iff (p k : String) :
    strictSegPre p k = true ↔ splitKey p <+: splitKey k ∧ splitKey p ≠ splitKey k := by
  simp only [strictSegPre, Bool.and_eq_true, Bool.not_eq_true', List.isPrefixOf_iff_prefix]
  constructor
  · intro ⟨h1, h2⟩
    refine ⟨h1, ?_⟩
    intro heq
    rw [heq] at h2
    rw [(List.isPrefixOf_iff_prefix).mpr (List.prefix_refl _)] at h2
    exact Bool.noConfusion h2
  · intro ⟨h1, h2⟩
    refine ⟨h1, ?_⟩
    rcases hb : (splitKey k).isPrefixOf (splitKey p) with _ | _
    · rfl
    · have hkp := (List.isPrefixOf_iff_prefix).mp hb
      exact absurd (h1.eq_of_length (Nat.le_antisymm h1.length_le hkp.length_le) : _) h2

theorem strictSegPre_self (k : String) : strictSegPre k k = false := by
  rcases hb : strictSegPre k k with _ | _
  · rfl
  · obtain ⟨-, hne⟩ := (strictSegPre_iff k k).mp hb
    exact absurd rfl hne

/-- The entries of a final map that have no strict dot-path ancestor among the
map's entries. -/
def survKV (l : List (String × String)) : List (String × String) :=
  l.filter (fun e => !(l.any (fun p => strictSegPre p.1 e.1)))

/-- First entry whose key splits to the given segments. -/
def lookupBySeg : List (String × String) → List String → Option String
  | [], _ => none
  | e :: rest, segs => if splitKey e.1 = segs then some e.2 else lookupBySeg rest segs

theorem lookupBySeg_append (l l' : List (String × String)) (segs : List String) :
    lookupBySeg (l ++ l') segs =
      match lookupBySeg l segs with
      | some v => some v
      | none => lookupBySeg l' segs := by
  induction l with
  | nil => simp [lookupBySeg]
  | cons e rest ih =>
    by_cases h : splitKey e.1 = segs <;> simp [lookupBySeg, h, ih]

theorem lookupBySeg_eq_some {l : List (String × String)} {segs : List String} {v : String}
    (h : lookupBySeg l segs = some v) : ∃ e ∈ l, splitKey e.1 = segs ∧ e.2 = v := by
  induction l with
  | nil => simp [lookupBySeg] at h
  | cons e rest ih =>
    by_cases he : splitKey e.1 = segs
    · rw [lookupBySeg, if_pos he] at h
      exact ⟨e, List.mem_cons_self e rest, he, (Option.some.injEq _ _ ▸ h).symm ▸ rfl⟩
    · rw [lookupBySeg, if_neg he] at h
      obtain ⟨e', he', hs, hv⟩ := ih h
      exact ⟨e', List.mem_cons_of_mem e he', hs, hv⟩

theorem lookupBySeg_mem {l : List (String × String)} {k v : String}
    (hmem : (k, v) ∈ l) (hn : (l.map Prod.fst).Nodup) :
    lookupBySeg l (splitKey k) = some v := by
  induction l with
  | nil => simp at hmem
  | cons e rest ih =>
    simp only [List.map_cons, List.nodup_cons] at hn
    rcases List.mem_cons.mp hmem with hmem | hmem
    · rw [← hmem]
      simp [lookupBySeg]
    · have hne : splitKey e.1 ≠ splitKey k := by
        intro heq
        have : e.1 = k := splitKey_injective heq
        exact hn.1 (this ▸ List.mem_map_of_mem Prod.fst hmem)
      rw [lookupBySeg, if_neg hne]
      exact ih hmem hn.2

theorem buildKV_append (l : List (String × String)) (e : String × String) :
    buildKV (l ++ [e]) = setWithObject (buildKV l) (splitKey e.1) e.2 := by
  simp [buildKV, List.foldl_append]

/-- Appending a largest entry (never a strict ancestor of an earlier one)
either appends to the survivors or leaves them unchanged. -/
theorem survKV_append (P : List (String × String)) (t : String × String)
    (ha : ∀ q ∈ P, strictSegPre t.1 q.1 = false) :
    survKV (P ++ [t]) =
      survKV P ++ (if P.any (fun p => strictSegPre p.1 t.1) then [] else [t]) := by
  unfold survKV
  rw [List.filter_append]
  have h1 : List.filter (fun e => !((P ++ [t]).any fun p => strictSegPre p.1 e.1)) P =
      List.filter (fun e => !(P.any fun p => strictSegPre p.1 e.1)) P := by
    refine List.filter_congr ?_
    intro e he
    simp only [List.any_append, List.any_cons, List.any_nil, Bool.or_false]
    rw [ha e he]
    simp
  rw [h1]
  congr 1
  simp only [List.filter_cons, List.filter_nil, List.any_append, List.any_cons, List.any_nil,
    Bool.or_false, strictSegPre_self t.1]
  rcases hb : P.any (fun p => strictSegPre p.1 t.1) with _ | _ <;> simp

theorem surv_ancestor_aux (l : List (String × String)) (n : Nat) :
    ∀ e ∈ l, (splitKey e.1).length ≤ n →
      ∃ q ∈ survKV l, splitKey q.1 <+: splitKey e.1 := by
  induction n with
  | zero =>
    intro e _ hlen
    have := splitKey_ne_nil e.1
    cases hsk : splitKey e.1 with
    | nil => exact absurd hsk this
    | cons a as =>
      rw [hsk] at hlen
      simp at hlen
  | succ n ih =>
    intro e he hlen
    rcases hb : l.any (fun p => strictSegPre p.1 e.1) with _ | _
    · refine ⟨e, ?_, List.prefix_refl _⟩
      rw [survKV, List.mem_filter]
      exact ⟨he, by rw [hb]; rfl⟩
    · obtain ⟨p, hp, hps⟩ := List.any_eq_true.mp hb
      obtain ⟨hpre, hne⟩ := (strictSegPre_iff p.1 e.1).mp hps
      have hlt : (splitKey p.1).length < (splitKey e.1).length := by
        rcases Nat.lt_or_ge (splitKey p.1).length (splitKey e.1).length with h | h
        · exact h
        · exact absurd (hpre.eq_of_length (Nat.le_antisymm hpre.length_le h)) hne
      obtain ⟨q, hq, hqpre⟩ := ih p hp (Nat.le_of_lt_succ (Nat.lt_of_lt_of_le hlt hlen))
      exact ⟨q, hq, hqpre.trans hpre⟩

theorem surv_ancestor (l : List (String × String)) :
    ∀ e ∈ l, ∃ q ∈ survKV l, splitKey q.1 <+: splitKey e.1 := fun e he =>
  surv_ancestor_aux l (splitKey e.1).length e he le_rfl

theorem survKV_sublist (l : List (String × String)) : (survKV l).Sublist l :=
  List.filter_sublist l

theorem survKV_keys_nodup {l : List (String × String)} (hn : (l.map Prod.fst).Nodup) :
    ((survKV l).map Prod.fst).Nodup :=
  ((survKV_sublist l).map Prod.fst).nodup hn

theorem mem_survKV {l : List (String × String)} {e : String × String} :
    e ∈ survKV l ↔ e ∈ l ∧ l.any (fun p => strictSegPre p.1 e.1) = false := by
  rw [survKV, List.mem_filter]
  constructor
  · intro ⟨h1, h2⟩
    exact ⟨h1, by simpa using h2⟩
  · intro ⟨h1, h2⟩
    exact ⟨h1, by simp [h2]⟩

end I18n

namespace I18n

/-- Characterization of the sorted `setWith` fold: the visible output tree
depends only on the survivor entries, and its visible leaves are exactly the
survivors (shallowest key wins on dot-path ancestry, descendants vanish into
`String` wrappers). -/
theorem buildKV_spec (l : List (String × String))
    (hs : l.Pairwise (fun a b => a.1.data ≤ b.1.data))
    (hn : (l.map Prod.fst).Nodup) :
    visFields (buildKV l) = visFields (buildKV (survKV l)) ∧
    (∀ segs, jsonLeafLookup (visFields (buildKV l)) segs = lookupBySeg (survKV l) segs) := by
  induction l using List.reverseRecOn with
  | nil =>
    refine ⟨rfl, ?_⟩
    intro segs
    cases segs with
    | nil => rfl
    | cons s1 srest =>
      cases srest with
      | nil => rfl
      | cons s2 srest2 => rfl
  | append_singleton P t ih =>
    have hsP := (List.pairwise_append.mp hs).1
    have hle : ∀ q ∈ P, q.1.data ≤ t.1.data := fun q hq =>
      (List.pairwise_append.mp hs).2.2 q hq t (by simp)
    have hmaps : (P.map Prod.fst).Nodup ∧ t.1 ∉ P.map Prod.fst := by
      rw [List.map_append] at hn
      have h2 := List.nodup_append.mp hn
      exact ⟨h2.1, fun hmem => h2.2.2 hmem (by simp)⟩
    obtain ⟨hnP, htP⟩ := hmaps
    obtain ⟨ih1, ih2⟩ := ih hsP hnP
    have ha : ∀ q ∈ P, strictSegPre t.1 q.1 = false := by
      intro q hq
      rcases hb : strictSegPre t.1 q.1 with _ | _
      · rfl
      · exfalso
        obtain ⟨hpre, hne⟩ := (strictSegPre_iff t.1 q.1).mp hb
        have hne2 : t.1 ≠ q.1 := fun hh => hne (hh ▸ rfl)
        have hlt := key_lt_of_strict_seg_pre hpre hne2
        exact absurd (lt_of_lt_of_le hlt (hle q hq)) (lt_irrefl _)
    have hsurv := survKV_append P t ha
    have happ := buildKV_append P t
    rcases hb : P.any (fun p => strictSegPre p.1 t.1) with _ | _
    · -- no entry of P is a strict ancestor of t: t survives
      rw [hb] at hsurv
      simp only [Bool.false_eq_true, if_false] at hsurv
      have hself : lookupBySeg (survKV P) (splitKey t.1) = none := by
        rcases hx : lookupBySeg (survKV P) (splitKey t.1) with _ | v
        · rfl
        · exfalso
          obtain ⟨q, hq, hqs, -⟩ := lookupBySeg_eq_some hx
          have hq1 : q.1 = t.1 := splitKey_injective hqs
          have hqP : q ∈ P := (survKV_sublist P).subset hq
          exact htP (hq1 ▸ List.mem_map_of_mem Prod.fst hqP)
      have hpre : ∀ p, p <+: splitKey t.1 → p ≠ splitKey t.1 →
          jsonLeafLookup (visFields (buildKV P)) p = none := by
        intro p hp hpne
        rw [ih2 p]
        rcases hx : lookupBySeg (survKV P) p with _ | v
        · rfl
        · exfalso
          obtain ⟨q, hq, hqs, -⟩ := lookupBySeg_eq_some hx
          have hqP : q ∈ P := (survKV_sublist P).subset hq
          have hstrict : strictSegPre q.1 t.1 = true := by
            rw [strictSegPre_iff, hqs]
            exact ⟨hp, hpne⟩
          have hany : P.any (fun p => strictSegPre p.1 t.1) = true :=
            List.any_eq_true.mpr ⟨q, hqP, hstrict⟩
          rw [hb] at hany
          exact Bool.noConfusion hany
      have hext : ∀ qs, splitKey t.1 <+: qs → splitKey t.1 ≠ qs →
          jsonLeafLookup (visFields (buildKV P)) qs = none := by
        intro qs hqs hqsne
        rw [ih2 qs]
        rcases hx : lookupBySeg (survKV P) qs with _ | v
        · rfl
        · exfalso
          obtain ⟨q, hq, hqseg, -⟩ := lookupBySeg_eq_some hx
          have hqP : q ∈ P := (survKV_sublist P).subset hq
          have hstrict : strictSegPre t.1 q.1 = true := by
            rw [strictSegPre_iff, hqseg]
            exact ⟨hqs, hqsne⟩
          rw [ha q hqP] at hstrict
          exact Bool.noConfusion hstrict
      have hself2 : jsonLeafLookup (visFields (buildKV P)) (splitKey t.1) = none := by
        rw [ih2]
        exact hself
      have hchar := setWith_clean_leafLookup (splitKey t.1) (buildKV P) t.2
        (splitKey_ne_nil t.1) hpre hext hself2
      constructor
      · rw [happ, hsurv, buildKV_append]
        exact setWith_visEq (splitKey t.1) t.2 ih1
      · intro segs
        rw [happ, hchar segs, hsurv, lookupBySeg_append]
        by_cases hseq : segs = splitKey t.1
        · subst hseq
          rw [if_pos rfl, hself]
          simp [lookupBySeg]
        · rw [if_neg hseq, ih2 segs]
          rcases hx : lookupBySeg (survKV P) segs with _ | v
          · simp [lookupBySeg, Ne.symm hseq]
          · rfl
    · -- some entry of P is a strict ancestor of t: t's value is invisible
      rw [hb] at hsurv
      simp only [if_true, List.append_nil] at hsurv
      obtain ⟨p, hp, hps⟩ := List.any_eq_true.mp hb
      obtain ⟨hppre, hpne⟩ := (strictSegPre_iff p.1 t.1).mp hps
      obtain ⟨q, hq, hqpre⟩ := surv_ancestor P p hp
      have hqlt : (splitKey q.1).length < (splitKey t.1).length := by
        have h1 : (splitKey q.1).length ≤ (splitKey p.1).length := hqpre.length_le
        have h2 : (splitKey p.1).length < (splitKey t.1).length := by
          rcases Nat.lt_or_ge (splitKey p.1).length (splitKey t.1).length with h | h
          · exact h
          · exact absurd (hppre.eq_of_length (Nat.le_antisymm hppre.length_le h)) hpne
        exact Nat.lt_of_le_of_lt h1 h2
      have hqt : splitKey q.1 <+: splitKey t.1 := hqpre.trans hppre
      have hqtne : splitKey q.1 ≠ splitKey t.1 := by
        intro heq
        rw [heq] at hqlt
        exact absurd hqlt (lt_irrefl _)
      have hleaf : jsonLeafLookup (visFields (buildKV P)) (splitKey q.1) = some q.2 := by
        rw [ih2]
        exact lookupBySeg_mem (by rw [Prod.mk.eta]; exact hq) (survKV_keys_nodup hnP)
      have hvis : visFields (setWithObject (buildKV P) (splitKey t.1) t.2) =
          visFields (buildKV P) :=
        setWith_blocked (splitKey q.1) hleaf hqt hqtne
      constructor
      · rw [happ, hvis, hsurv]
        exact ih1
      · intro segs
        rw [happ, hvis, hsurv]
        exact ih2 segs

end I18n

namespace I18n

/-! ### Well-formedness of built trees, and flattening them back -/

mutual

/-- Well-formed runtime value: every object level has distinct, dot-free
keys (as produced by inserting split paths). -/
def WFVal : JsVal → Prop
  | .str _ => True
  | .obj fs => WFValFields fs
  | .strObj _ fs => WFValFields fs

/-- Well-formed runtime object fields. -/
def WFValFields : List (String × JsVal) → Prop
  | [] => True
  | (k, v) :: rest => ('.' ∉ k.data) ∧ (k ∉ mapKeys rest) ∧ WFVal v ∧ WFValFields rest

end

mutual

/-- Well-formed JSON tree: distinct, dot-free keys at every object level. -/
def WFJson : Json → Prop
  | .str _ => True
  | .obj fs => WFJsonFields fs

/-- Well-formed JSON object fields. -/
def WFJsonFields : List (String × Json) → Prop
  | [] => True
  | (k, v) :: rest => ('.' ∉ k.data) ∧ (k ∉ mapKeys rest) ∧ WFJson v ∧ WFJsonFields rest

end

theorem wfVal_mapGet {fs : List (String × JsVal)} {k : String} {v : JsVal}
    (hwf : WFValFields fs) (h : mapGet fs k = some v) : WFVal v := by
  induction fs with
  | nil => simp [mapGet] at h
  | cons e rest ih =>
    obtain ⟨k0, v0⟩ := e
    rw [WFValFields] at hwf
    by_cases h0 : k0 = k
    · rw [mapGet, if_pos h0] at h
      rw [← Option.some.injEq v0 v |>.mp h]
      exact hwf.2.2.1
    · rw [mapGet, if_neg h0] at h
      exact ih hwf.2.2.2 h

theorem wfValFields_mapSet {fs : List (String × JsVal)} {k : String} {v : JsVal}
    (hwf : WFValFields fs) (hk : '.' ∉ k.data) (hv : WFVal v) :
    WFValFields (mapSet fs k v) := by
  induction fs with
  | nil =>
    rw [mapSet, WFValFields]
    exact ⟨hk, by simp [mapKeys], hv, trivial⟩
  | cons e rest ih =>
    obtain ⟨k0, v0⟩ := e
    rw [WFValFields] at hwf
    by_cases h0 : k0 = k
    · subst h0
      rw [mapSet, if_pos rfl, WFValFields]
      exact ⟨hk, hwf.2.1, hv, hwf.2.2.2⟩
    · rw [mapSet, if_neg h0, WFValFields]
      refine ⟨hwf.1, ?_, hwf.2.2.1, ih hwf.2.2.2⟩
      intro hmem
      by_cases hk0 : k ∈ mapKeys rest
      · rw [mapKeys_set_mem rest k v hk0] at hmem
        exact hwf.2.1 hmem
      · rw [mapSet_fresh rest k v hk0] at hmem
        simp only [mapKeys, List.map_append, List.mem_append, List.map_cons, List.map_nil,
          List.mem_singleton] at hmem
        rcases hmem with hmem | hmem
        · exact hwf.2.1 (by simpa [mapKeys] using hmem)
        · exact h0 hmem

theorem wfValFields_setWith (segs : List String) (v : String) :
    ∀ {F : List (String × JsVal)}, WFValFields F → (∀ s ∈ segs, '.' ∉ s.data) →
      WFValFields (setWithObject F segs v) := by
  induction segs with
  | nil => exact fun hwf _ => hwf
  | cons k rest ih =>
    intro F hwf hdot
    have hk : '.' ∉ k.data := hdot k (by simp)
    have hdrest : ∀ s ∈ rest, '.' ∉ s.data := fun s hs => hdot s (List.mem_cons_of_mem k hs)
    cases rest with
    | nil =>
      exact wfValFields_mapSet hwf hk trivial
    | cons k2 rrest =>
      rcases hF : mapGet F k with _ | a
      · rw [show setWithObject F (k :: k2 :: rrest) v =
            mapSet F k (JsVal.obj (setWithObject [] (k2 :: rrest) v)) from by
          simp only [setWithObject, hF]]
        exact wfValFields_mapSet hwf hk (ih trivial hdrest)
      · cases a with
        | str s =>
          rw [show setWithObject F (k :: k2 :: rrest) v =
              mapSet F k (JsVal.strObj s (setWithObject [] (k2 :: rrest) v)) from by
            simp only [setWithObject, hF]]
          exact wfValFields_mapSet hwf hk (ih trivial hdrest)
        | obj g =>
          rw [show setWithObject F (k :: k2 :: rrest) v =
              mapSet F k (JsVal.obj (setWithObject g (k2 :: rrest) v)) from by
            simp only [setWithObject, hF]]
          exact wfValFields_mapSet hwf hk (ih (wfVal_mapGet hwf hF) hdrest)
        | strObj s g =>
          rw [show setWithObject F (k :: k2 :: rrest) v =
              mapSet F k (JsVal.strObj s (setWithObject g (k2 :: rrest) v)) from by
            simp only [setWithObject, hF]]
          exact wfValFields_mapSet hwf hk (ih (wfVal_mapGet hwf hF) hdrest)

theorem wfValFields_buildKV (l : List (String × String)) : WFValFields (buildKV l) := by
  induction l using List.reverseRecOn with
  | nil => trivial
  | append_singleton P t ih =>
    rw [buildKV_append]
    exact wfValFields_setWith (splitKey t.1) t.2 ih (splitKey_dotFree t.1)

mutual

/-- Visibility preserves well-formedness. -/
theorem wfVal_vis : ∀ (v : JsVal), WFVal v → WFJson (visVal v)
  | .str _, _ => trivial
  | .obj fs, h => wfValFields_vis fs h
  | .strObj _ _, _ => trivial

/-- Visibility preserves well-formedness of fields. -/
theorem wfValFields_vis : ∀ (fs : List (String × JsVal)), WFValFields fs →
    WFJsonFields (visFields fs)
  | [], _ => trivial
  | (k, v) :: rest, h => by
    rw [WFValFields] at h
    rw [visFields, WFJsonFields]
    refine ⟨h.1, ?_, wfVal_vis v h.2.2.1, wfValFields_vis rest h.2.2.2⟩
    rw [mapKeys_visFields]
    exact h.2.1

end

end I18n

namespace I18n

theorem joinPath_of_ne (path k : String) (h : path ≠ "") :
    joinPath path k = path ++ "." ++ k := by
  rw [joinPath, if_neg h]

theorem data_joinPath (path k : String) (h : path ≠ "") :
    (joinPath path k).data = path.data ++ '.' :: k.data := by
  rw [joinPath_of_ne path k h]
  simp [String.data_append]

theorem joinPath_ne_empty (path k : String) (h : path ≠ "") : joinPath path k ≠ "" := by
  intro hc
  have hdata := congrArg String.data hc
  rw [data_joinPath path k h] at hdata
  simp at hdata

theorem splitKey_joinPath (path k : String) (hpath : path ≠ "") (hk : '.' ∉ k.data) :
    splitKey (joinPath path k) = splitKey path ++ [k] := by
  have hdata := data_joinPath path k hpath
  rw [splitKey, hdata, splitCharsOnDot_append_dot, splitCharsOnDot_of_dotFree k.data hk]
  rw [List.map_append]
  rfl

/-- `relOf path q` decomposes `q`'s segments as `path`'s segments followed by
a (possibly empty) relative path, when `path` is a dot-path ancestor of `q`. -/
def relOf (path q : String) : Option (List String) :=
  if (splitKey path).isPrefixOf (splitKey q) then
    some ((splitKey q).drop (splitKey path).length)
  else none

theorem relOf_some_iff (path q : String) (rel : List String) :
    relOf path q = some rel ↔ splitKey q = splitKey path ++ rel := by
  rw [relOf]
  rcases hb : (splitKey path).isPrefixOf (splitKey q) with _ | _
  · simp only [Bool.false_eq_true, if_false]
    constructor
    · intro h
      exact Option.noConfusion h
    · intro h
      exfalso
      have hpp : (splitKey path).isPrefixOf (splitKey q) = true :=
        List.isPrefixOf_iff_prefix.mpr ⟨rel, h.symm⟩
      rw [hb] at hpp
      exact Bool.noConfusion hpp
  · simp only [if_true]
    obtain ⟨t, ht⟩ := List.isPrefixOf_iff_prefix.mp hb
    have hdrop : (splitKey q).drop (splitKey path).length = t := by
      rw [← ht, List.drop_left]
    rw [hdrop]
    constructor
    · intro h
      rw [← ht, (Option.some.injEq t rel).mp h]
    · intro h
      have h2 : t = rel := List.append_cancel_left (ht.trans h)
      rw [h2]

theorem relOf_self (path : String) : relOf path path = some [] := by
  rw [relOf, if_pos (List.isPrefixOf_iff_prefix.mpr (List.prefix_refl _))]
  rw [List.drop_length]

/-- The leaf of a JSON value at a relative path (empty path: the value itself
if it is a string). -/
def valLeafAt : Json → List String → Option String
  | .str s, [] => some s
  | .str _, _ :: _ => none
  | .obj _, [] => none
  | .obj fs, r :: rs => jsonLeafLookup fs (r :: rs)

theorem jsonLeafLookup_cons_self (k : String) (v : Json) (rest : List (String × Json))
    (rs : List String) : jsonLeafLookup ((k, v) :: rest) (k :: rs) = valLeafAt v rs := by
  cases rs with
  | nil =>
    rw [jsonLeafLookup_single]
    cases v with
    | str s => simp [mapGet, valLeafAt]
    | obj g => simp [mapGet, valLeafAt]
  | cons r2 rs2 =>
    rw [jsonLeafLookup_cons_cons]
    cases v with
    | str s => simp [mapGet, valLeafAt]
    | obj g => simp [mapGet, valLeafAt]

theorem jsonLeafLookup_cons_ne (k : String) (v : Json) (rest : List (String × Json))
    (r : String) (rs : List String) (h : k ≠ r) :
    jsonLeafLookup ((k, v) :: rest) (r :: rs) = jsonLeafLookup rest (r :: rs) := by
  cases rs with
  | nil =>
    rw [jsonLeafLookup_single, jsonLeafLookup_single, mapGet, if_neg h]
  | cons r2 rs2 =>
    rw [jsonLeafLookup_cons_cons, jsonLeafLookup_cons_cons, mapGet, if_neg h]

theorem jsonLeafLookup_head_none {fs : List (String × Json)} {r : String}
    (h : mapGet fs r = none) (rs : List String) : jsonLeafLookup fs (r :: rs) = none := by
  cases rs with
  | nil => rw [jsonLeafLookup_single, h]
  | cons r2 rs2 => rw [jsonLeafLookup_cons_cons, h]

end I18n

namespace I18n

/-- Either a found leaf (recorded under the full joined key) or a fallback. -/
def leafHit (q : String) (o : Option String) (fallback : Option Translation) :
    Option Translation :=
  match o with
  | some s => some { key := q, value := s }
  | none => fallback

theorem valLeafAt_obj (fs : List (String × Json)) :
    valLeafAt (Json.obj fs) = jsonLeafLookup fs := by
  funext rel
  cases rel with
  | nil => rfl
  | cons r rs => rfl

mutual

/-- What `gather` contributes for one value sitting at a nonempty path: a
lookup in the accumulated map either finds the leaf of this value at the
corresponding relative path, or falls through to the previous accumulator. -/
theorem gatherVal_mapGet_char (d : Json) :
    ∀ (path : String) (acc : List (String × Translation)) (q : String),
      path ≠ "" → WFJson d →
      mapGet (gatherVal acc d path) q =
        leafHit q ((relOf path q).bind (valLeafAt d)) (mapGet acc q) := by
  intro path acc q hpath hwf
  cases d with
  | str s =>
    rw [show gatherVal acc (Json.str s) path = mapSet acc path { key := path, value := s }
      from by rw [gatherVal]]
    by_cases hq : q = path
    · subst hq
      rw [mapGet_set_self, relOf_self]
      simp [leafHit, valLeafAt]
    · rw [mapGet_set_ne acc path q _ hq]
      rcases hrel : relOf path q with _ | rel
      · simp [leafHit]
      · cases rel with
        | nil =>
          exfalso
          have hq2 : splitKey q = splitKey path := by
            simpa using (relOf_some_iff path q []).mp hrel
          exact hq (splitKey_injective hq2)
        | cons r rs => simp [leafHit, valLeafAt]
  | obj fs =>
    rw [show gatherVal acc (Json.obj fs) path = gatherFieldsAux acc fs path
      from by rw [gatherVal]]
    rw [gatherFields_mapGet_char fs path acc q hpath hwf, valLeafAt_obj]

/-- The fields version of `gatherVal_mapGet_char`. -/
theorem gatherFields_mapGet_char (fs : List (String × Json)) :
    ∀ (path : String) (acc : List (String × Translation)) (q : String),
      path ≠ "" → WFJsonFields fs →
      mapGet (gatherFieldsAux acc fs path) q =
        leafHit q ((relOf path q).bind (jsonLeafLookup fs)) (mapGet acc q) := by
  intro path acc q hpath hwf
  cases fs with
  | nil =>
    rw [show gatherFieldsAux acc [] path = acc from by rw [gatherFieldsAux]]
    rcases hrel : relOf path q with _ | rel
    · simp [leafHit]
    · cases rel with
      | nil => simp [leafHit, jsonLeafLookup_nil]
      | cons r rs =>
        simp [leafHit, jsonLeafLookup_head_none (show mapGet ([] : List (String × Json)) r = none from rfl) rs]
  | cons e rest =>
    obtain ⟨k, v⟩ := e
    rw [WFJsonFields] at hwf
    obtain ⟨hkdot, hknotin, hwfv, hwfrest⟩ := hwf
    have hpath2 : joinPath path k ≠ "" := joinPath_ne_empty path k hpath
    have hsplit2 : splitKey (joinPath path k) = splitKey path ++ [k] :=
      splitKey_joinPath path k hpath hkdot
    rw [show gatherFieldsAux acc ((k, v) :: rest) path =
        gatherFieldsAux (gatherVal acc v (joinPath path k)) rest path
      from by rw [gatherFieldsAux]]
    rw [gatherFields_mapGet_char rest path (gatherVal acc v (joinPath path k)) q hpath hwfrest]
    rw [gatherVal_mapGet_char v (joinPath path k) acc q hpath2 hwfv]
    rcases hrel : relOf path q with _ | rel
    · have hnone : relOf (joinPath path k) q = none := by
        rcases hx : relOf (joinPath path k) q with _ | rel2
        · rfl
        · exfalso
          have h2 := (relOf_some_iff _ _ _).mp hx
          rw [hsplit2] at h2
          have h3 : relOf path q = some (k :: rel2) :=
            (relOf_some_iff _ _ _).mpr (by rw [h2]; simp)
          rw [hrel] at h3
          exact Option.noConfusion h3
      rw [hnone]
      simp [leafHit]
    · cases rel with
      | nil =>
        have hqp : splitKey q = splitKey path := by
          simpa using (relOf_some_iff path q []).mp hrel
        have hnone : relOf (joinPath path k) q = none := by
          rcases hx : relOf (joinPath path k) q with _ | rel2
          · rfl
          · exfalso
            have h2 := (relOf_some_iff _ _ _).mp hx
            rw [hsplit2, hqp] at h2
            have hlen := congrArg List.length h2
            simp at hlen
        rw [hnone]
        simp [leafHit, jsonLeafLookup_nil]
      | cons r rs =>
        have hq2 : splitKey q = splitKey path ++ r :: rs := (relOf_some_iff path q _).mp hrel
        by_cases hrk : r = k
        · subst hrk
          have hrest : jsonLeafLookup rest (r :: rs) = none :=
            jsonLeafLookup_head_none ((mapGet_eq_none_iff rest r).mpr hknotin) rs
          have hrel2 : relOf (joinPath path r) q = some rs :=
            (relOf_some_iff _ _ _).mpr (by rw [hsplit2, hq2]; simp)
          rw [hrel2]
          simp only [Option.some_bind]
          rw [jsonLeafLookup_cons_self, hrest]
          simp [leafHit]
        · have hcons : jsonLeafLookup ((k, v) :: rest) (r :: rs) =
              jsonLeafLookup rest (r :: rs) :=
            jsonLeafLookup_cons_ne k v rest r rs (fun hh => hrk hh.symm)
          have hnone : relOf (joinPath path k) q = none := by
            rcases hx : relOf (joinPath path k) q with _ | rel2
            · rfl
            · exfalso
              have h2 := (relOf_some_iff _ _ _).mp hx
              rw [hsplit2, hq2] at h2
              have h3 : r :: rs = k :: rel2 :=
                List.append_cancel_left
                  (show splitKey path ++ r :: rs = splitKey path ++ (k :: rel2) from by
                    rw [h2]
                    simp)
              exact hrk (List.cons.injEq _ _ _ _ ▸ h3).1
          rw [hnone]
          simp only [Option.some_bind, Option.none_bind]
          rw [hcons]
          rcases hlook : jsonLeafLookup rest (r :: rs) with _ | s <;> simp [leafHit, hlook]

end

end I18n

namespace I18n

/-- Root-level safety: a key that is the empty string at a position where the
accumulated path is still empty must not hold an object, because
`path ? `${path}.${key}` : key` would silently collapse the empty prefix. -/
def RootSafeFields : List (String × Json) → Prop
  | [] => True
  | (k, v) :: rest => (k = "" → ∀ g, v ≠ Json.obj g) ∧ RootSafeFields rest

/-- The root walk of `gatherTranslations`: every visible leaf of a
well-formed, root-safe tree is recorded under its dot-joined path, and lookup
by any key returns exactly the leaf at that key's split path. -/
theorem gatherFields_root_mapGet_char (fs : List (String × Json)) :
    ∀ (acc : List (String × Translation)) (q : String),
      WFJsonFields fs → RootSafeFields fs →
      mapGet (gatherFieldsAux acc fs "") q =
        leafHit q (jsonLeafLookup fs (splitKey q)) (mapGet acc q) := by
  induction fs with
  | nil =>
    intro acc q _ _
    rw [show gatherFieldsAux acc [] "" = acc from by rw [gatherFieldsAux]]
    cases hsk : splitKey q with
    | nil => exact absurd hsk (splitKey_ne_nil q)
    | cons r rs =>
      simp [leafHit,
        jsonLeafLookup_head_none (show mapGet ([] : List (String × Json)) r = none from rfl) rs]
  | cons e rest ih =>
    intro acc q hwf hrs
    obtain ⟨k, v⟩ := e
    rw [WFJsonFields] at hwf
    obtain ⟨hkdot, hknotin, hwfv, hwfrest⟩ := hwf
    rw [RootSafeFields] at hrs
    obtain ⟨hrs1, hrsrest⟩ := hrs
    have hsplitk : splitKey k = [k] := splitKey_of_dotFree k hkdot
    rw [show gatherFieldsAux acc ((k, v) :: rest) "" =
        gatherFieldsAux (gatherVal acc v (joinPath "" k)) rest ""
      from by rw [gatherFieldsAux]]
    rw [show joinPath "" k = k from by rw [joinPath, if_pos rfl]]
    rw [ih (gatherVal acc v k) q hwfrest hrsrest]
    cases hsk : splitKey q with
    | nil => exact absurd hsk (splitKey_ne_nil q)
    | cons r rs =>
      by_cases hrk : r = k
      · subst hrk
        have hrest : jsonLeafLookup rest (r :: rs) = none :=
          jsonLeafLookup_head_none ((mapGet_eq_none_iff rest r).mpr hknotin) rs
        rw [hrest, jsonLeafLookup_cons_self]
        cases v with
        | str s =>
          cases rs with
          | nil =>
            have hq : q = r := splitKey_injective (by rw [hsk, hsplitk])
            subst hq
            rw [show gatherVal acc (Json.str s) q = mapSet acc q { key := q, value := s }
              from by rw [gatherVal]]
            rw [mapGet_set_self]
            simp [leafHit, valLeafAt]
          | cons r2 rs2 =>
            have hq : q ≠ r := by
              intro hqq
              subst hqq
              rw [hsplitk] at hsk
              exact List.noConfusion (List.cons.injEq _ _ _ _ ▸ hsk :
                (q = q ∧ ([] : List String) = r2 :: rs2)).2
            rw [show gatherVal acc (Json.str s) r = mapSet acc r { key := r, value := s }
              from by rw [gatherVal]]
            rw [mapGet_set_ne acc r q _ hq]
            simp [leafHit, valLeafAt]
        | obj g =>
          have hkne : r ≠ "" := by
            intro hk0
            exact hrs1 hk0 g rfl
          rw [show gatherVal acc (Json.obj g) r = gatherFieldsAux acc g r
            from by rw [gatherVal]]
          rw [gatherFields_mapGet_char g r acc q hkne hwfv]
          have hrel : relOf r q = some rs := by
            rw [relOf_some_iff, hsk, hsplitk]
            rfl
          rw [hrel]
          simp only [Option.some_bind]
          rw [valLeafAt_obj]
          simp [leafHit]
      · have hcons : jsonLeafLookup ((k, v) :: rest) (r :: rs) =
            jsonLeafLookup rest (r :: rs) :=
          jsonLeafLookup_cons_ne k v rest r rs (fun hh => hrk hh.symm)
        rw [hcons]
        have hacc : mapGet (gatherVal acc v k) q = mapGet acc q := by
          cases v with
          | str s =>
            have hq : q ≠ k := by
              intro hqq
              subst hqq
              rw [hsplitk] at hsk
              injection hsk with h1 h2
              exact hrk h1.symm
            rw [show gatherVal acc (Json.str s) k = mapSet acc k { key := k, value := s }
              from by rw [gatherVal]]
            exact mapGet_set_ne acc k q _ hq
          | obj g =>
            have hkne : k ≠ "" := by
              intro hk0
              exact hrs1 hk0 g rfl
            rw [show gatherVal acc (Json.obj g) k = gatherFieldsAux acc g k
              from by rw [gatherVal]]
            rw [gatherFields_mapGet_char g k acc q hkne hwfv]
            have hrel : relOf k q = none := by
              rcases hx : relOf k q with _ | rel2
              · rfl
              · exfalso
                have h2 := (relOf_some_iff _ _ _).mp hx
                rw [hsk, hsplitk] at h2
                exact hrk (List.cons.injEq _ _ _ _ ▸ h2 :
                  (r = k ∧ rs = rel2)).1
            rw [hrel]
            simp [leafHit]
        rw [hacc]

end I18n

namespace I18n

mutual

theorem gatherVal_nodup (d : Json) : ∀ (acc : List (String × Translation)) (path : String),
    (mapKeys acc).Nodup → (mapKeys (gatherVal acc d path)).Nodup := by
  intro acc path h
  cases d with
  | str s =>
    rw [show gatherVal acc (Json.str s) path = mapSet acc path { key := path, value := s }
      from by rw [gatherVal]]
    exact mapKeys_set_nodup acc path _ h
  | obj fs =>
    rw [show gatherVal acc (Json.obj fs) path = gatherFieldsAux acc fs path
      from by rw [gatherVal]]
    exact gatherFields_nodup fs acc path h

theorem gatherFields_nodup (fs : List (String × Json)) :
    ∀ (acc : List (String × Translation)) (path : String),
      (mapKeys acc).Nodup → (mapKeys (gatherFieldsAux acc fs path)).Nodup := by
  intro acc path h
  cases fs with
  | nil =>
    rw [show gatherFieldsAux acc [] path = acc from by rw [gatherFieldsAux]]
    exact h
  | cons e rest =>
    obtain ⟨k, v⟩ := e
    rw [show gatherFieldsAux acc ((k, v) :: rest) path =
        gatherFieldsAux (gatherVal acc v (joinPath path k)) rest path
      from by rw [gatherFieldsAux]]
    exact gatherFields_nodup rest _ path (gatherVal_nodup v acc (joinPath path k) h)

end

/-- Full-flatten characterization: looking up any key in the flattened map of
a well-formed, root-safe tree finds exactly the tree's visible leaf at that
key's dot-path. -/
theorem gatherTranslations_mapGet (V : List (String × Json)) (hwf : WFJsonFields V)
    (hrs : RootSafeFields V) (q : String) :
    mapGet (gatherTranslations (some (Json.obj V))) q =
      leafHit q (jsonLeafLookup V (splitKey q)) none := by
  rw [show gatherTranslations (some (Json.obj V)) = gatherVal [] (Json.obj V) ""
    from by rw [gatherTranslations]]
  rw [show gatherVal ([] : List (String × Translation)) (Json.obj V) "" =
      gatherFieldsAux [] V "" from by rw [gatherVal]]
  rw [gatherFields_root_mapGet_char V [] q hwf hrs]
  rfl

theorem gatherTranslations_nodup (o : Option Json) :
    (mapKeys (gatherTranslations o)).Nodup := by
  cases o with
  | none => simp [gatherTranslations, mapKeys]
  | some d =>
    rw [show gatherTranslations (some d) = gatherVal [] d "" from by rw [gatherTranslations]]
    exact gatherVal_nodup d [] "" (by simp [mapKeys])

/-- Whether a JS string key begins with a `'.'` character. -/
def startsWithDot (k : String) : Bool :=
  match k.data with
  | [] => false
  | c :: _ => c = '.'

theorem splitKey_head_empty_iff (k : String) :
    (∃ r rs, splitKey k = "" :: r :: rs) ↔ startsWithDot k = true := by
  cases hd : k.data with
  | nil =>
    have hk : splitKey k = [""] := by
      rw [splitKey, hd]
      rfl
    have hsw : startsWithDot k = false := by
      unfold startsWithDot
      rw [hd]
    refine iff_of_false ?_ (by rw [hsw]; exact fun h => Bool.noConfusion h)
    intro ⟨r, rs, hcontra⟩
    rw [hk] at hcontra
    exact List.noConfusion ((List.cons.injEq _ _ _ _).mp hcontra).2
  | cons c rest =>
    have hsplit : splitCharsOnDot k.data = splitCharsOnDot (c :: rest) := by rw [hd]
    by_cases hc : c = '.'
    · have hsw : startsWithDot k = true := by
        unfold startsWithDot
        rw [hd]
        simp [hc]
      refine iff_of_true ?_ hsw
      subst hc
      cases hrest : splitCharsOnDot rest with
      | nil => exact absurd hrest (splitCharsOnDot_ne_nil rest)
      | cons g gs =>
        refine ⟨String.mk g, gs.map String.mk, ?_⟩
        rw [splitKey, hsplit]
        simp [splitCharsOnDot, hrest]
    · have hsw : startsWithDot k = false := by
        unfold startsWithDot
        rw [hd]
        simp [hc]
      refine iff_of_false ?_ (by rw [hsw]; exact fun h => Bool.noConfusion h)
      intro ⟨r, rs, hcontra⟩
      rw [splitKey, hsplit] at hcontra
      cases hrest : splitCharsOnDot rest with
      | nil => exact absurd hrest (splitCharsOnDot_ne_nil rest)
      | cons g gs =>
        simp only [splitCharsOnDot, hrest, if_neg hc, List.map_cons] at hcontra
        injection hcontra with h1 h2
        have := congrArg String.data h1
        simp at this

/-- If no inserted key begins with a dot, the built tree never holds an
object under the empty root key. -/
theorem buildKV_no_root_empty_obj (l : List (String × String))
    (h : ∀ e ∈ l, startsWithDot e.1 = false) :
    ∀ g, mapGet (visFields (buildKV l)) "" ≠ some (Json.obj g) := by
  induction l using List.reverseRecOn with
  | nil =>
    intro g hcontra
    simp [buildKV, visFields, mapGet] at hcontra
  | append_singleton P t ih =>
    have hP : ∀ e ∈ P, startsWithDot e.1 = false := fun e he => h e (by simp [he])
    have ht : startsWithDot t.1 = false := h t (by simp)
    intro g hcontra
    rw [buildKV_append] at hcontra
    cases hsk : splitKey t.1 with
    | nil => exact absurd hsk (splitKey_ne_nil t.1)
    | cons k rest =>
      cases rest with
      | nil =>
        rw [hsk] at hcontra
        rw [show setWithObject (buildKV P) [k] t.2 = mapSet (buildKV P) k (JsVal.str t.2)
          from rfl] at hcontra
        rw [visFields_mapSet] at hcontra
        by_cases hk : k = ""
        · subst hk
          rw [mapGet_set_self] at hcontra
          exact Json.noConfusion ((Option.some.injEq _ _).mp hcontra)
        · rw [mapGet_set_ne _ _ _ _ (fun hh => hk hh.symm)] at hcontra
          exact ih hP g hcontra
      | cons k2 rrest =>
        have hk : k ≠ "" := by
          intro hk0
          subst hk0
          have : startsWithDot t.1 = true :=
            (splitKey_head_empty_iff t.1).mp ⟨k2, rrest, hsk⟩
          rw [ht] at this
          exact Bool.noConfusion this
        rw [hsk] at hcontra
        have hgone : mapGet (visFields (setWithObject (buildKV P) (k :: k2 :: rrest) t.2)) "" =
            mapGet (visFields (buildKV P)) "" := by
          rcases hF : mapGet (buildKV P) k with _ | a
          · rw [show setWithObject (buildKV P) (k :: k2 :: rrest) t.2 =
                mapSet (buildKV P) k (JsVal.obj (setWithObject [] (k2 :: rrest) t.2))
              from by simp only [setWithObject, hF]]
            rw [visFields_mapSet]
            exact mapGet_set_ne _ _ _ _ (fun hh => hk hh.symm)
          · cases a with
            | str s =>
              rw [show setWithObject (buildKV P) (k :: k2 :: rrest) t.2 =
                  mapSet (buildKV P) k (JsVal.strObj s (setWithObject [] (k2 :: rrest) t.2))
                from by simp only [setWithObject, hF]]
              rw [visFields_mapSet]
              exact mapGet_set_ne _ _ _ _ (fun hh => hk hh.symm)
            | obj g2 =>
              rw [show setWithObject (buildKV P) (k :: k2 :: rrest) t.2 =
                  mapSet (buildKV P) k (JsVal.obj (setWithObject g2 (k2 :: rrest) t.2))
                from by simp only [setWithObject, hF]]
              rw [visFields_mapSet]
              exact mapGet_set_ne _ _ _ _ (fun hh => hk hh.symm)
            | strObj s g2 =>
              rw [show setWithObject (buildKV P) (k :: k2 :: rrest) t.2 =
                  mapSet (buildKV P) k (JsVal.strObj s (setWithObject g2 (k2 :: rrest) t.2))
                from by simp only [setWithObject, hF]]
              rw [visFields_mapSet]
              exact mapGet_set_ne _ _ _ _ (fun hh => hk hh.symm)
        rw [hgone] at hcontra
        exact ih hP g hcontra

/-- Root safety follows from the absence of an object under the empty root
key (given distinct root keys). -/
theorem rootSafe_of_no_empty_obj {V : List (String × Json)}
    (hnd : (mapKeys V).Nodup) (h : ∀ g, mapGet V "" ≠ some (Json.obj g)) :
    RootSafeFields V := by
  induction V with
  | nil => trivial
  | cons e rest ih =>
    obtain ⟨k, v⟩ := e
    simp only [mapKeys, List.map_cons, List.nodup_cons] at hnd
    rw [RootSafeFields]
    constructor
    · intro hk g hv
      subst hk
      subst hv
      exact h g (by rw [mapGet, if_pos rfl])
    · refine ih hnd.2 ?_
      intro g hcontra
      by_cases hk : k = ""
      · subst hk
        have : ("" : String) ∈ mapKeys rest := by
          rw [← mapGet_isSome_iff, hcontra]
          rfl
        exact hnd.1 (by simpa [mapKeys] using this)
      · refine h g ?_
        rw [mapGet, if_neg hk]
        exact hcontra

end I18n

namespace I18n

/-! ### Generic characterization of "optionally set your own key" folds -/

/-- One step of a fold that, per keyed input, either writes a value at that
key or leaves the map alone. -/
def optSetStep {β γ : Type} (G : String → β → Option γ)
    (acc : List (String × γ)) (kv : String × β) : List (String × γ) :=
  match G kv.1 kv.2 with
  | some v => mapSet acc kv.1 v
  | none => acc

theorem optSetStep_mapGet_ne {β γ : Type} (G : String → β → Option γ)
    (A : List (String × γ)) (kv : String × β) (q : String) (h : kv.1 ≠ q) :
    mapGet (optSetStep G A kv) q = mapGet A q := by
  cases hg : G kv.1 kv.2 with
  | none => simp [optSetStep, hg]
  | some v =>
    simp only [optSetStep, hg]
    exact mapGet_set_ne A kv.1 q v (fun hh => h hh.symm)

theorem optSetFold_mapGet_not_mem {β γ : Type} (G : String → β → Option γ)
    (l : List (String × β)) : ∀ (A : List (String × γ)) (q : String),
    (∀ kv ∈ l, kv.1 ≠ q) →
    mapGet (l.foldl (optSetStep G) A) q = mapGet A q := by
  induction l with
  | nil => intro A q _; rfl
  | cons e rest ih =>
    intro A q h
    rw [List.foldl_cons, ih _ q (fun kv hkv => h kv (List.mem_cons_of_mem e hkv))]
    exact optSetStep_mapGet_ne G A e q (h e (List.mem_cons_self e rest))

theorem optSetFold_mapGet {β γ : Type} (G : String → β → Option γ)
    (l : List (String × β)) : ∀ (A : List (String × γ)) (q : String),
    (mapKeys l).Nodup →
    mapGet (l.foldl (optSetStep G) A) q =
      match mapGet l q with
      | some b => (match G q b with | some v => some v | none => mapGet A q)
      | none => mapGet A q := by
  induction l with
  | nil => intro A q _; rfl
  | cons e rest ih =>
    intro A q hnd
    obtain ⟨k, b⟩ := e
    simp only [mapKeys, List.map_cons, List.nodup_cons] at hnd
    rw [List.foldl_cons]
    by_cases hk : k = q
    · subst hk
      have hnot : ∀ kv ∈ rest, kv.1 ≠ k := fun kv hkv heq =>
        hnd.1 (heq ▸ List.mem_map_of_mem Prod.fst hkv)
      rw [optSetFold_mapGet_not_mem G rest _ k hnot]
      rw [show mapGet ((k, b) :: rest) k = some b from by simp [mapGet]]
      cases hg : G k b with
      | some v => simp [optSetStep, hg, mapGet_set_self]
      | none => simp [optSetStep, hg]
    · rw [ih _ q hnd.2]
      rw [show mapGet ((k, b) :: rest) q = mapGet rest q from by simp [mapGet, hk]]
      cases hget : mapGet rest q with
      | some b' =>
        cases hg : G q b' with
        | some v => simp [hg]
        | none => simpa [hg] using optSetStep_mapGet_ne G A (k, b) q hk
      | none => simpa using optSetStep_mapGet_ne G A (k, b) q hk

theorem optSetFold_keys_nodup {β γ : Type} (G : String → β → Option γ)
    (l : List (String × β)) : ∀ (A : List (String × γ)),
    (mapKeys A).Nodup → (mapKeys (l.foldl (optSetStep G) A)).Nodup := by
  induction l with
  | nil => intro A h; exact h
  | cons e rest ih =>
    intro A h
    rw [List.foldl_cons]
    refine ih _ ?_
    cases hg : G e.1 e.2 with
    | none => simpa [optSetStep, hg] using h
    | some v =>
      simp only [optSetStep, hg]
      exact mapKeys_set_nodup A e.1 v h

theorem optSetStep_keyprop {β γ : Type} (G : String → β → Option γ)
    (keyOf : γ → String) (A : List (String × γ)) (kv : String × β)
    (hA : ∀ q t, mapGet A q = some t → keyOf t = q)
    (hG : ∀ k b t, G k b = some t → keyOf t = k) :
    ∀ q t, mapGet (optSetStep G A kv) q = some t → keyOf t = q := by
  intro q t h
  by_cases hk : kv.1 = q
  · subst hk
    cases hg : G kv.1 kv.2 with
    | none =>
      rw [optSetStep, hg] at h
      exact hA _ _ h
    | some v =>
      rw [optSetStep, hg, mapGet_set_self] at h
      rw [← (Option.some.injEq _ _).mp h]
      exact hG _ _ _ hg
  · rw [optSetStep_mapGet_ne G A kv q hk] at h
    exact hA _ _ h

theorem optSetFold_keyprop {β γ : Type} (G : String → β → Option γ)
    (keyOf : γ → String) (l : List (String × β)) : ∀ (A : List (String × γ)),
    (∀ q t, mapGet A q = some t → keyOf t = q) →
    (∀ k b t, G k b = some t → keyOf t = k) →
    ∀ q t, mapGet (l.foldl (optSetStep G) A) q = some t → keyOf t = q := by
  induction l with
  | nil => intro A hA _; exact hA
  | cons e rest ih =>
    intro A hA hG
    rw [List.foldl_cons]
    exact ih _ (optSetStep_keyprop G keyOf A e hA hG) hG

/-! ### The prospect map and the default-handler merge, characterized -/

/-- The prospect record `buildProspectiveTranslations` builds for one key. -/
def prospectAt (newValues existingValues : List (String × Translation)) (key : String) :
    ProspectiveTranslation :=
  { key := key
    newValue := (mapGet newValues key).map Translation.value
    existingValue := (mapGet existingValues key).map Translation.value
    source :=
      match (mapGet newValues key).bind Translation.source with
      | some s => some s
      | none => (mapGet existingValues key).bind Translation.source }

theorem buildProspectiveTranslations_eq (gen ex : List (String × Translation)) :
    buildProspectiveTranslations gen ex =
      (firstOccur (mapKeys gen ++ mapKeys ex)).map fun key => (key, prospectAt gen ex key) := rfl

theorem mapKeys_map_fn {α : Type} (l : List String) (g : String → α) :
    mapKeys (l.map fun k => (k, g k)) = l := by
  induction l with
  | nil => rfl
  | cons k rest ih => simp [mapKeys] at ih ⊢; exact ih

theorem mapGet_map_fn {α : Type} (l : List String) (g : String → α) (q : String)
    (hnd : l.Nodup) :
    mapGet (l.map fun k => (k, g k)) q = if q ∈ l then some (g q) else none := by
  induction l with
  | nil => simp [mapGet]
  | cons k rest ih =>
    simp only [List.nodup_cons] at hnd
    by_cases hk : k = q
    · subst hk
      simp [mapGet, hnd.1]
    · have hk2 : ¬ q = k := fun hh => hk hh.symm
      simp only [List.map_cons, mapGet, if_neg hk, List.mem_cons]
      rw [ih hnd.2]
      by_cases hmem : q ∈ rest <;> simp [hmem, hk2]

theorem prospects_keys_nodup (gen ex : List (String × Translation)) :
    (mapKeys (buildProspectiveTranslations gen ex)).Nodup := by
  rw [buildProspectiveTranslations_eq, mapKeys_map_fn]
  exact nodup_firstOccur _

theorem prospects_aligned (gen ex : List (String × Translation)) :
    ∀ kv ∈ buildProspectiveTranslations gen ex, kv.2.key = kv.1 := by
  rw [buildProspectiveTranslations_eq]
  intro kv hkv
  obtain ⟨k, -, rfl⟩ := List.mem_map.mp hkv
  rfl

theorem prospects_mapGet (gen ex : List (String × Translation)) (q : String) :
    mapGet (buildProspectiveTranslations gen ex) q =
      if (mapGet gen q).isSome ∨ (mapGet ex q).isSome then some (prospectAt gen ex q)
      else none := by
  rw [buildProspectiveTranslations_eq,
    mapGet_map_fn _ _ _ (nodup_firstOccur (mapKeys gen ++ mapKeys ex))]
  by_cases h : q ∈ firstOccur (mapKeys gen ++ mapKeys ex)
  · rw [if_pos h, if_pos ?_]
    have := (mem_firstOccur _ q).mp h
    rcases List.mem_append.mp this with hmem | hmem
    · exact Or.inl ((mapGet_isSome_iff gen q).mpr hmem)
    · exact Or.inr ((mapGet_isSome_iff ex q).mpr hmem)
  · rw [if_neg h, if_neg ?_]
    intro hc
    refine h ((mem_firstOccur _ q).mpr (List.mem_append.mpr ?_))
    rcases hc with hc | hc
    · exact Or.inl ((mapGet_isSome_iff gen q).mp hc)
    · exact Or.inr ((mapGet_isSome_iff ex q).mp hc)

/-- What one prospect contributes to the final map under the default conflict
handler: the equal-values shortcut keeps the prospect's `source`, the handler
paths rebuild the entry from scratch (existing value winning). -/
def dMergeG (k : String) (p : ProspectiveTranslation) : Option Translation :=
  match p.newValue, p.existingValue with
  | some n, some e =>
    some (if n = e then { key := k, value := n, source := p.source }
          else { key := k, value := e })
  | some n, none => some { key := k, value := n }
  | none, some e => some { key := k, value := e }
  | none, none => none

theorem mergeFinal_default_eq_fold (gen ex : List (String × Translation)) :
    mergeFinalTranslations defaultConflictHandler gen ex =
      (buildProspectiveTranslations gen ex).foldl (optSetStep dMergeG) [] := by
  rw [mergeFinalTranslations]
  refine List.foldl_ext _ _ [] ?_
  intro acc kv hkv
  have halign := prospects_aligned gen ex kv hkv
  rcases hn : kv.2.newValue with _ | n <;> rcases he : kv.2.existingValue with _ | e
  · simp [optSetStep, dMergeG, hn, he]
  · simp only [hn, he, optSetStep, dMergeG, defaultConflictHandler, halign]
  · simp only [hn, he, optSetStep, dMergeG, defaultConflictHandler, halign]
  · by_cases heq : n = e
    · simp only [hn, he, if_pos heq, optSetStep, dMergeG]
    · simp only [hn, he, if_neg heq, optSetStep, dMergeG, defaultConflictHandler, halign]

end I18n

namespace I18n

/-- Pointwise characterization of the default-handler merge: each key's final
entry is a function of that key's generated and persisted values alone. -/
theorem mergeFinal_default_mapGet (gen ex : List (String × Translation)) (q : String) :
    mapGet (mergeFinalTranslations defaultConflictHandler gen ex) q =
      dMergeG q (prospectAt gen ex q) := by
  rw [mergeFinal_default_eq_fold,
    optSetFold_mapGet dMergeG _ [] q (prospects_keys_nodup gen ex),
    prospects_mapGet]
  by_cases h : (mapGet gen q).isSome ∨ (mapGet ex q).isSome
  · rw [if_pos h]
    cases hg : dMergeG q (prospectAt gen ex q) with
    | some v => simp [hg]
    | none =>
      exfalso
      rw [dMergeG] at hg
      rcases hn : (prospectAt gen ex q).newValue with _ | n <;>
        rcases he : (prospectAt gen ex q).existingValue with _ | e <;>
          rw [hn, he] at hg
      · rcases h with h | h
        · rw [prospectAt] at hn
          rcases hx : mapGet gen q with _ | t
          · simp [hx] at h
          · simp [hx] at hn
        · rw [prospectAt] at he
          rcases hx : mapGet ex q with _ | t
          · simp [hx] at h
          · simp [hx] at he
      · exact Option.noConfusion hg
      · exact Option.noConfusion hg
      · exact Option.noConfusion hg
  · rw [if_neg h]
    push_neg at h
    have hgen : mapGet gen q = none := by
      rcases hx : mapGet gen q with _ | t
      · rfl
      · exact absurd (by simp [hx]) h.1
    have hex : mapGet ex q = none := by
      rcases hx : mapGet ex q with _ | t
      · rfl
      · exact absurd (by simp [hx]) h.2
    simp [dMergeG, prospectAt, hgen, hex, mapGet]

/-- The merged entry's value: the persisted value wins whenever present,
otherwise the generated value. -/
theorem mergeFinal_default_value (gen ex : List (String × Translation)) (q : String) :
    (mapGet (mergeFinalTranslations defaultConflictHandler gen ex) q).map Translation.value =
      ((mapGet ex q).map Translation.value).or ((mapGet gen q).map Translation.value) := by
  rw [mergeFinal_default_mapGet]
  rcases hn : mapGet gen q with _ | tn <;> rcases he : mapGet ex q with _ | te
  · simp [dMergeG, prospectAt, hn, he, Option.or]
  · simp [dMergeG, prospectAt, hn, he, Option.or]
  · simp [dMergeG, prospectAt, hn, he, Option.or]
  · by_cases heq : tn.value = te.value
    · simp [dMergeG, prospectAt, hn, he, Option.or, if_pos heq, heq]
    · simp [dMergeG, prospectAt, hn, he, Option.or, if_neg heq]

theorem mergeFinal_default_keys_nodup (gen ex : List (String × Translation)) :
    (mapKeys (mergeFinalTranslations defaultConflictHandler gen ex)).Nodup := by
  rw [mergeFinal_default_eq_fold]
  exact optSetFold_keys_nodup dMergeG _ [] (by simp [mapKeys])

theorem mergeFinal_default_keyprop (gen ex : List (String × Translation)) :
    ∀ q t, mapGet (mergeFinalTranslations defaultConflictHandler gen ex) q = some t →
      t.key = q := by
  intro q t h
  rw [mergeFinal_default_mapGet] at h
  rcases hn : (prospectAt gen ex q).newValue with _ | n <;>
    rcases he : (prospectAt gen ex q).existingValue with _ | e <;>
      simp only [dMergeG, hn, he] at h
  · exact Option.noConfusion h
  · rw [← (Option.some.injEq _ _).mp h]
  · rw [← (Option.some.injEq _ _).mp h]
  · by_cases heq : n = e
    · rw [if_pos heq] at h
      rw [← (Option.some.injEq _ _).mp h]
    · rw [if_neg heq] at h
      rw [← (Option.some.injEq _ _).mp h]

theorem mergeFinal_default_isSome (gen ex : List (String × Translation)) (q : String) :
    (mapGet (mergeFinalTranslations defaultConflictHandler gen ex) q).isSome = true ↔
      (mapGet gen q).isSome = true ∨ (mapGet ex q).isSome = true := by
  rw [mergeFinal_default_mapGet]
  rcases hn : mapGet gen q with _ | tn <;> rcases he : mapGet ex q with _ | te <;>
    simp [dMergeG, prospectAt, hn, he]

end I18n

namespace I18n

theorem mapGet_mem {α : Type} {m : List (String × α)} {q : String} {v : α}
    (h : mapGet m q = some v) : (q, v) ∈ m := by
  induction m with
  | nil => exact Option.noConfusion h
  | cons e rest ih =>
    obtain ⟨k, w⟩ := e
    by_cases hk : k = q
    · subst hk
      rw [mapGet, if_pos rfl] at h
      exact List.mem_cons.mpr (Or.inl (by rw [(Option.some.injEq _ _).mp h]))
    · rw [mapGet, if_neg hk] at h
      exact List.mem_cons.mpr (Or.inr (ih h))

theorem mapGet_perm {α : Type} {l1 l2 : List (String × α)} (p : l1.Perm l2)
    (h1 : (mapKeys l1).Nodup) (q : String) : mapGet l1 q = mapGet l2 q := by
  have h2 : (mapKeys l2).Nodup := ((p.map Prod.fst).nodup_iff).mp h1
  rcases hx : mapGet l1 q with _ | v
  · rcases hy : mapGet l2 q with _ | w
    · rfl
    · exfalso
      have hmem := p.mem_iff.mpr (mapGet_mem hy)
      rw [(mem_iff_mapGet l1 q w h1)] at hmem
      rw [hx] at hmem
      exact Option.noConfusion hmem
  · have hmem := p.mem_iff.mp (mapGet_mem hx)
    exact ((mem_iff_mapGet l2 q v h2).mp hmem).symm

/-- Two key-sorted maps with distinct keys and the same lookup function are
equal as lists. -/
theorem sorted_nodup_ext {α : Type} {l1 l2 : List (String × α)}
    (s1 : l1.Pairwise (fun a b => a.1.data ≤ b.1.data))
    (s2 : l2.Pairwise (fun a b => a.1.data ≤ b.1.data))
    (n1 : (l1.map Prod.fst).Nodup) (n2 : (l2.map Prod.fst).Nodup)
    (h : ∀ q, mapGet l1 q = mapGet l2 q) : l1 = l2 := by
  have strict : ∀ (l : List (String × α)),
      l.Pairwise (fun a b => a.1.data ≤ b.1.data) → (l.map Prod.fst).Nodup →
      l.Pairwise (fun a b : String × α => a.1.data < b.1.data) := by
    intro l hs hn
    have hne := List.pairwise_map.mp hn
    exact (hs.and hne).imp (fun hab =>
      lt_of_le_of_ne hab.1 (fun hd => hab.2 (String.ext hd)))
  have p : l1.Perm l2 := by
    rw [List.perm_ext_iff_of_nodup (n1.of_map Prod.fst) (n2.of_map Prod.fst)]
    intro a
    obtain ⟨k, v⟩ := a
    rw [mem_iff_mapGet l1 k v n1, mem_iff_mapGet l2 k v n2, h k]
  haveI : IsAntisymm (String × α) (fun a b : String × α => a.1.data < b.1.data) :=
    ⟨fun a b hab hba => absurd hba (lt_asymm hab)⟩
  exact List.eq_of_perm_of_sorted p (strict l1 s1 n1) (strict l2 s2 n2)

theorem wfJsonFields_nodup : ∀ (fs : List (String × Json)), WFJsonFields fs →
    (mapKeys fs).Nodup := by
  intro fs h
  induction fs with
  | nil => simp [mapKeys]
  | cons e rest ih =>
    obtain ⟨k, v⟩ := e
    rw [WFJsonFields] at h
    simp only [mapKeys, List.map_cons, List.nodup_cons]
    exact ⟨by simpa [mapKeys] using h.2.1, by simpa [mapKeys] using ih h.2.2.2⟩

/-! ### The serialized tree as a function of the final translations list -/

/-- The key-value pairs `mergeAndBuildTranslations` feeds to `setWith`, in
insertion order: the final translations sorted by key. -/
def kvsOfTranslations (ts : List Translation) : List (String × String) :=
  (sortByKeyTranslations ts).map fun t => (t.key, t.value)

/-- The `fileContent` tree built from a final translations list (the
`sortByKey` + `setWith` + `JSON.stringify` tail of
`mergeAndBuildTranslations`, before serialization). -/
def unflattenTranslations (ts : List Translation) : Json :=
  Json.obj (visFields (buildKV (kvsOfTranslations ts)))

theorem mergeAndBuildTranslationsTree_eq (h : I18nPluginConflictHandler)
    (gen ex : List (String × Translation)) :
    mergeAndBuildTranslationsTree h gen ex =
      unflattenTranslations ((mergeFinalTranslations h gen ex).map Prod.snd) := rfl

theorem kvsOfTranslations_sorted (ts : List Translation) :
    (kvsOfTranslations ts).Pairwise (fun a b => a.1.data ≤ b.1.data) := by
  have hs : (sortByKeyTranslations ts).Pairwise
      (fun a b : Translation => a.key.data ≤ b.key.data) := by
    have := @List.sorted_insertionSort Translation
      (fun a b : Translation => a.key.data ≤ b.key.data) (fun a b => inferInstance)
      ⟨fun a b => le_total a.key.data b.key.data⟩
      ⟨fun a b c hab hbc => le_trans hab hbc⟩ ts
    exact this
  rw [kvsOfTranslations, List.pairwise_map]
  exact hs

theorem sortByKeyTranslations_perm (ts : List Translation) :
    (sortByKeyTranslations ts).Perm ts :=
  List.perm_insertionSort _ ts

theorem kvsOfTranslations_keys_nodup {ts : List Translation}
    (h : (ts.map Translation.key).Nodup) :
    ((kvsOfTranslations ts).map Prod.fst).Nodup := by
  have hmap : (kvsOfTranslations ts).map Prod.fst =
      (sortByKeyTranslations ts).map Translation.key := by
    rw [kvsOfTranslations, List.map_map]
    rfl
  rw [hmap]
  exact (((sortByKeyTranslations_perm ts).map Translation.key).nodup_iff).mpr h

theorem aligned_keys_eq {M : List (String × Translation)}
    (halign : ∀ kv ∈ M, kv.2.key = kv.1) :
    (M.map Prod.snd).map Translation.key = mapKeys M := by
  rw [List.map_map, mapKeys]
  exact List.map_congr_left (fun kv hkv => halign kv hkv)

theorem kvsOf_mapGet {M : List (String × Translation)}
    (halign : ∀ kv ∈ M, kv.2.key = kv.1) (hnd : (mapKeys M).Nodup) (q : String) :
    mapGet (kvsOfTranslations (M.map Prod.snd)) q = (mapGet M q).map Translation.value := by
  have hts : ((M.map Prod.snd).map Translation.key).Nodup := by
    rw [aligned_keys_eq halign]
    exact hnd
  have hkn := kvsOfTranslations_keys_nodup hts
  rcases hM : mapGet M q with _ | t
  · rcases hK : mapGet (kvsOfTranslations (M.map Prod.snd)) q with _ | v
    · rfl
    · exfalso
      have hmem := mapGet_mem hK
      rw [kvsOfTranslations] at hmem
      obtain ⟨t, ht, hkv⟩ := List.mem_map.mp hmem
      have ht2 : t ∈ M.map Prod.snd := (sortByKeyTranslations_perm _).mem_iff.mp ht
      obtain ⟨kv, hkvM, rfl⟩ := List.mem_map.mp ht2
      have hk : kv.2.key = q := by
        have := congrArg Prod.fst hkv
        simpa using this
      have hkey : kv.1 = q := (halign kv hkvM).symm.trans hk
      have : q ∈ mapKeys M := hkey ▸ List.mem_map_of_mem Prod.fst hkvM
      rw [← mapGet_isSome_iff] at this
      rw [hM] at this
      exact Bool.noConfusion this
  · simp only [Option.map_some']
    rw [← mem_iff_mapGet _ _ _ hkn]
    have hmemM := mapGet_mem hM
    have halq : t.key = q := halign (q, t) hmemM
    have ht : t ∈ M.map Prod.snd := List.mem_map_of_mem Prod.snd hmemM
    have hts2 : t ∈ sortByKeyTranslations (M.map Prod.snd) :=
      (sortByKeyTranslations_perm _).mem_iff.mpr ht
    rw [kvsOfTranslations]
    refine List.mem_map.mpr ⟨t, hts2, ?_⟩
    rw [halq]

/-- The built tree depends on the final translations map only through its
key-to-value lookup function (for key-aligned, duplicate-free maps). -/
theorem unflatten_eq_of_mapGet {M1 M2 : List (String × Translation)}
    (a1 : ∀ kv ∈ M1, kv.2.key = kv.1) (a2 : ∀ kv ∈ M2, kv.2.key = kv.1)
    (n1 : (mapKeys M1).Nodup) (n2 : (mapKeys M2).Nodup)
    (h : ∀ q, (mapGet M1 q).map Translation.value = (mapGet M2 q).map Translation.value) :
    unflattenTranslations (M1.map Prod.snd) = unflattenTranslations (M2.map Prod.snd) := by
  have hk : kvsOfTranslations (M1.map Prod.snd) = kvsOfTranslations (M2.map Prod.snd) := by
    refine sorted_nodup_ext (kvsOfTranslations_sorted _) (kvsOfTranslations_sorted _)
      (kvsOfTranslations_keys_nodup (by rw [aligned_keys_eq a1]; exact n1))
      (kvsOfTranslations_keys_nodup (by rw [aligned_keys_eq a2]; exact n2)) ?_
    intro q
    rw [kvsOf_mapGet a1 n1 q, kvsOf_mapGet a2 n2 q]
    exact h q
  rw [unflattenTranslations, unflattenTranslations, hk]

end I18n

namespace I18n

theorem mapGet_none_of_pred {α : Type} {l : List (String × α)} {P : String → Bool}
    (h : ∀ e ∈ l, P e.1 = false) {q : String} (hq : P q = true) : mapGet l q = none := by
  rcases hx : mapGet l q with _ | v
  · rfl
  · have := h (q, v) (mapGet_mem hx)
    rw [hq] at this
    exact Bool.noConfusion this

theorem lookupBySeg_splitKey (l : List (String × String)) (q : String) :
    lookupBySeg l (splitKey q) = mapGet l q := by
  induction l with
  | nil => rfl
  | cons e rest ih =>
    by_cases h : e.1 = q
    · rw [lookupBySeg, if_pos (h ▸ rfl), mapGet, if_pos h]
    · have hne : splitKey e.1 ≠ splitKey q := fun hc => h (splitKey_injective hc)
      rw [lookupBySeg, if_neg hne, mapGet, if_neg h, ih]

theorem leafHit_map_value (q : String) (o : Option String) :
    (leafHit q o none).map Translation.value = o := by
  cases o <;> rfl

theorem mergeFinal_default_mem_aligned (gen ex : List (String × Translation)) :
    ∀ kv ∈ mergeFinalTranslations defaultConflictHandler gen ex, kv.2.key = kv.1 := by
  intro kv hkv
  obtain ⟨k, t⟩ := kv
  have hget := (mem_iff_mapGet _ k t (mergeFinal_default_keys_nodup gen ex)).mp hkv
  exact mergeFinal_default_keyprop gen ex k t hget

/-- Shorthand for the key-value list a default-handler merge feeds to the
`setWith` fold. -/
def mergeKVs (gen ex : List (String × Translation)) : List (String × String) :=
  kvsOfTranslations ((mergeFinalTranslations defaultConflictHandler gen ex).map Prod.snd)

theorem mergeKVs_mapGet (gen ex : List (String × Translation)) (q : String) :
    mapGet (mergeKVs gen ex) q =
      ((mapGet ex q).map Translation.value).or ((mapGet gen q).map Translation.value) := by
  rw [mergeKVs, kvsOf_mapGet (mergeFinal_default_mem_aligned gen ex)
    (mergeFinal_default_keys_nodup gen ex) q]
  exact mergeFinal_default_value gen ex q

theorem mergeKVs_sorted (gen ex : List (String × Translation)) :
    (mergeKVs gen ex).Pairwise (fun a b => a.1.data ≤ b.1.data) :=
  kvsOfTranslations_sorted _

theorem mergeKVs_keys_nodup (gen ex : List (String × Translation)) :
    ((mergeKVs gen ex).map Prod.fst).Nodup :=
  kvsOfTranslations_keys_nodup
    (by rw [aligned_keys_eq (mergeFinal_default_mem_aligned gen ex)]
        exact mergeFinal_default_keys_nodup gen ex)

theorem mergeAndBuildTranslationsTree_eq_kvs (gen ex : List (String × Translation)) :
    mergeAndBuildTranslationsTree defaultConflictHandler gen ex =
      Json.obj (visFields (buildKV (mergeKVs gen ex))) := rfl

theorem mergeKVs_mem_isSome {gen ex : List (String × Translation)}
    {e : String × String} (h : e ∈ mergeKVs gen ex) :
    (mapGet gen e.1).isSome = true ∨ (mapGet ex e.1).isSome = true := by
  obtain ⟨k, v⟩ := e
  have hget := (mem_iff_mapGet _ k v (mergeKVs_keys_nodup gen ex)).mp h
  rw [mergeKVs_mapGet] at hget
  rcases hx : mapGet ex k with _ | t
  · rcases hy : mapGet gen k with _ | t2
    · rw [hx, hy] at hget
      exact Option.noConfusion hget
    · exact Or.inl (by simp [hy])
  · exact Or.inr (by simp [hx])

theorem mergeKVs_no_dot {gen ex : List (String × Translation)}
    (hg : ∀ e ∈ gen, startsWithDot e.1 = false)
    (he : ∀ e ∈ ex, startsWithDot e.1 = false) :
    ∀ e ∈ mergeKVs gen ex, startsWithDot e.1 = false := by
  intro e hmem
  rcases hb : startsWithDot e.1 with _ | _
  · rfl
  · exfalso
    rcases mergeKVs_mem_isSome hmem with hs | hs
    · rw [mapGet_none_of_pred hg hb] at hs
      exact Bool.noConfusion hs
    · rw [mapGet_none_of_pred he hb] at hs
      exact Bool.noConfusion hs

end I18n

namespace I18n

/-- The survivor entries of a second merge run, whose existing side is the
flattening of the first run's output tree, are exactly the first run's
survivor entries (given leading-dot-free keys on both inputs). -/
theorem surv_stable (gen ex1 : List (String × Translation))
    (hg : ∀ e ∈ gen, startsWithDot e.1 = false)
    (he : ∀ e ∈ ex1, startsWithDot e.1 = false) :
    survKV (mergeKVs gen
        (gatherTranslations (some (Json.obj (visFields (buildKV (mergeKVs gen ex1))))))) =
      survKV (mergeKVs gen ex1) := by
  have hk1 : ∀ e ∈ mergeKVs gen ex1, startsWithDot e.1 = false := mergeKVs_no_dot hg he
  have hwf1 : WFJsonFields (visFields (buildKV (mergeKVs gen ex1))) :=
    wfValFields_vis _ (wfValFields_buildKV (mergeKVs gen ex1))
  have hnd1 : (mapKeys (visFields (buildKV (mergeKVs gen ex1)))).Nodup :=
    wfJsonFields_nodup _ hwf1
  have hrs : RootSafeFields (visFields (buildKV (mergeKVs gen ex1))) :=
    rootSafe_of_no_empty_obj hnd1 (buildKV_no_root_empty_obj (mergeKVs gen ex1) hk1)
  have spec1 := buildKV_spec (mergeKVs gen ex1) (mergeKVs_sorted gen ex1)
    (mergeKVs_keys_nodup gen ex1)
  have hS1nodup : ((survKV (mergeKVs gen ex1)).map Prod.fst).Nodup :=
    survKV_keys_nodup (mergeKVs_keys_nodup gen ex1)
  have vEx2 : ∀ q,
      (mapGet (gatherTranslations
          (some (Json.obj (visFields (buildKV (mergeKVs gen ex1)))))) q).map
        Translation.value = mapGet (survKV (mergeKVs gen ex1)) q := by
    intro q
    rw [gatherTranslations_mapGet _ hwf1 hrs q, leafHit_map_value, spec1.2 (splitKey q),
      lookupBySeg_splitKey]
  set ex2 := gatherTranslations (some (Json.obj (visFields (buildKV (mergeKVs gen ex1)))))
    with hex2def
  have hS2nodup : ((survKV (mergeKVs gen ex2)).map Prod.fst).Nodup :=
    survKV_keys_nodup (mergeKVs_keys_nodup gen ex2)
  have star : ∀ q, mapGet (mergeKVs gen ex2) q =
      (mapGet (survKV (mergeKVs gen ex1)) q).or ((mapGet gen q).map Translation.value) := by
    intro q
    rw [mergeKVs_mapGet, vEx2]
  have genSome : ∀ q, ((mapGet gen q).map Translation.value).isSome = true →
      (mapGet (mergeKVs gen ex1) q).isSome = true := by
    intro q h
    rw [mergeKVs_mapGet]
    cases hx : (mapGet ex1 q).map Translation.value <;>
      cases hgv : (mapGet gen q).map Translation.value <;> simp_all [Option.or]
  have anc1_of_key : ∀ p q, p ∈ mapKeys (mergeKVs gen ex1) → strictSegPre p q = true →
      (mergeKVs gen ex1).any (fun r => strictSegPre r.1 q) = true := by
    intro p q hp hs
    obtain ⟨e, hemem, hefst⟩ := List.mem_map.mp hp
    exact List.any_eq_true.mpr ⟨e, hemem, by rw [hefst]; exact hs⟩
  have dirB : ∀ q v, mapGet (survKV (mergeKVs gen ex1)) q = some v →
      mapGet (survKV (mergeKVs gen ex2)) q = some v := by
    intro q v h1
    obtain ⟨hmemKvs1, hno1⟩ := mem_survKV.mp (mapGet_mem h1)
    have hkvs2 : mapGet (mergeKVs gen ex2) q = some v := by rw [star q, h1]; rfl
    have hmem2 : (q, v) ∈ mergeKVs gen ex2 := mapGet_mem hkvs2
    have hno2 : (mergeKVs gen ex2).any (fun p => strictSegPre p.1 q) = false := by
      rcases hb : (mergeKVs gen ex2).any (fun p => strictSegPre p.1 q) with _ | _
      · rfl
      · exfalso
        obtain ⟨p, hp, hps⟩ := List.any_eq_true.mp hb
        have hpk : (mapGet (mergeKVs gen ex2) p.1).isSome = true := by
          rw [mapGet_isSome_iff]
          exact List.mem_map_of_mem Prod.fst hp
        rw [star p.1] at hpk
        have hp1mem : p.1 ∈ mapKeys (mergeKVs gen ex1) := by
          rcases hS : mapGet (survKV (mergeKVs gen ex1)) p.1 with _ | w2
          · rw [hS] at hpk
            have hgen : ((mapGet gen p.1).map Translation.value).isSome = true := by
              simpa [Option.or] using hpk
            exact (mapGet_isSome_iff _ _).mp (genSome p.1 hgen)
          · have := (survKV_sublist (mergeKVs gen ex1)).subset (mapGet_mem hS)
            exact List.mem_map.mpr ⟨(p.1, w2), this, rfl⟩
        have := anc1_of_key p.1 q hp1mem hps
        rw [hno1] at this
        exact Bool.noConfusion this
    exact (mem_iff_mapGet _ _ _ hS2nodup).mp (mem_survKV.mpr ⟨hmem2, hno2⟩)
  have dirA : ∀ q v, mapGet (survKV (mergeKVs gen ex2)) q = some v →
      mapGet (survKV (mergeKVs gen ex1)) q = some v := by
    intro q v h2
    obtain ⟨hmemKvs2, hno2⟩ := mem_survKV.mp (mapGet_mem h2)
    have hkvs2get : mapGet (mergeKVs gen ex2) q = some v :=
      (mem_iff_mapGet _ _ _ (mergeKVs_keys_nodup gen ex2)).mp hmemKvs2
    rw [star q] at hkvs2get
    rcases hS : mapGet (survKV (mergeKVs gen ex1)) q with _ | w
    · exfalso
      rw [hS] at hkvs2get
      have hgv : (mapGet gen q).map Translation.value = some v := by
        simpa [Option.or] using hkvs2get
      have hkvs1some : (mapGet (mergeKVs gen ex1) q).isSome = true :=
        genSome q (by rw [hgv]; rfl)
      obtain ⟨v1, hv1⟩ := Option.isSome_iff_exists.mp hkvs1some
      have hmem1 : (q, v1) ∈ mergeKVs gen ex1 := mapGet_mem hv1
      have hanc : (mergeKVs gen ex1).any (fun p => strictSegPre p.1 q) = true := by
        rcases hb : (mergeKVs gen ex1).any (fun p => strictSegPre p.1 q) with _ | _
        · exfalso
          have hmemS : (q, v1) ∈ survKV (mergeKVs gen ex1) := mem_survKV.mpr ⟨hmem1, hb⟩
          have := (mem_iff_mapGet _ _ _ hS1nodup).mp hmemS
          rw [hS] at this
          exact Option.noConfusion this
        · rfl
      obtain ⟨a, haS1, hapre⟩ := surv_ancestor (mergeKVs gen ex1) (q, v1) hmem1
      have haget : mapGet (survKV (mergeKVs gen ex1)) a.1 = some a.2 :=
        (mem_iff_mapGet _ _ _ hS1nodup).mp haS1
      have hane : a.1 ≠ q := by
        intro heq
        rw [heq, hS] at haget
        exact Option.noConfusion haget
      have haKvs2 : mapGet (mergeKVs gen ex2) a.1 = some a.2 := by rw [star, haget]; rfl
      have hstrict : strictSegPre a.1 q = true :=
        (strictSegPre_iff _ _).mpr ⟨hapre, fun hc => hane (splitKey_injective hc)⟩
      have : (mergeKVs gen ex2).any (fun p => strictSegPre p.1 q) = true :=
        List.any_eq_true.mpr ⟨a, mapGet_mem haKvs2, hstrict⟩
      rw [hno2] at this
      exact Bool.noConfusion this
    · rw [hS] at hkvs2get
      have : w = v := by simpa [Option.or] using hkvs2get
      rw [this]
  refine sorted_nodup_ext
    ((mergeKVs_sorted gen ex2).sublist (survKV_sublist _))
    ((mergeKVs_sorted gen ex1).sublist (survKV_sublist _))
    hS2nodup hS1nodup ?_
  intro q
  rcases h2 : mapGet (survKV (mergeKVs gen ex2)) q with _ | v
  · rcases h1 : mapGet (survKV (mergeKVs gen ex1)) q with _ | w
    · rfl
    · rw [dirB q w h1] at h2
      exact Option.noConfusion h2
  · exact (dirA q v h2).symm

end I18n

namespace I18n

/-- Idempotence of the default-handler merge: feeding a run's output tree
back in as the persisted content reproduces the same serialized output,
provided no key on either side begins with a dot. -/
theorem merge_idempotent_core (gen ex1 : List (String × Translation))
    (hg : ∀ e ∈ gen, startsWithDot e.1 = false)
    (he : ∀ e ∈ ex1, startsWithDot e.1 = false) :
    mergeAndBuildTranslations defaultConflictHandler gen
        (gatherTranslations (some (mergeAndBuildTranslationsTree defaultConflictHandler gen ex1))) =
      mergeAndBuildTranslations defaultConflictHandler gen ex1 := by
  rw [mergeAndBuildTranslations, mergeAndBuildTranslations]
  have htree : mergeAndBuildTranslationsTree defaultConflictHandler gen
      (gatherTranslations (some (mergeAndBuildTranslationsTree defaultConflictHandler gen ex1))) =
      mergeAndBuildTranslationsTree defaultConflictHandler gen ex1 := by
    rw [mergeAndBuildTranslationsTree_eq_kvs gen ex1,
      mergeAndBuildTranslationsTree_eq_kvs gen _]
    have spec1 := buildKV_spec (mergeKVs gen ex1) (mergeKVs_sorted gen ex1)
      (mergeKVs_keys_nodup gen ex1)
    have spec2 := buildKV_spec
      (mergeKVs gen (gatherTranslations (some (Json.obj (visFields (buildKV (mergeKVs gen ex1)))))))
      (mergeKVs_sorted gen _) (mergeKVs_keys_nodup gen _)
    rw [spec2.1, surv_stable gen ex1 hg he, ← spec1.1]
  rw [htree]

end I18n

namespace I18n

theorem splitKey_joinSegs (segs : List String) (hne : segs ≠ [])
    (hdot : ∀ seg ∈ segs, '.' ∉ seg.data) : splitKey (joinSegs segs) = segs := by
  have hmapne : segs.map String.data ≠ [] := by
    cases segs with
    | nil => exact absurd rfl hne
    | cons a r => simp
  have hmapdot : ∀ g ∈ segs.map String.data, '.' ∉ g := by
    intro g hg
    obtain ⟨seg, hseg, rfl⟩ := List.mem_map.mp hg
    exact hdot seg hseg
  rw [splitKey, joinSegs]
  rw [show (String.mk (joinCharsDot (segs.map String.data))).data =
      joinCharsDot (segs.map String.data) from rfl]
  rw [splitCharsOnDot_joinCharsDot _ hmapne hmapdot, List.map_map]
  have : (String.mk ∘ String.data) = id := by
    funext s
    rfl
  rw [this, List.map_id]

theorem jsonLeafLookup_cons_of_mapGet {fs : List (String × Json)} {k : String} {v : Json}
    (h : mapGet fs k = some v) (tail : List String) :
    jsonLeafLookup fs (k :: tail) = valLeafAt v tail := by
  induction fs with
  | nil => exact Option.noConfusion h
  | cons e rest ih =>
    obtain ⟨k0, v0⟩ := e
    by_cases hk : k0 = k
    · subst hk
      rw [mapGet, if_pos rfl] at h
      rw [(Option.some.injEq _ _).mp h] at *
      exact jsonLeafLookup_cons_self k0 v rest tail
    · rw [mapGet, if_neg hk] at h
      rw [jsonLeafLookup_cons_ne k0 v0 rest k tail hk]
      exact ih h

theorem wfJson_mapGet {fs : List (String × Json)} {k : String} {v : Json}
    (hwf : WFJsonFields fs) (h : mapGet fs k = some v) : WFJson v := by
  induction fs with
  | nil => exact Option.noConfusion h
  | cons e rest ih =>
    obtain ⟨k0, v0⟩ := e
    rw [WFJsonFields] at hwf
    by_cases hk : k0 = k
    · rw [mapGet, if_pos hk] at h
      rw [← (Option.some.injEq _ _).mp h]
      exact hwf.2.2.1
    · rw [mapGet, if_neg hk] at h
      exact ih hwf.2.2.2 h

mutual

/-- A runtime value with no empty object anywhere beneath it. -/
def CleanVal : JsVal → Prop
  | .str _ => True
  | .obj fs => fs ≠ [] ∧ CleanValFields fs
  | .strObj _ fs => CleanValFields fs

/-- Fields whose values are all clean. -/
def CleanValFields : List (String × JsVal) → Prop
  | [] => True
  | (_, v) :: rest => CleanVal v ∧ CleanValFields rest

end

mutual

/-- A JSON tree with no empty object anywhere beneath it. -/
def CleanJson : Json → Prop
  | .str _ => True
  | .obj fs => fs ≠ [] ∧ CleanJsonFields fs

/-- JSON fields whose values are all clean. -/
def CleanJsonFields : List (String × Json) → Prop
  | [] => True
  | (_, v) :: rest => CleanJson v ∧ CleanJsonFields rest

end

theorem cleanVal_mapGet {fs : List (String × JsVal)} {k : String} {v : JsVal}
    (hc : CleanValFields fs) (h : mapGet fs k = some v) : CleanVal v := by
  induction fs with
  | nil => exact Option.noConfusion h
  | cons e rest ih =>
    obtain ⟨k0, v0⟩ := e
    rw [CleanValFields] at hc
    by_cases hk : k0 = k
    · rw [mapGet, if_pos hk] at h
      rw [← (Option.some.injEq _ _).mp h]
      exact hc.1
    · rw [mapGet, if_neg hk] at h
      exact ih hc.2 h

theorem cleanJson_mapGet {fs : List (String × Json)} {k : String} {v : Json}
    (hc : CleanJsonFields fs) (h : mapGet fs k = some v) : CleanJson v := by
  induction fs with
  | nil => exact Option.noConfusion h
  | cons e rest ih =>
    obtain ⟨k0, v0⟩ := e
    rw [CleanJsonFields] at hc
    by_cases hk : k0 = k
    · rw [mapGet, if_pos hk] at h
      rw [← (Option.some.injEq _ _).mp h]
      exact hc.1
    · rw [mapGet, if_neg hk] at h
      exact ih hc.2 h

theorem cleanValFields_mapSet {fs : List (String × JsVal)} {k : String} {v : JsVal}
    (hc : CleanValFields fs) (hv : CleanVal v) : CleanValFields (mapSet fs k v) := by
  induction fs with
  | nil => exact ⟨hv, trivial⟩
  | cons e rest ih =>
    obtain ⟨k0, v0⟩ := e
    rw [CleanValFields] at hc
    by_cases hk : k0 = k
    · rw [mapSet, if_pos hk]
      exact ⟨hv, hc.2⟩
    · rw [mapSet, if_neg hk]
      exact ⟨hc.1, ih hc.2⟩

theorem mapSet_ne_nil {α : Type} (fs : List (String × α)) (k : String) (v : α) :
    mapSet fs k v ≠ [] := by
  cases fs with
  | nil => simp [mapSet]
  | cons e rest =>
    obtain ⟨k0, v0⟩ := e
    rw [mapSet]
    by_cases hk : k0 = k <;> simp [hk]

theorem cleanValFields_setWith : ∀ (segs : List String), segs ≠ [] →
    ∀ (fs : List (String × JsVal)) (v : String), CleanValFields fs →
    CleanValFields (setWithObject fs segs v) := by
  intro segs
  induction segs with
  | nil => intro h; exact absurd rfl h
  | cons k rest ih =>
    intro _ fs v hc
    cases rest with
    | nil =>
      rw [show setWithObject fs [k] v = mapSet fs k (.str v) from rfl]
      exact cleanValFields_mapSet hc trivial
    | cons k2 rrest =>
      have hrec : ∀ g, CleanValFields g →
          CleanValFields (setWithObject g (k2 :: rrest) v) ∧
            setWithObject g (k2 :: rrest) v ≠ [] := by
        intro g hg
        refine ⟨ih (by simp) g v hg, ?_⟩
        cases rrest with
        | nil => exact mapSet_ne_nil g k2 (.str v)
        | cons k3 r3 =>
          rw [setWithObject]
          rcases mapGet g k2 with _ | a
          · exact mapSet_ne_nil _ _ _
          · cases a <;> exact mapSet_ne_nil _ _ _
      rcases hF : mapGet fs k with _ | a
      · rw [show setWithObject fs (k :: k2 :: rrest) v =
            mapSet fs k (.obj (setWithObject [] (k2 :: rrest) v))
          from by simp only [setWithObject, hF]]
        obtain ⟨hcln, hne⟩ := hrec [] trivial
        exact cleanValFields_mapSet hc ⟨hne, hcln⟩
      · cases a with
        | str s =>
          rw [show setWithObject fs (k :: k2 :: rrest) v =
              mapSet fs k (.strObj s (setWithObject [] (k2 :: rrest) v))
            from by simp only [setWithObject, hF]]
          obtain ⟨hcln, -⟩ := hrec [] trivial
          exact cleanValFields_mapSet hc hcln
        | obj g =>
          rw [show setWithObject fs (k :: k2 :: rrest) v =
              mapSet fs k (.obj (setWithObject g (k2 :: rrest) v))
            from by simp only [setWithObject, hF]]
          have hg := cleanVal_mapGet hc hF
          rw [CleanVal] at hg
          obtain ⟨hcln, hne⟩ := hrec g hg.2
          exact cleanValFields_mapSet hc ⟨hne, hcln⟩
        | strObj s g =>
          rw [show setWithObject fs (k :: k2 :: rrest) v =
              mapSet fs k (.strObj s (setWithObject g (k2 :: rrest) v))
            from by simp only [setWithObject, hF]]
          have hg := cleanVal_mapGet hc hF
          rw [CleanVal] at hg
          obtain ⟨hcln, -⟩ := hrec g hg
          exact cleanValFields_mapSet hc hcln

theorem cleanValFields_buildKV (l : List (String × String)) :
    CleanValFields (buildKV l) := by
  induction l using List.reverseRecOn with
  | nil => trivial
  | append_singleton P t ih =>
    rw [buildKV_append]
    exact cleanValFields_setWith (splitKey t.1) (splitKey_ne_nil t.1) (buildKV P) t.2 ih

theorem visFields_ne_nil {fs : List (String × JsVal)} (h : fs ≠ []) : visFields fs ≠ [] := by
  cases fs with
  | nil => exact absurd rfl h
  | cons e rest =>
    obtain ⟨k, v⟩ := e
    rw [show visFields ((k, v) :: rest) = (k, visVal v) :: visFields rest from by rw [visFields]]
    simp

mutual

theorem cleanJson_vis (v : JsVal) : CleanVal v → CleanJson (visVal v) := by
  intro h
  cases v with
  | str s =>
    rw [show visVal (.str s) = .str s from by rw [visVal]]
    trivial
  | strObj s fs =>
    rw [show visVal (.strObj s fs) = .str s from by rw [visVal]]
    trivial
  | obj fs =>
    rw [show visVal (.obj fs) = .obj (visFields fs) from by rw [visVal]]
    rw [CleanVal] at h
    exact ⟨visFields_ne_nil h.1, cleanJsonFields_vis fs h.2⟩

theorem cleanJsonFields_vis (fs : List (String × JsVal)) :
    CleanValFields fs → CleanJsonFields (visFields fs) := by
  intro h
  cases fs with
  | nil => trivial
  | cons e rest =>
    obtain ⟨k, v⟩ := e
    rw [CleanValFields] at h
    rw [show visFields ((k, v) :: rest) = (k, visVal v) :: visFields rest from by rw [visFields]]
    exact ⟨cleanJson_vis v h.1, cleanJsonFields_vis rest h.2⟩

end

end I18n

namespace I18n

mutual

/-- Node count of a JSON tree. -/
def jsonSize : Json → Nat
  | .str _ => 1
  | .obj fs => 1 + jsonSizeFields fs

/-- Node count of JSON object fields. -/
def jsonSizeFields : List (String × Json) → Nat
  | [] => 0
  | (_, v) :: rest => jsonSize v + jsonSizeFields rest

end

theorem jsonSize_pos (v : Json) : 1 ≤ jsonSize v := by
  cases v with
  | str s =>
    rw [show jsonSize (.str s) = 1 from by rw [jsonSize]]
  | obj fs =>
    rw [show jsonSize (.obj fs) = 1 + jsonSizeFields fs from by rw [jsonSize]]
    omega

theorem jsonSizeFields_cons (k : String) (v : Json) (rest : List (String × Json)) :
    jsonSizeFields ((k, v) :: rest) = jsonSize v + jsonSizeFields rest := by
  rw [jsonSizeFields]

theorem jsonSize_mem {fs : List (String × Json)} {k : String} {v : Json}
    (h : (k, v) ∈ fs) : jsonSize v ≤ jsonSizeFields fs := by
  induction fs with
  | nil => simp at h
  | cons e rest ih =>
    obtain ⟨k0, v0⟩ := e
    rw [jsonSizeFields_cons]
    rcases List.mem_cons.mp h with heq | hmem
    · obtain ⟨-, rfl⟩ := Prod.mk.injEq .. ▸ heq
      injection heq with h1 h2
      omega
    · have := ih hmem
      omega

theorem cleanJson_leaf_exists_aux (n : Nat) : ∀ (v : Json), jsonSize v ≤ n →
    CleanJson v → ∃ segs s, valLeafAt v segs = some s := by
  induction n with
  | zero =>
    intro v hsize _
    exact absurd (le_trans (jsonSize_pos v) hsize) (by omega)
  | succ n ih =>
    intro v hsize hc
    cases v with
    | str s => exact ⟨[], s, rfl⟩
    | obj fs =>
      rw [CleanJson] at hc
      obtain ⟨hne, hcf⟩ := hc
      cases fs with
      | nil => exact absurd rfl hne
      | cons e rest =>
        obtain ⟨k, v'⟩ := e
        rw [CleanJsonFields] at hcf
        have hsize' : jsonSize v' ≤ n := by
          rw [show jsonSize (.obj ((k, v') :: rest)) =
              1 + jsonSizeFields ((k, v') :: rest) from by rw [jsonSize],
            jsonSizeFields_cons] at hsize
          omega
        cases v' with
        | str t =>
          refine ⟨[k], t, ?_⟩
          rw [show valLeafAt (.obj ((k, Json.str t) :: rest)) [k] =
              jsonLeafLookup ((k, Json.str t) :: rest) [k] from rfl]
          rw [jsonLeafLookup_cons_self]
          rfl
        | obj g =>
          obtain ⟨segs', s, hs⟩ := ih (.obj g) hsize' hcf.1
          cases segs' with
          | nil => exact Option.noConfusion hs
          | cons r rs =>
            refine ⟨k :: r :: rs, s, ?_⟩
            rw [show valLeafAt (.obj ((k, Json.obj g) :: rest)) (k :: r :: rs) =
                jsonLeafLookup ((k, Json.obj g) :: rest) (k :: r :: rs) from rfl]
            rw [jsonLeafLookup_cons_self]
            exact hs

theorem cleanJson_leaf_exists (v : Json) (hc : CleanJson v) :
    ∃ segs s, valLeafAt v segs = some s :=
  cleanJson_leaf_exists_aux (jsonSize v) v le_rfl hc

theorem canonFields_mapGet (fs : List (String × Json)) (q : String) :
    mapGet (canonFields fs) q = (mapGet fs q).map canonJson := by
  induction fs with
  | nil => rfl
  | cons e rest ih =>
    obtain ⟨k, v⟩ := e
    rw [show canonFields ((k, v) :: rest) = (k, canonJson v) :: canonFields rest
      from by rw [canonFields]]
    by_cases hk : k = q
    · rw [mapGet, if_pos hk, mapGet, if_pos hk]
      rfl
    · rw [mapGet, if_neg hk, mapGet, if_neg hk, ih]

theorem mapKeys_canonFields (fs : List (String × Json)) :
    mapKeys (canonFields fs) = mapKeys fs := by
  induction fs with
  | nil => rfl
  | cons e rest ih =>
    obtain ⟨k, v⟩ := e
    rw [show canonFields ((k, v) :: rest) = (k, canonJson v) :: canonFields rest
      from by rw [canonFields]]
    simp only [mapKeys, List.map_cons] at ih ⊢
    rw [ih]

end I18n

namespace I18n

theorem canonFields_sort_sorted (fs : List (String × Json)) :
    (List.insertionSort (fun a b : String × Json => a.1.data ≤ b.1.data) fs).Pairwise
      (fun a b : String × Json => a.1.data ≤ b.1.data) :=
  @List.sorted_insertionSort (String × Json) (fun a b => a.1.data ≤ b.1.data)
    (fun a b => inferInstance) ⟨fun a b => le_total a.1.data b.1.data⟩
    ⟨fun a b c hab hbc => le_trans hab hbc⟩ fs

theorem canonFields_sort_keys_nodup {fs : List (String × Json)}
    (h : (mapKeys fs).Nodup) :
    ((List.insertionSort (fun a b : String × Json => a.1.data ≤ b.1.data)
        (canonFields fs)).map Prod.fst).Nodup := by
  refine ((List.perm_insertionSort _ (canonFields fs)).map Prod.fst).nodup_iff.mpr ?_
  rw [show (canonFields fs).map Prod.fst = mapKeys (canonFields fs) from rfl,
    mapKeys_canonFields]
  exact h

theorem canonFields_sort_mapGet (fs : List (String × Json)) (q : String)
    (h : (mapKeys fs).Nodup) :
    mapGet (List.insertionSort (fun a b : String × Json => a.1.data ≤ b.1.data)
        (canonFields fs)) q = (mapGet fs q).map canonJson := by
  have hnody : (mapKeys (List.insertionSort (fun a b : String × Json => a.1.data ≤ b.1.data)
      (canonFields fs))).Nodup := by
    have hcf : (mapKeys (canonFields fs)).Nodup := by
      rw [mapKeys_canonFields]
      exact h
    exact ((List.perm_insertionSort _ (canonFields fs)).map Prod.fst).nodup_iff.mpr hcf
  rw [mapGet_perm (List.perm_insertionSort _ (canonFields fs)) hnody q]
  exact canonFields_mapGet fs q

theorem canonSort_ext_aux (n : Nat) : ∀ (fs1 fs2 : List (String × Json)),
    jsonSizeFields fs1 ≤ n → WFJsonFields fs1 → WFJsonFields fs2 →
    CleanJsonFields fs1 → CleanJsonFields fs2 →
    (∀ segs, jsonLeafLookup fs1 segs = jsonLeafLookup fs2 segs) →
    List.insertionSort (fun a b : String × Json => a.1.data ≤ b.1.data) (canonFields fs1) =
      List.insertionSort (fun a b : String × Json => a.1.data ≤ b.1.data) (canonFields fs2) := by
  induction n with
  | zero =>
    intro fs1 fs2 hsize _ _ _ hc2 h
    have hfs1 : fs1 = [] := by
      cases fs1 with
      | nil => rfl
      | cons e rest =>
        obtain ⟨k, v⟩ := e
        rw [jsonSizeFields_cons] at hsize
        have := jsonSize_pos v
        omega
    subst hfs1
    have hfs2 : fs2 = [] := by
      cases fs2 with
      | nil => rfl
      | cons e rest =>
        obtain ⟨k, v⟩ := e
        rw [CleanJsonFields] at hc2
        obtain ⟨segs, s, hs⟩ := cleanJson_leaf_exists v hc2.1
        have hlook : jsonLeafLookup ((k, v) :: rest) (k :: segs) = some s := by
          rw [jsonLeafLookup_cons_of_mapGet (show mapGet ((k, v) :: rest) k = some v
            from by simp [mapGet])]
          exact hs
        have hnone : jsonLeafLookup ([] : List (String × Json)) (k :: segs) = none :=
          jsonLeafLookup_head_none (show mapGet ([] : List (String × Json)) k = none
            from rfl) segs
        rw [← h (k :: segs), hnone] at hlook
        exact Option.noConfusion hlook
    rw [hfs2]
  | succ n ih =>
    intro fs1 fs2 hsize hwf1 hwf2 hc1 hc2 h
    have hnd1 := wfJsonFields_nodup fs1 hwf1
    have hnd2 := wfJsonFields_nodup fs2 hwf2
    refine sorted_nodup_ext (canonFields_sort_sorted _) (canonFields_sort_sorted _)
      (canonFields_sort_keys_nodup hnd1) (canonFields_sort_keys_nodup hnd2) ?_
    intro q
    rw [canonFields_sort_mapGet fs1 q hnd1, canonFields_sort_mapGet fs2 q hnd2]
    rcases m1 : mapGet fs1 q with _ | v1 <;> rcases m2 : mapGet fs2 q with _ | v2
    · rfl
    · exfalso
      obtain ⟨segs, s, hs⟩ := cleanJson_leaf_exists v2 (cleanJson_mapGet hc2 m2)
      have hlook : jsonLeafLookup fs2 (q :: segs) = some s := by
        rw [jsonLeafLookup_cons_of_mapGet m2]
        exact hs
      rw [← h (q :: segs), jsonLeafLookup_head_none m1 segs] at hlook
      exact Option.noConfusion hlook
    · exfalso
      obtain ⟨segs, s, hs⟩ := cleanJson_leaf_exists v1 (cleanJson_mapGet hc1 m1)
      have hlook : jsonLeafLookup fs1 (q :: segs) = some s := by
        rw [jsonLeafLookup_cons_of_mapGet m1]
        exact hs
      rw [h (q :: segs), jsonLeafLookup_head_none m2 segs] at hlook
      exact Option.noConfusion hlook
    · simp only [Option.map_some']
      have hAll : ∀ tail, valLeafAt v1 tail = valLeafAt v2 tail := by
        intro tail
        rw [← jsonLeafLookup_cons_of_mapGet m1 tail, ← jsonLeafLookup_cons_of_mapGet m2 tail]
        exact h (q :: tail)
      have goal : canonJson v1 = canonJson v2 := by
        cases v1 with
        | str s1 =>
          cases v2 with
          | str s2 =>
            have := hAll []
            rw [show valLeafAt (.str s1) [] = some s1 from rfl,
              show valLeafAt (.str s2) [] = some s2 from rfl] at this
            rw [(Option.some.injEq _ _).mp this]
          | obj g2 =>
            exfalso
            have hcv2 := cleanJson_mapGet hc2 m2
            obtain ⟨segs, s, hs⟩ := cleanJson_leaf_exists _ hcv2
            cases segs with
            | nil => exact Option.noConfusion hs
            | cons r rs =>
              have := hAll (r :: rs)
              rw [hs, show valLeafAt (.str s1) (r :: rs) = none from rfl] at this
              exact Option.noConfusion this
        | obj g1 =>
          cases v2 with
          | str s2 =>
            exfalso
            have hcv1 := cleanJson_mapGet hc1 m1
            obtain ⟨segs, s, hs⟩ := cleanJson_leaf_exists _ hcv1
            cases segs with
            | nil => exact Option.noConfusion hs
            | cons r rs =>
              have := hAll (r :: rs)
              rw [hs, show valLeafAt (.str s2) (r :: rs) = none from rfl] at this
              exact Option.noConfusion this
          | obj g2 =>
            have hsize' : jsonSizeFields g1 ≤ n := by
              have hm := jsonSize_mem (mapGet_mem m1)
              rw [show jsonSize (.obj g1) = 1 + jsonSizeFields g1 from by rw [jsonSize]] at hm
              omega
            have hwg1 : WFJsonFields g1 := by
              have := wfJson_mapGet hwf1 m1
              rwa [WFJson] at this
            have hwg2 : WFJsonFields g2 := by
              have := wfJson_mapGet hwf2 m2
              rwa [WFJson] at this
            have hcg1 : CleanJsonFields g1 := by
              have := cleanJson_mapGet hc1 m1
              rw [CleanJson] at this
              exact this.2
            have hcg2 : CleanJsonFields g2 := by
              have := cleanJson_mapGet hc2 m2
              rw [CleanJson] at this
              exact this.2
            have hleaf : ∀ segs, jsonLeafLookup g1 segs = jsonLeafLookup g2 segs := by
              intro segs
              cases segs with
              | nil => rfl
              | cons r rs =>
                have := hAll (r :: rs)
                rwa [show valLeafAt (.obj g1) (r :: rs) = jsonLeafLookup g1 (r :: rs) from rfl,
                  show valLeafAt (.obj g2) (r :: rs) = jsonLeafLookup g2 (r :: rs) from rfl]
                  at this
            rw [show canonJson (.obj g1) =
                .obj (List.insertionSort (fun a b : String × Json => a.1.data ≤ b.1.data)
                  (canonFields g1)) from by rw [canonJson],
              show canonJson (.obj g2) =
                .obj (List.insertionSort (fun a b : String × Json => a.1.data ≤ b.1.data)
                  (canonFields g2)) from by rw [canonJson]]
            rw [ih g1 g2 hsize' hwg1 hwg2 hcg1 hcg2 hleaf]
      rw [goal]

/-- Two well-formed, clean JSON object trees with the same leaf function have
the same canonical form. -/
theorem canonJson_ext {fs1 fs2 : List (String × Json)}
    (hwf1 : WFJsonFields fs1) (hwf2 : WFJsonFields fs2)
    (hc1 : CleanJsonFields fs1) (hc2 : CleanJsonFields fs2)
    (h : ∀ segs, jsonLeafLookup fs1 segs = jsonLeafLookup fs2 segs) :
    canonJson (.obj fs1) = canonJson (.obj fs2) := by
  rw [show canonJson (.obj fs1) =
      .obj (List.insertionSort (fun a b : String × Json => a.1.data ≤ b.1.data)
        (canonFields fs1)) from by rw [canonJson],
    show canonJson (.obj fs2) =
      .obj (List.insertionSort (fun a b : String × Json => a.1.data ≤ b.1.data)
        (canonFields fs2)) from by rw [canonJson]]
  rw [canonSort_ext_aux (jsonSizeFields fs1) fs1 fs2 le_rfl hwf1 hwf2 hc1 hc2 h]

end I18n

namespace I18n

theorem mem_mapSet {α : Type} {m : List (String × α)} {k : String} {v : α} {e : String × α}
    (h : e ∈ mapSet m k v) : e ∈ m ∨ e = (k, v) := by
  induction m with
  | nil =>
    rw [show mapSet ([] : List (String × α)) k v = [(k, v)] from rfl] at h
    exact Or.inr (by simpa using h)
  | cons e0 rest ih =>
    obtain ⟨k0, v0⟩ := e0
    by_cases hk : k0 = k
    · rw [mapSet, if_pos hk] at h
      rcases List.mem_cons.mp h with heq | hmem
      · exact Or.inr heq
      · exact Or.inl (List.mem_cons_of_mem _ hmem)
    · rw [mapSet, if_neg hk] at h
      rcases List.mem_cons.mp h with heq | hmem
      · exact Or.inl (heq ▸ List.mem_cons_self _ _)
      · rcases ih hmem with h1 | h2
        · exact Or.inl (List.mem_cons_of_mem _ h1)
        · exact Or.inr h2

mutual

theorem gatherVal_aligned (d : Json) : ∀ (acc : List (String × Translation)) (path : String),
    (∀ kv ∈ acc, kv.2.key = kv.1) → ∀ kv ∈ gatherVal acc d path, kv.2.key = kv.1 := by
  intro acc path hacc
  cases d with
  | str s =>
    rw [show gatherVal acc (Json.str s) path = mapSet acc path { key := path, value := s }
      from by rw [gatherVal]]
    intro kv hkv
    rcases mem_mapSet hkv with hmem | heq
    · exact hacc kv hmem
    · rw [heq]
  | obj fs =>
    rw [show gatherVal acc (Json.obj fs) path = gatherFieldsAux acc fs path
      from by rw [gatherVal]]
    exact gatherFields_aligned fs acc path hacc

theorem gatherFields_aligned (fs : List (String × Json)) :
    ∀ (acc : List (String × Translation)) (path : String),
    (∀ kv ∈ acc, kv.2.key = kv.1) → ∀ kv ∈ gatherFieldsAux acc fs path, kv.2.key = kv.1 := by
  intro acc path hacc
  cases fs with
  | nil =>
    rw [show gatherFieldsAux acc [] path = acc from by rw [gatherFieldsAux]]
    exact hacc
  | cons e rest =>
    obtain ⟨k, v⟩ := e
    rw [show gatherFieldsAux acc ((k, v) :: rest) path =
        gatherFieldsAux (gatherVal acc v (joinPath path k)) rest path
      from by rw [gatherFieldsAux]]
    exact gatherFields_aligned rest _ path (gatherVal_aligned v acc (joinPath path k) hacc)

end

theorem gatherTranslations_aligned (o : Option Json) :
    ∀ kv ∈ gatherTranslations o, kv.2.key = kv.1 := by
  cases o with
  | none => simp [gatherTranslations]
  | some d =>
    rw [show gatherTranslations (some d) = gatherVal [] d "" from by rw [gatherTranslations]]
    exact gatherVal_aligned d [] "" (by simp)

theorem leaf_blocks_deeper : ∀ (segs : List String) (fs : List (String × Json)) (s : String),
    jsonLeafLookup fs segs = some s → ∀ (e1 : String) (ext : List String),
    jsonLeafLookup fs (segs ++ e1 :: ext) = none := by
  intro segs
  induction segs with
  | nil =>
    intro fs s h
    rw [jsonLeafLookup_nil] at h
    exact Option.noConfusion h
  | cons k rest ih =>
    intro fs s h e1 ext
    cases rest with
    | nil =>
      rcases hm : mapGet fs k with _ | v
      · rw [jsonLeafLookup_single, hm] at h
        exact Option.noConfusion h
      · cases v with
        | str t =>
          rw [show ([k] : List String) ++ e1 :: ext = k :: e1 :: ext from rfl,
            jsonLeafLookup_cons_cons, hm]
        | obj g =>
          rw [jsonLeafLookup_single, hm] at h
          exact Option.noConfusion h
    | cons k2 rest2 =>
      rcases hm : mapGet fs k with _ | v
      · rw [jsonLeafLookup_cons_cons, hm] at h
        exact Option.noConfusion h
      · cases v with
        | str t =>
          rw [jsonLeafLookup_cons_cons, hm] at h
          exact Option.noConfusion h
        | obj g =>
          rw [jsonLeafLookup_cons_cons, hm] at h
          rw [List.cons_append, jsonLeafLookup_cons_of_mapGet hm, valLeafAt_obj]
          exact ih g s h e1 ext

theorem survKV_of_no_anc {l : List (String × String)}
    (h : ∀ e ∈ l, l.any (fun p => strictSegPre p.1 e.1) = false) : survKV l = l := by
  rw [survKV]
  refine List.filter_eq_self.mpr ?_
  intro e he
  rw [h e he]
  rfl

theorem mapGet_map_pair {α β : Type} (l : List (String × α)) (g : String → α → β)
    (q : String) :
    mapGet (l.map fun kv => (kv.1, g kv.1 kv.2)) q = (mapGet l q).map (g q) := by
  induction l with
  | nil => rfl
  | cons e rest ih =>
    obtain ⟨k, v⟩ := e
    by_cases hk : k = q
    · subst hk
      simp [mapGet]
    · simp only [List.map_cons, mapGet, if_neg hk]
      exact ih

end I18n

namespace I18n

theorem lookupBySeg_nil (l : List (String × String)) : lookupBySeg l [] = none := by
  induction l with
  | nil => rfl
  | cons e rest ih =>
    rw [lookupBySeg, if_neg (splitKey_ne_nil e.1), ih]

theorem wfJsonFields_key_dotFree {fs : List (String × Json)} {k : String}
    (hwf : WFJsonFields fs) (h : k ∈ mapKeys fs) : '.' ∉ k.data := by
  induction fs with
  | nil => simp [mapKeys] at h
  | cons e rest ih =>
    obtain ⟨k0, v0⟩ := e
    rw [WFJsonFields] at hwf
    simp only [mapKeys, List.map_cons, List.mem_cons] at h
    rcases h with rfl | hmem
    · exact hwf.1
    · exact ih hwf.2.2.2 (by simpa [mapKeys] using hmem)

theorem jsonLeafLookup_dotFree : ∀ (segs : List String) (fs : List (String × Json))
    (s : String), WFJsonFields fs → jsonLeafLookup fs segs = some s →
    ∀ seg ∈ segs, '.' ∉ seg.data := by
  intro segs
  induction segs with
  | nil =>
    intro fs s _ h
    rw [jsonLeafLookup_nil] at h
    exact Option.noConfusion h
  | cons k rest ih =>
    intro fs s hwf h seg hseg
    have hksome : ∃ v, mapGet fs k = some v := by
      rcases hm : mapGet fs k with _ | v
      · rw [jsonLeafLookup_head_none hm] at h
        exact Option.noConfusion h
      · exact ⟨v, rfl⟩
    obtain ⟨v, hm⟩ := hksome
    rcases List.mem_cons.mp hseg with rfl | hmem
    · exact wfJsonFields_key_dotFree hwf ((mapGet_isSome_iff fs seg).mp (by simp [hm]))
    · cases rest with
      | nil => simp at hmem
      | cons k2 rest2 =>
        rw [jsonLeafLookup_cons_cons, hm] at h
        cases v with
        | str t => exact Option.noConfusion h
        | obj g =>
          have hwg : WFJsonFields g := by
            have := wfJson_mapGet hwf hm
            rwa [WFJson] at this
          exact ih g s hwg h seg hmem

/-- Flatten-then-unflatten: rebuilding the tree from the flattening of a
well-formed, root-safe, clean tree reproduces the tree up to object-field
reordering. -/
theorem unflatten_gather_roundtrip (fs : List (String × Json))
    (hwf : WFJsonFields fs) (hrs : RootSafeFields fs) (hclean : CleanJsonFields fs) :
    canonJson (unflattenTranslations
        ((gatherTranslations (some (Json.obj fs))).map Prod.snd)) =
      canonJson (Json.obj fs) := by
  have haligned := gatherTranslations_aligned (some (Json.obj fs))
  have hnd := gatherTranslations_nodup (some (Json.obj fs))
  have hKv : ∀ q, mapGet (kvsOfTranslations
      ((gatherTranslations (some (Json.obj fs))).map Prod.snd)) q =
      jsonLeafLookup fs (splitKey q) := by
    intro q
    rw [kvsOf_mapGet haligned hnd q, gatherTranslations_mapGet fs hwf hrs q,
      leafHit_map_value]
  have hkvnd : ((kvsOfTranslations
      ((gatherTranslations (some (Json.obj fs))).map Prod.snd)).map Prod.fst).Nodup :=
    kvsOfTranslations_keys_nodup (by rw [aligned_keys_eq haligned]; exact hnd)
  have hpf : ∀ e ∈ kvsOfTranslations ((gatherTranslations (some (Json.obj fs))).map Prod.snd),
      (kvsOfTranslations ((gatherTranslations (some (Json.obj fs))).map Prod.snd)).any
        (fun p => strictSegPre p.1 e.1) = false := by
    intro e he
    rcases hb : (kvsOfTranslations ((gatherTranslations (some (Json.obj fs))).map Prod.snd)).any
        (fun p => strictSegPre p.1 e.1) with _ | _
    · rfl
    · exfalso
      obtain ⟨p, hp, hps⟩ := List.any_eq_true.mp hb
      have hpe : mapGet _ p.1 = some p.2 := (mem_iff_mapGet _ p.1 p.2 hkvnd).mp hp
      have hee : mapGet _ e.1 = some e.2 := (mem_iff_mapGet _ e.1 e.2 hkvnd).mp he
      rw [hKv] at hpe hee
      obtain ⟨hpre, hne⟩ := (strictSegPre_iff p.1 e.1).mp hps
      obtain ⟨ext, happ⟩ := hpre
      cases ext with
      | nil => exact hne (by rw [← happ, List.append_nil])
      | cons x xs =>
        have := leaf_blocks_deeper (splitKey p.1) fs p.2 hpe x xs
        rw [happ, hee] at this
        exact Option.noConfusion this
  have hsurv := survKV_of_no_anc hpf
  have spec := buildKV_spec _ (kvsOfTranslations_sorted _) hkvnd
  have hleafeq : ∀ segs, jsonLeafLookup (visFields (buildKV (kvsOfTranslations
      ((gatherTranslations (some (Json.obj fs))).map Prod.snd)))) segs =
      jsonLeafLookup fs segs := by
    intro segs
    rw [spec.2 segs, hsurv]
    cases segs with
    | nil => rw [lookupBySeg_nil, jsonLeafLookup_nil]
    | cons k rest =>
      by_cases hdot : ∀ seg ∈ k :: rest, '.' ∉ seg.data
      · have hsplit : splitKey (joinSegs (k :: rest)) = k :: rest :=
          splitKey_joinSegs (k :: rest) (by simp) hdot
        rw [← hsplit, lookupBySeg_splitKey, hKv, hsplit]
      · rcases hL : lookupBySeg (kvsOfTranslations
            ((gatherTranslations (some (Json.obj fs))).map Prod.snd)) (k :: rest) with _ | v
        · rcases hR : jsonLeafLookup fs (k :: rest) with _ | s
          · rfl
          · exact absurd (jsonLeafLookup_dotFree (k :: rest) fs s hwf hR) hdot
        · exfalso
          obtain ⟨e, -, hsk, -⟩ := lookupBySeg_eq_some hL
          refine hdot ?_
          intro seg hseg
          exact splitKey_dotFree e.1 seg (hsk ▸ hseg)
  have hwfR : WFJsonFields (visFields (buildKV (kvsOfTranslations
      ((gatherTranslations (some (Json.obj fs))).map Prod.snd)))) :=
    wfValFields_vis _ (wfValFields_buildKV _)
  have hcleanR : CleanJsonFields (visFields (buildKV (kvsOfTranslations
      ((gatherTranslations (some (Json.obj fs))).map Prod.snd)))) :=
    cleanJsonFields_vis _ (cleanValFields_buildKV _)
  exact canonJson_ext hwfR hwf hcleanR hclean hleafeq

/-- Unflatten-then-flatten: flattening the tree built from a duplicate-free,
prefix-collision-free, leading-dot-free flat map reproduces the flat map's
lookup function. -/
theorem gather_unflatten_roundtrip (f : List (String × String))
    (hnd : (f.map Prod.fst).Nodup)
    (hdot : ∀ e ∈ f, startsWithDot e.1 = false)
    (hpf : ∀ e1 ∈ f, ∀ e2 ∈ f, strictSegPre e1.1 e2.1 = false) (q : String) :
    mapGet (gatherTranslations (some (unflattenTranslations
        (f.map fun kv => { key := kv.1, value := kv.2 })))) q =
      (mapGet f q).map (fun v => { key := q, value := v }) := by
  have hts : (f.map fun kv => ({ key := kv.1, value := kv.2 } : Translation)) =
      (f.map fun kv => (kv.1, ({ key := kv.1, value := kv.2 } : Translation))).map
        Prod.snd := by
    rw [List.map_map]
    rfl
  have haligned : ∀ kv ∈ f.map fun kv =>
      (kv.1, ({ key := kv.1, value := kv.2 } : Translation)), kv.2.key = kv.1 := by
    intro kv hkv
    obtain ⟨e, -, rfl⟩ := List.mem_map.mp hkv
    rfl
  have hMkeys : mapKeys (f.map fun kv =>
      (kv.1, ({ key := kv.1, value := kv.2 } : Translation))) = f.map Prod.fst := by
    rw [mapKeys, List.map_map]
    rfl
  have hMnd : (mapKeys (f.map fun kv =>
      (kv.1, ({ key := kv.1, value := kv.2 } : Translation)))).Nodup := by
    rw [hMkeys]
    exact hnd
  have hMget : ∀ q2, mapGet (f.map fun kv =>
      (kv.1, ({ key := kv.1, value := kv.2 } : Translation))) q2 =
      (mapGet f q2).map (fun v => { key := q2, value := v }) := by
    intro q2
    exact @mapGet_map_pair String Translation f (fun k v => { key := k, value := v }) q2
  have hKv : ∀ q2, mapGet (kvsOfTranslations ((f.map fun kv =>
      (kv.1, ({ key := kv.1, value := kv.2 } : Translation))).map Prod.snd)) q2 =
      mapGet f q2 := by
    intro q2
    rw [kvsOf_mapGet haligned hMnd q2, hMget q2]
    rcases mapGet f q2 with _ | v <;> rfl
  have hkvnd : ((kvsOfTranslations ((f.map fun kv =>
      (kv.1, ({ key := kv.1, value := kv.2 } : Translation))).map Prod.snd)).map
        Prod.fst).Nodup :=
    kvsOfTranslations_keys_nodup (by rw [aligned_keys_eq haligned]; exact hMnd)
  have hmemf : ∀ e ∈ kvsOfTranslations ((f.map fun kv =>
      (kv.1, ({ key := kv.1, value := kv.2 } : Translation))).map Prod.snd), e ∈ f := by
    intro e he
    obtain ⟨k, v⟩ := e
    have := (mem_iff_mapGet _ k v hkvnd).mp he
    rw [hKv k] at this
    exact mapGet_mem this
  have hpfKv : ∀ e ∈ kvsOfTranslations ((f.map fun kv =>
      (kv.1, ({ key := kv.1, value := kv.2 } : Translation))).map Prod.snd),
      (kvsOfTranslations ((f.map fun kv =>
        (kv.1, ({ key := kv.1, value := kv.2 } : Translation))).map Prod.snd)).any
        (fun p => strictSegPre p.1 e.1) = false := by
    intro e he
    rw [← Bool.not_eq_true]
    intro hb
    obtain ⟨p, hp, hps⟩ := List.any_eq_true.mp hb
    have := hpf p (hmemf p hp) e (hmemf e he)
    rw [hps] at this
    exact Bool.noConfusion this
  have hdotKv : ∀ e ∈ kvsOfTranslations ((f.map fun kv =>
      (kv.1, ({ key := kv.1, value := kv.2 } : Translation))).map Prod.snd),
      startsWithDot e.1 = false := fun e he => hdot e (hmemf e he)
  have hwfR := wfValFields_vis _ (wfValFields_buildKV (kvsOfTranslations ((f.map fun kv =>
      (kv.1, ({ key := kv.1, value := kv.2 } : Translation))).map Prod.snd)))
  have hrsR : RootSafeFields (visFields (buildKV (kvsOfTranslations ((f.map fun kv =>
      (kv.1, ({ key := kv.1, value := kv.2 } : Translation))).map Prod.snd)))) :=
    rootSafe_of_no_empty_obj (wfJsonFields_nodup _ hwfR)
      (buildKV_no_root_empty_obj _ hdotKv)
  have spec := buildKV_spec _ (kvsOfTranslations_sorted ((f.map fun kv =>
      (kv.1, ({ key := kv.1, value := kv.2 } : Translation))).map Prod.snd)) hkvnd
  rw [hts]
  rw [show unflattenTranslations ((f.map fun kv =>
      (kv.1, ({ key := kv.1, value := kv.2 } : Translation))).map Prod.snd) =
      Json.obj (visFields (buildKV (kvsOfTranslations ((f.map fun kv =>
        (kv.1, ({ key := kv.1, value := kv.2 } : Translation))).map Prod.snd))))
    from rfl]
  rw [gatherTranslations_mapGet _ hwfR hrsR q, spec.2 (splitKey q),
    survKV_of_no_anc hpfKv, lookupBySeg_splitKey, hKv q]
  rcases mapGet f q with _ | v <;> rfl

end I18n

namespace I18n

/-! ### Resource-index assembly, characterized -/

/-- One step of a fold over plain keys that optionally writes a value at the
key. -/
def optSetKeysStep {γ : Type} (G : String → Option γ)
    (acc : List (String × γ)) (k : String) : List (String × γ) :=
  match G k with
  | some v => mapSet acc k v
  | none => acc

theorem optSetKeysStep_mapGet_ne {γ : Type} (G : String → Option γ)
    (A : List (String × γ)) (k q : String) (h : k ≠ q) :
    mapGet (optSetKeysStep G A k) q = mapGet A q := by
  cases hg : G k with
  | none => simp [optSetKeysStep, hg]
  | some v =>
    simp only [optSetKeysStep, hg]
    exact mapGet_set_ne A k q v (fun hh => h hh.symm)

theorem optSetKeysFold_mapGet_not_mem {γ : Type} (G : String → Option γ)
    (ks : List String) : ∀ (A : List (String × γ)) (q : String), q ∉ ks →
    mapGet (ks.foldl (optSetKeysStep G) A) q = mapGet A q := by
  induction ks with
  | nil => intro A q _; rfl
  | cons k rest ih =>
    intro A q h
    rw [List.foldl_cons, ih _ q (fun hm => h (List.mem_cons_of_mem k hm))]
    exact optSetKeysStep_mapGet_ne G A k q (fun he => h (he ▸ List.mem_cons_self k rest))

theorem optSetKeysFold_mapGet {γ : Type} (G : String → Option γ)
    (ks : List String) : ∀ (A : List (String × γ)) (q : String), ks.Nodup →
    mapGet (ks.foldl (optSetKeysStep G) A) q =
      if q ∈ ks then (match G q with | some v => some v | none => mapGet A q)
      else mapGet A q := by
  induction ks with
  | nil => intro A q _; simp
  | cons k rest ih =>
    intro A q hnd
    simp only [List.nodup_cons] at hnd
    rw [List.foldl_cons]
    by_cases hk : k = q
    · subst hk
      rw [optSetKeysFold_mapGet_not_mem G rest _ k hnd.1, if_pos (List.mem_cons_self k rest)]
      cases hg : G k with
      | some v => simp [optSetKeysStep, hg, mapGet_set_self]
      | none => simp [optSetKeysStep, hg]
    · rw [ih _ q hnd.2]
      have hmem : (q ∈ k :: rest) ↔ (q ∈ rest) := by
        rw [List.mem_cons]
        constructor
        · intro hc
          rcases hc with heq | hc
          · exact absurd heq.symm hk
          · exact hc
        · exact Or.inr
      by_cases hq : q ∈ rest
      · rw [if_pos hq, if_pos (List.mem_cons_of_mem k hq)]
        cases hg : G q with
        | some v => simp [hg]
        | none => simp [hg, optSetKeysStep_mapGet_ne G A k q hk]
      · rw [if_neg hq, if_neg (fun hc => hq (hmem.mp hc))]
        exact optSetKeysStep_mapGet_ne G A k q hk

/-- The per-namespace cell of the merged resource table: the generated
identifier when one exists, else the provided value, kept only if truthy. -/
def resourceCell (provided : List (String × Json)) (generated : List (String × String))
    (ns : String) : Option ResourceEntry :=
  match
    (match mapGet generated ns with
      | some g => some (ResourceEntry.identifier g)
      | none =>
        match mapGet provided ns with
        | some p => some (ResourceEntry.literal p)
        | none => none) with
  | some v => if resourceEntryTruthy v then some v else none
  | none => none

/-- One language's merged table. -/
def resourceTableFor (providedResources : List (String × List (String × Json)))
    (generatedResources : List (String × List (String × String)))
    (language : String) : List (String × ResourceEntry) :=
  let provided := (mapGet providedResources language).getD []
  let generated := (mapGet generatedResources language).getD []
  let allNamespaces := firstOccur (mapKeys provided ++ mapKeys generated)
  allNamespaces.foldl
    (fun acc ns =>
      let value : Option ResourceEntry :=
        match mapGet generated ns with
        | some g => some (ResourceEntry.identifier g)
        | none =>
          match mapGet provided ns with
          | some p => some (ResourceEntry.literal p)
          | none => none
      match value with
      | some v => if resourceEntryTruthy v then mapSet acc ns v else acc
      | none => acc)
    []

theorem buildResourcesObjectLiteral_eq (p : List (String × List (String × Json)))
    (g : List (String × List (String × String))) :
    buildResourcesObjectLiteral p g =
      (firstOccur (mapKeys p ++ mapKeys g)).map fun language =>
        (language, resourceTableFor p g language) := rfl

theorem resourceTableFor_eq_fold (p : List (String × List (String × Json)))
    (g : List (String × List (String × String))) (language : String) :
    resourceTableFor p g language =
      (firstOccur (mapKeys ((mapGet p language).getD []) ++
          mapKeys ((mapGet g language).getD []))).foldl
        (optSetKeysStep (resourceCell ((mapGet p language).getD [])
          ((mapGet g language).getD []))) [] := by
  rw [resourceTableFor]
  refine List.foldl_ext _ _ [] ?_
  intro acc ns _
  rcases hv : (match mapGet ((mapGet g language).getD []) ns with
      | some g2 => some (ResourceEntry.identifier g2)
      | none =>
        match mapGet ((mapGet p language).getD []) ns with
        | some p2 => some (ResourceEntry.literal p2)
        | none => none) with _ | v
  · simp only [optSetKeysStep, resourceCell, hv]
  · simp only [optSetKeysStep, resourceCell, hv]
    by_cases ht : resourceEntryTruthy v = true
    · rw [if_pos ht, if_pos ht]
    · rw [if_neg ht, if_neg ht]

/-- Pointwise characterization of a language's merged table. -/
theorem resourceTableFor_mapGet (p : List (String × List (String × Json)))
    (g : List (String × List (String × String))) (language ns : String) :
    mapGet (resourceTableFor p g language) ns =
      resourceCell ((mapGet p language).getD []) ((mapGet g language).getD []) ns := by
  rw [resourceTableFor_eq_fold,
    optSetKeysFold_mapGet _ _ [] ns (nodup_firstOccur _)]
  by_cases hmem : ns ∈ firstOccur (mapKeys ((mapGet p language).getD []) ++
      mapKeys ((mapGet g language).getD []))
  · rw [if_pos hmem]
    cases hg : resourceCell ((mapGet p language).getD []) ((mapGet g language).getD []) ns
      with
    | some v => simp [hg]
    | none => simp [hg, mapGet]
  · rw [if_neg hmem]
    have hnp : mapGet ((mapGet p language).getD []) ns = none := by
      rw [mapGet_eq_none_iff]
      intro hc
      exact hmem ((mem_firstOccur _ ns).mpr (List.mem_append.mpr (Or.inl hc)))
    have hng : mapGet ((mapGet g language).getD []) ns = none := by
      rw [mapGet_eq_none_iff]
      intro hc
      exact hmem ((mem_firstOccur _ ns).mpr (List.mem_append.mpr (Or.inr hc)))
    rw [resourceCell, hnp, hng]
    rfl

theorem buildResourcesObjectLiteral_mapGet (p : List (String × List (String × Json)))
    (g : List (String × List (String × String))) (language : String) :
    mapGet (buildResourcesObjectLiteral p g) language =
      if (mapGet p language).isSome ∨ (mapGet g language).isSome
      then some (resourceTableFor p g language) else none := by
  rw [buildResourcesObjectLiteral_eq,
    mapGet_map_fn _ _ _ (nodup_firstOccur (mapKeys p ++ mapKeys g))]
  by_cases h : language ∈ firstOccur (mapKeys p ++ mapKeys g)
  · rw [if_pos h, if_pos ?_]
    rcases List.mem_append.mp ((mem_firstOccur _ language).mp h) with hm | hm
    · exact Or.inl ((mapGet_isSome_iff p language).mpr hm)
    · exact Or.inr ((mapGet_isSome_iff g language).mpr hm)
  · rw [if_neg h, if_neg ?_]
    intro hc
    refine h ((mem_firstOccur _ language).mpr (List.mem_append.mpr ?_))
    rcases hc with hc | hc
    · exact Or.inl ((mapGet_isSome_iff p language).mp hc)
    · exact Or.inr ((mapGet_isSome_iff g language).mp hc)

end I18n

namespace I18n

/-- The field list of a serialized tree (the built `fileContent` is always an
object). -/
def jsonFieldsOf : Json → List (String × Json)
  | .str _ => []
  | .obj fs => fs

theorem mergeTree_leaf (gen ex : List (String × Translation)) (segs : List String) :
    jsonLeafLookup (jsonFieldsOf (mergeAndBuildTranslationsTree defaultConflictHandler gen ex))
        segs = lookupBySeg (survKV (mergeKVs gen ex)) segs := by
  rw [mergeAndBuildTranslationsTree_eq_kvs]
  rw [show jsonFieldsOf (Json.obj (visFields (buildKV (mergeKVs gen ex)))) =
      visFields (buildKV (mergeKVs gen ex)) from rfl]
  exact (buildKV_spec _ (mergeKVs_sorted gen ex) (mergeKVs_keys_nodup gen ex)).2 segs

theorem mergeKVs_mapGet_merge (gen ex : List (String × Translation)) (q : String) :
    mapGet (mergeKVs gen ex) q =
      (mapGet (mergeFinalTranslations defaultConflictHandler gen ex) q).map
        Translation.value :=
  kvsOf_mapGet (mergeFinal_default_mem_aligned gen ex) (mergeFinal_default_keys_nodup gen ex) q

/-- Prefix collisions in the final map: a shallowest colliding key's leaf is
the one the output tree carries, and every strictly deeper key's leaf is
absent from the output. -/
theorem prefix_collision_core (gen ex : List (String × Translation)) (q1 q2 : String)
    (t1 : Translation)
    (h1 : mapGet (mergeFinalTranslations defaultConflictHandler gen ex) q1 = some t1)
    (h2 : strictSegPre q1 q2 = true)
    (hmin : ∀ p ∈ mergeKVs gen ex, strictSegPre p.1 q1 = false) :
    jsonLeafLookup (jsonFieldsOf (mergeAndBuildTranslationsTree defaultConflictHandler gen ex))
        (splitKey q1) = some t1.value ∧
      jsonLeafLookup (jsonFieldsOf (mergeAndBuildTranslationsTree defaultConflictHandler gen ex))
        (splitKey q2) = none := by
  have hkv1 : mapGet (mergeKVs gen ex) q1 = some t1.value := by
    rw [mergeKVs_mapGet_merge, h1]
    rfl
  have hmem1 : (q1, t1.value) ∈ mergeKVs gen ex := mapGet_mem hkv1
  have hany : (mergeKVs gen ex).any (fun p => strictSegPre p.1 q1) = false := by
    rw [← Bool.not_eq_true]
    intro hb
    obtain ⟨p, hp, hps⟩ := List.any_eq_true.mp hb
    have := hmin p hp
    rw [hps] at this
    exact Bool.noConfusion this
  have hsurv1 : (q1, t1.value) ∈ survKV (mergeKVs gen ex) := mem_survKV.mpr ⟨hmem1, hany⟩
  have hsnodup : ((survKV (mergeKVs gen ex)).map Prod.fst).Nodup :=
    survKV_keys_nodup (mergeKVs_keys_nodup gen ex)
  constructor
  · rw [mergeTree_leaf, lookupBySeg_splitKey]
    exact (mem_iff_mapGet _ _ _ hsnodup).mp hsurv1
  · rw [mergeTree_leaf, lookupBySeg_splitKey]
    rcases hx : mapGet (survKV (mergeKVs gen ex)) q2 with _ | v
    · rfl
    · exfalso
      obtain ⟨hmem2, hno2⟩ := mem_survKV.mp (mapGet_mem hx)
      have : (mergeKVs gen ex).any (fun p => strictSegPre p.1 q2) = true :=
        List.any_eq_true.mpr ⟨(q1, t1.value), hmem1, h2⟩
      rw [hno2] at this
      exact Bool.noConfusion this

end I18n

namespace I18n

/-! ### The bracket-free key fragment

`lodash.setwith` parses bracket groups in keys (`castPath`/`stringToPath`
turn `a["b.c"]` into the path `['a', 'b.c']`); on keys containing neither
`'['` nor `']'` its path is exactly `splitKey`.  The embedding models only
that fragment, so claims whose meaning rests on the built object graph are
stated under these predicates. -/

/-- A key free of the characters lodash's path parser treats as bracket
syntax; on such keys `castPath` agrees with `splitKey`. -/
def bracketFree (s : String) : Bool :=
  !(s.data.contains '[') && !(s.data.contains ']')

mutual

/-- A JSON tree all of whose field names are bracket-free. -/
def BracketFreeJson : Json → Prop
  | .str _ => True
  | .obj fs => BracketFreeJsonFields fs

/-- Object fields with bracket-free names and bracket-free subtrees. -/
def BracketFreeJsonFields : List (String × Json) → Prop
  | [] => True
  | (k, v) :: rest =>
    bracketFree k = true ∧ BracketFreeJson v ∧ BracketFreeJsonFields rest

end

/-! ### Concrete fixtures -/

/-- A generated translation at key `a`. -/
def trA : Translation := { key := "a", value := "x" }

/-- A generated translation at key `a.b`, a strict dot-path descendant of `a`. -/
def trAB : Translation := { key := "a.b", value := "y" }

/-- A generated map holding both a key and a strict dot-path descendant of it. -/
def genX : List (String × Translation) := [("a", trA), ("a.b", trAB)]

/-- A generated translation whose key begins with a dot. -/
def trDotC : Translation := { key := ".c", value := "v" }

/-- A file configuration selecting the `remove` unmatched-translation policy. -/
def cfgRemove : I18nPluginFileGeneratorConfig :=
  { language := "en", unmatchedTranslationFromExistingFileHandler := some .remove }

/-- An enum schema unit with a single option `RED`. -/
def enumSchemaRED : GeneratedSchema :=
  { rawSchema := { enum := some { options := [{ name := "RED" }] } }, generatedName := "E" }

/-- A polymorph-only schema unit. -/
def polySchema : GeneratedSchema :=
  { rawSchema := { polymorph := some { members := some ["m.One"] } }, generatedName := "P" }

end I18n

namespace I18n

/-! ### The claims -/

/-- C1: the default conflict handler prefers the persisted value whenever it
is defined (regardless of the generated value), falls back to the generated
value when only that is defined, and returns null only when both are
absent — always under the prospect's key. -/
theorem defaultConflictHandler_spec :
    ∀ (prospect : ProspectiveTranslation) (ctx : List (String × ProspectiveTranslation)),
      defaultConflictHandler prospect ctx =
        match prospect.newValue, prospect.existingValue with
        | _, some e => some { key := prospect.key, value := e }
        | some n, none => some { key := prospect.key, value := n }
        | none, none => none := by
  intro p ctx
  rcases hn : p.newValue with _ | n <;> rcases he : p.existingValue with _ | e <;>
    simp [defaultConflictHandler, hn, he]

/-- C2: the `unmatchedTranslationFromExistingFileHandler` file option is never
read by the per-file run, so the run's output is independent of the configured
policy; in particular, under the `remove` policy an existing-only key is still
retained in the output. -/
theorem unmatched_policy_ignored :
    (∀ (h : I18nPluginConflictHandler) (f : I18nPluginFileGeneratorConfig)
        (s : List GeneratedSchema) (c : ExistingFileContent)
        (p1 p2 : Option UnmatchedTranslationHandlerPolicy),
      runFileContent h { f with unmatchedTranslationFromExistingFileHandler := p1 } s c =
        runFileContent h { f with unmatchedTranslationFromExistingFileHandler := p2 } s c) ∧
    runFileContent defaultConflictHandler cfgRemove []
        (.parsed (Json.obj [("a", Json.str "b")])) = "\x7b\n  \"a\": \"b\"\n\x7d" := by
  refine ⟨fun h f s c p1 p2 => rfl, ?_⟩
  simp [runFileContent, parseExistingValue, gatherTranslations, gatherVal, gatherFieldsAux,
    joinPath, newTranslationsForFile, mergeAndBuildTranslations, mergeAndBuildTranslationsTree,
    mergeFinalTranslations, buildProspectiveTranslations, firstOccur, mapGet, mapSet, mapKeys,
    defaultConflictHandler, sortByKeyTranslations, List.insertionSort, List.orderedInsert,
    buildKV, setWithObject, splitKey, splitCharsOnDot, visFields, visVal, stringifyJson,
    stringifyFields, jsonQuote, jsonQuoteChar, jsonIndent, prospectAt, kvsOfTranslations]
  rfl

/-- C3 (amended): reconciliation with the default conflict handler is
idempotent — rerunning the merge against the first run's output tree
reproduces the byte-identical serialized output — provided no generated or
persisted key begins with a `.` character (a leading-dot key produces an
empty first path segment that the flattener collapses, changing the key on
the second run) and every key is free of `'['`/`']'` (on a bracket-group key
such as `a["b.c"]` lodash's path parser departs from dot-splitting, so the
first run already nests differently from its own flattening).  The
bracket-free hypotheses confine the statement to the fragment on which the
embedding's `splitKey` is lodash's `castPath`. -/
theorem reconcile_idempotent (gen ex1 : List (String × Translation))
    (hg : ∀ e ∈ gen, startsWithDot e.1 = false)
    (he : ∀ e ∈ ex1, startsWithDot e.1 = false)
    (hgb : ∀ e ∈ gen, bracketFree e.1 = true)
    (heb : ∀ e ∈ ex1, bracketFree e.1 = true) :
    mergeAndBuildTranslations defaultConflictHandler gen
        (gatherTranslations (some (mergeAndBuildTranslationsTree defaultConflictHandler
          gen ex1))) =
      mergeAndBuildTranslations defaultConflictHandler gen ex1 :=
  merge_idempotent_core gen ex1 hg he

theorem reconcile_idempotent_witness :
    (∀ e ∈ genX, startsWithDot e.1 = false) ∧ (∀ e ∈ genX, bracketFree e.1 = true) ∧
    mergeAndBuildTranslations defaultConflictHandler genX
        (gatherTranslations (some (mergeAndBuildTranslationsTree defaultConflictHandler
          genX []))) =
      mergeAndBuildTranslations defaultConflictHandler genX [] :=
  ⟨by decide, by decide,
    reconcile_idempotent genX [] (by decide) (by decide) (by decide) (by decide)⟩

/-- C3 counterexample: with the generated key `.c` the first run serializes
`\x7b "": \x7b "c": "v" \x7d \x7d`, whose flattening yields the key `c`, so
the second run's output also carries a top-level `c` leaf and differs from
the first run's bytes. -/
theorem reconcile_not_idempotent_for_dot_key :
    mergeAndBuildTranslations defaultConflictHandler [(".c", trDotC)]
        (gatherTranslations (some (mergeAndBuildTranslationsTree defaultConflictHandler
          [(".c", trDotC)] []))) ≠
      mergeAndBuildTranslations defaultConflictHandler [(".c", trDotC)] [] := by
  simp +decide [mergeAndBuildTranslations, mergeAndBuildTranslationsTree, mergeFinalTranslations,
    buildProspectiveTranslations, firstOccur, mapGet, mapSet, mapKeys, defaultConflictHandler,
    sortByKeyTranslations, List.insertionSort, List.orderedInsert, buildKV, setWithObject,
    splitKey, splitCharsOnDot, visFields, visVal, stringifyJson, stringifyFields, jsonQuote,
    jsonQuoteChar, jsonIndent, prospectAt, kvsOfTranslations, gatherTranslations, gatherVal,
    gatherFieldsAux, joinPath, trDotC]

end I18n

namespace I18n

/-- C4 (amended): the tree codec round-trips up to object-field reordering
and modulo the representable inputs: unflattening the flattening of a tree
whose field names are dot-free (well-formed) and bracket-free, whose root has
no object under an empty key, and which has no empty object subtree
reproduces the tree's canonical form; and flattening the tree built from a
duplicate-free flat map with non-prefix-colliding, leading-dot-free,
bracket-free keys reproduces the flat map's lookup function.  The
bracket-free hypotheses confine both halves to the fragment on which the
embedding's `splitKey` is lodash's `castPath` (a field name or key holding a
bracket group, such as `a["b"]`, is re-parsed by the real `setWith` and does
not round-trip). -/
theorem tree_codec_roundtrip :
    (∀ fs : List (String × Json), WFJsonFields fs → RootSafeFields fs →
      CleanJsonFields fs → BracketFreeJsonFields fs →
      canonJson (unflattenTranslations
          ((gatherTranslations (some (Json.obj fs))).map Prod.snd)) =
        canonJson (Json.obj fs)) ∧
    (∀ f : List (String × String), (f.map Prod.fst).Nodup →
      (∀ e ∈ f, startsWithDot e.1 = false) →
      (∀ e ∈ f, bracketFree e.1 = true) →
      (∀ e1 ∈ f, ∀ e2 ∈ f, strictSegPre e1.1 e2.1 = false) → ∀ q,
      mapGet (gatherTranslations (some (unflattenTranslations
          (f.map fun kv => { key := kv.1, value := kv.2 })))) q =
        (mapGet f q).map (fun v => { key := q, value := v })) :=
  ⟨fun fs hwf hrs hcl _ => unflatten_gather_roundtrip fs hwf hrs hcl,
    fun f hnd hdot _ hpf => gather_unflatten_roundtrip f hnd hdot hpf⟩

theorem tree_codec_roundtrip_witness :
    (WFJsonFields [("a", Json.obj [("b", Json.str "v")])] ∧
      RootSafeFields [("a", Json.obj [("b", Json.str "v")])] ∧
      CleanJsonFields [("a", Json.obj [("b", Json.str "v")])] ∧
      BracketFreeJsonFields [("a", Json.obj [("b", Json.str "v")])] ∧
      canonJson (unflattenTranslations
          ((gatherTranslations (some (Json.obj [("a", Json.obj [("b", Json.str "v")])]))).map
            Prod.snd)) =
        canonJson (Json.obj [("a", Json.obj [("b", Json.str "v")])])) ∧
    mapGet (gatherTranslations (some (unflattenTranslations
        (([("a", "x")] : List (String × String)).map fun kv =>
          { key := kv.1, value := kv.2 })))) "a" =
      some { key := "a", value := "x" } := by
  have hwf : WFJsonFields [("a", Json.obj [("b", Json.str "v")])] := by
    simp +decide [WFJsonFields, WFJson, mapKeys]
  have hrs : RootSafeFields [("a", Json.obj [("b", Json.str "v")])] := by
    simp +decide [RootSafeFields]
  have hcl : CleanJsonFields [("a", Json.obj [("b", Json.str "v")])] := by
    simp [CleanJsonFields, CleanJson]
  have hbf : BracketFreeJsonFields [("a", Json.obj [("b", Json.str "v")])] := by
    simp +decide [BracketFreeJsonFields, BracketFreeJson, bracketFree]
  refine ⟨⟨hwf, hrs, hcl, hbf, tree_codec_roundtrip.1 _ hwf hrs hcl hbf⟩, ?_⟩
  rw [tree_codec_roundtrip.2 [("a", "x")] (by decide) (by decide) (by decide) (by decide) "a"]
  rfl

/-- C4 counterexample: the flat map holding the single (hence
non-prefix-colliding) key `.c` does not survive the round trip — the rebuilt
tree files the value under a root empty segment, and re-flattening it yields
the key `c`, so lookup at `.c` comes back empty instead of the original
value. -/
theorem tree_codec_roundtrip_fails_dot_key :
    mapGet (gatherTranslations (some (unflattenTranslations
        (([(".c", "v")] : List (String × String)).map fun kv =>
          { key := kv.1, value := kv.2 })))) ".c" = none := by
  simp +decide [unflattenTranslations, kvsOfTranslations, sortByKeyTranslations,
    List.insertionSort, List.orderedInsert, buildKV, setWithObject, splitKey, splitCharsOnDot,
    visFields, visVal, gatherTranslations, gatherVal, gatherFieldsAux, joinPath, mapGet,
    mapSet]

/-- C5 (amended): the default translation path getter recognizes exactly two
structural kinds — `oneOf` first, then `enum` — and yields absent for every
other unit, including polymorph schemas; an absent path makes the run skip
the unit for the file. -/
theorem defaultPathGetter_spec :
    (∀ (s : GeneratedSchema) (o : OneOfSchemaInfo), s.rawSchema.oneOf = some o →
      defaultTranslationPathOrGetter s = some ("oneOf." ++ s.generatedName)) ∧
    (∀ (s : GeneratedSchema) (e : EnumSchemaInfo), s.rawSchema.oneOf = none →
      s.rawSchema.enum = some e →
      defaultTranslationPathOrGetter s = some ("enum." ++ s.generatedName)) ∧
    (∀ s : GeneratedSchema, s.rawSchema.oneOf = none → s.rawSchema.enum = none →
      defaultTranslationPathOrGetter s = none ∧
        ∀ lang, newTranslationsForFile { language := lang } [s] = []) := by
  refine ⟨?_, ?_, ?_⟩
  · intro s o h
    simp [defaultTranslationPathOrGetter, h]
  · intro s e h1 h2
    simp [defaultTranslationPathOrGetter, h1, h2]
  · intro s h1 h2
    refine ⟨by simp [defaultTranslationPathOrGetter, h1, h2], ?_⟩
    intro lang
    simp [newTranslationsForFile, defaultTranslationPathOrGetter, h1, h2]

theorem defaultPathGetter_spec_witness :
    (polySchema.rawSchema.oneOf = none ∧ polySchema.rawSchema.enum = none ∧
      defaultTranslationPathOrGetter polySchema = none ∧
      newTranslationsForFile { language := "en" } [polySchema] = []) ∧
    (enumSchemaRED.rawSchema.oneOf = none ∧
      enumSchemaRED.rawSchema.enum = some { options := [{ name := "RED" }] } ∧
      defaultTranslationPathOrGetter enumSchemaRED = some "enum.E") :=
  ⟨⟨rfl, rfl, (defaultPathGetter_spec.2.2 polySchema rfl rfl).1,
      (defaultPathGetter_spec.2.2 polySchema rfl rfl).2 "en"⟩,
    ⟨rfl, rfl, defaultPathGetter_spec.2.1 enumSchemaRED { options := [{ name := "RED" }] }
      rfl rfl⟩⟩

/-- C5 counterexample: a polymorph schema unit — the third kind the claim
lists as recognized — yields an absent path from the default getter. -/
theorem defaultPathGetter_polymorph_absent :
    polySchema.rawSchema.polymorph = some { members := some ["m.One"] } ∧
    defaultTranslationPathOrGetter polySchema = none := ⟨rfl, rfl⟩

/-- C6 (amended): the default schema translation writer emits one translation
per member name at `path.memberName` whose value is the member name verbatim
(no title-casing; the title-cased defaults come from the test suite's custom
writer, not this one). -/
theorem defaultWriter_spec :
    (∀ (s : GeneratedSchema) (path : String) (o : OneOfSchemaInfo),
      s.rawSchema.oneOf = some o →
      defaultSchemaTranslationWriter s path =
        some (o.properties.map fun p => { key := path ++ "." ++ p.name, value := p.name })) ∧
    (∀ (s : GeneratedSchema) (path : String) (e : EnumSchemaInfo),
      s.rawSchema.oneOf = none → s.rawSchema.enum = some e →
      defaultSchemaTranslationWriter s path =
        some (e.options.map fun opt => { key := path ++ "." ++ opt.name, value := opt.name })) := by
  constructor
  · intro s path o h
    simp [defaultSchemaTranslationWriter, h]
  · intro s path e h1 h2
    simp [defaultSchemaTranslationWriter, h1, h2]

theorem defaultWriter_spec_witness :
    enumSchemaRED.rawSchema.oneOf = none ∧
    enumSchemaRED.rawSchema.enum = some { options := [{ name := "RED" }] } ∧
    defaultSchemaTranslationWriter enumSchemaRED "enum.E" =
      some [{ key := "enum.E.RED", value := "RED" }] :=
  ⟨rfl, rfl, defaultWriter_spec.2 enumSchemaRED "enum.E" { options := [{ name := "RED" }] }
    rfl rfl⟩

/-- C6 counterexample: for the member `RED` the default writer emits the raw
value `RED`, while the title-cased form (as computed by the repository's
`titleCaseName` with its case overrides) is `Red`. -/
theorem defaultWriter_emits_raw_member_names :
    defaultSchemaTranslationWriter enumSchemaRED "enum.E" =
      some [{ key := "enum.E.RED", value := "RED" }] ∧
    titleCaseName "RED" caseOverrides defaultMinorWords = "Red" ∧
    ("RED" : String) ≠ "Red" := ⟨rfl, rfl, by decide⟩

/-- C7: a persisted file whose content fails to parse is handled exactly like
an absent file — the parse error is swallowed and reconciliation proceeds
from the generated translations alone. -/
theorem parse_failure_nonfatal :
    ∀ (h : I18nPluginConflictHandler) (f : I18nPluginFileGeneratorConfig)
      (s : List GeneratedSchema),
      runFileContent h f s .malformed = runFileContent h f s .absent :=
  fun _ _ _ => rfl

end I18n

namespace I18n

/-- C8 (amended): per (language, namespace) pair the merged resource table
uses the generated identifier whenever one exists (even over a statically
supplied entry); otherwise the statically supplied value is used only when it
is truthy — a falsy provided value (such as the empty string) is dropped by
the `if (value)` guard — and the namespace is omitted when neither side has
a (kept) value. -/
theorem resourceIndex_merge_spec :
    ∀ (p : List (String × List (String × Json)))
      (g : List (String × List (String × String))) (lang : String),
      (((mapGet p lang).isSome = true ∨ (mapGet g lang).isSome = true) →
        mapGet (buildResourcesObjectLiteral p g) lang = some (resourceTableFor p g lang)) ∧
      ∀ ns : String,
        (∀ gid, mapGet ((mapGet g lang).getD []) ns = some gid →
          mapGet (resourceTableFor p g lang) ns = some (.identifier gid)) ∧
        (mapGet ((mapGet g lang).getD []) ns = none →
          ∀ v, mapGet ((mapGet p lang).getD []) ns = some v →
            mapGet (resourceTableFor p g lang) ns =
              if jsTruthy v then some (.literal v) else none) ∧
        (mapGet ((mapGet g lang).getD []) ns = none →
          mapGet ((mapGet p lang).getD []) ns = none →
          mapGet (resourceTableFor p g lang) ns = none) := by
  intro p g lang
  refine ⟨?_, ?_⟩
  · intro h
    rw [buildResourcesObjectLiteral_mapGet, if_pos h]
  · intro ns
    refine ⟨?_, ?_, ?_⟩
    · intro gid hg
      rw [resourceTableFor_mapGet, resourceCell, hg]
      rfl
    · intro hg v hp
      rw [resourceTableFor_mapGet, resourceCell, hg, hp]
      by_cases ht : jsTruthy v = true
      · rw [if_pos ht]
        simp [resourceEntryTruthy, ht]
      · rw [if_neg ht]
        simp only [resourceEntryTruthy]
        rw [if_neg ht]
    · intro hg hp
      rw [resourceTableFor_mapGet, resourceCell, hg, hp]

theorem resourceIndex_merge_spec_witness :
    mapGet (buildResourcesObjectLiteral [("en", [("common", Json.str "X")])]
        [("en", [("common", "enCommonNs")])]) "en" =
      some (resourceTableFor [("en", [("common", Json.str "X")])]
        [("en", [("common", "enCommonNs")])] "en") ∧
    mapGet (resourceTableFor [("en", [("common", Json.str "X")])]
        [("en", [("common", "enCommonNs")])] "en") "common" =
      some (.identifier "enCommonNs") :=
  ⟨(resourceIndex_merge_spec _ _ "en").1 (Or.inl rfl),
    ((resourceIndex_merge_spec _ _ "en").2 "common").1 "enCommonNs" rfl⟩

/-- C8 counterexample: a statically supplied empty-string resource with no
generated counterpart is omitted from the merged table (the claim says the
supplied value is used whenever the generated side is absent). -/
theorem resourceIndex_drops_falsy_provided :
    buildResourcesObjectLiteral [("en", [("common", Json.str "")])] [] = [("en", [])] := by
  rw [buildResourcesObjectLiteral_eq]
  have h1 : firstOccur (mapKeys [("en", [("common", Json.str "")])] ++
      mapKeys ([] : List (String × List (String × String)))) = ["en"] := by
    simp [mapKeys, firstOccur]
  rw [h1]
  simp only [List.map_cons, List.map_nil]
  rw [resourceTableFor_eq_fold]
  have h2 : firstOccur (mapKeys ((mapGet [("en", [("common", Json.str "")])] "en").getD []) ++
      mapKeys ((mapGet ([] : List (String × List (String × String))) "en").getD [])) =
      ["common"] := by
    simp [mapKeys, mapGet, firstOccur]
  rw [h2]
  simp [optSetKeysStep, resourceCell, mapGet, resourceEntryTruthy, jsTruthy]

/-- C9: under the default conflict handler the final merged map holds exactly
the union of the generated and persisted key sets — no key of either side is
dropped and none is invented. -/
theorem merge_key_set_union :
    ∀ (gen ex : List (String × Translation)) (q : String),
      (mapGet (mergeFinalTranslations defaultConflictHandler gen ex) q).isSome = true ↔
        (mapGet gen q).isSome = true ∨ (mapGet ex q).isSome = true :=
  mergeFinal_default_isSome

/-- C10 (amended): with both a key and a strict dot-path descendant of it in
the final map, serialization does not fail, but it is the shallow key's leaf
that the output tree carries (when no still-shorter key shadows it), and the
deeper key's leaf is absent — the deeper `setWith` write lands invisibly
inside a `String` wrapper object, the opposite of the claimed direction.
The statement assumes every inserted key and the queried descendant are free
of `'['`/`']'`, the fragment on which the embedding's `splitKey` is lodash's
`castPath` (a bracket-group key such as `a["b"]` is re-parsed by the real
`setWith` into a different path). -/
theorem prefix_collision_spec (gen ex : List (String × Translation)) (q1 q2 : String)
    (t1 : Translation)
    (h1 : mapGet (mergeFinalTranslations defaultConflictHandler gen ex) q1 = some t1)
    (h2 : strictSegPre q1 q2 = true)
    (hmin : ∀ p ∈ mergeKVs gen ex, strictSegPre p.1 q1 = false)
    (hb : ∀ p ∈ mergeKVs gen ex, bracketFree p.1 = true)
    (hb2 : bracketFree q2 = true) :
    jsonLeafLookup (jsonFieldsOf (mergeAndBuildTranslationsTree defaultConflictHandler gen ex))
        (splitKey q1) = some t1.value ∧
      jsonLeafLookup (jsonFieldsOf (mergeAndBuildTranslationsTree defaultConflictHandler gen ex))
        (splitKey q2) = none :=
  prefix_collision_core gen ex q1 q2 t1 h1 h2 hmin

theorem prefix_collision_spec_witness :
    jsonLeafLookup (jsonFieldsOf (mergeAndBuildTranslationsTree defaultConflictHandler genX []))
        (splitKey "a") = some "x" ∧
      jsonLeafLookup (jsonFieldsOf (mergeAndBuildTranslationsTree defaultConflictHandler genX []))
        (splitKey "a.b") = none := by
  have h1 : mapGet (mergeFinalTranslations defaultConflictHandler genX []) "a" = some trA := by
    simp [mergeFinalTranslations, buildProspectiveTranslations, firstOccur, mapGet, mapSet,
      mapKeys, defaultConflictHandler, prospectAt, trA, trAB, genX]
  have hkvs : mergeKVs genX [] = [("a", "x"), ("a.b", "y")] := by
    simp +decide [mergeKVs, kvsOfTranslations, sortByKeyTranslations, List.insertionSort,
      List.orderedInsert, mergeFinalTranslations, buildProspectiveTranslations, firstOccur,
      mapGet, mapSet, mapKeys, defaultConflictHandler, prospectAt, trA, trAB, genX]
  have hmin : ∀ p ∈ mergeKVs genX [], strictSegPre p.1 "a" = false := by
    rw [hkvs]
    decide
  have hb : ∀ p ∈ mergeKVs genX [], bracketFree p.1 = true := by
    rw [hkvs]
    decide
  exact prefix_collision_spec genX [] "a" "a.b" trA h1 (by decide) hmin hb (by decide)

/-- C10 counterexample: for the final map `\x7ba ↦ x, a.b ↦ y\x7d` both
colliding keys are present in the merged map, yet the output tree carries the
shallow leaf `a ↦ x` and no leaf at `a.b`, contradicting the claim that only
the deeper key's leaf remains. -/
theorem prefix_collision_shallow_survives :
    mapGet (mergeFinalTranslations defaultConflictHandler genX []) "a.b" = some trAB ∧
    jsonLeafLookup (jsonFieldsOf (mergeAndBuildTranslationsTree defaultConflictHandler genX []))
        ["a"] = some "x" ∧
      jsonLeafLookup (jsonFieldsOf (mergeAndBuildTranslationsTree defaultConflictHandler genX []))
        ["a", "b"] = none := by
  refine ⟨?_, ?_, ?_⟩
  · simp [mergeFinalTranslations, buildProspectiveTranslations, firstOccur, mapGet, mapSet,
      mapKeys, defaultConflictHandler, prospectAt, trA, trAB, genX]
  · simp +decide [mergeAndBuildTranslationsTree, mergeFinalTranslations,
      buildProspectiveTranslations, firstOccur, mapGet, mapSet, mapKeys, defaultConflictHandler,
      sortByKeyTranslations, List.insertionSort, List.orderedInsert, buildKV, setWithObject,
      splitKey, splitCharsOnDot, visFields, visVal, prospectAt, kvsOfTranslations,
      jsonFieldsOf, jsonLeafLookup, trA, trAB, genX]
  · simp +decide [mergeAndBuildTranslationsTree, mergeFinalTranslations,
      buildProspectiveTranslations, firstOccur, mapGet, mapSet, mapKeys, defaultConflictHandler,
      sortByKeyTranslations, List.insertionSort, List.orderedInsert, buildKV, setWithObject,
      splitKey, splitCharsOnDot, visFields, visVal, prospectAt, kvsOfTranslations,
      jsonFieldsOf, jsonLeafLookup, trA, trAB, genX]

end I18n
